import Mathlib

/-!
# Paxos proposer (`elle::athena::paxos::Client`)

A shallow embedding of `src/src/elle/athena/paxos/Client.hxx`.

Modelling conventions.

* `Value`, `Version`, `ClientId` are the template parameters of the source; `E`
  is the payload of a foreign exception (what a `std::exception_ptr` points to).
* C++ exceptions are values of `Exn`; a peer call returns `Except Exn _`.
* A peer is a record of its four remote procedures.  The extra `Nat` argument of
  each procedure is a logical clock (one tick per `choose` iteration and per
  `state` call): it stands for the hidden mutable state of the acceptor, so that
  the same peer may answer differently from one iteration to the next.
* `for_each_parallel` is embedded under the schedule in which the sub-tasks run
  to completion one after the other, in the order of `_peers`; `break_parallel`
  stops the traversal, `continue_parallel` moves to the next peer.
* `std::set<Peer*> unavailables` is a list of positions in `_peers`.
* `int` is `Int` (signed overflow is undefined behaviour and is not modelled);
  `/` on `int` is `Int.tdiv` (truncation toward zero).
* `while (true)` is unrolled with a fuel counter; a call that runs out of fuel
  ends with the flow `Flow.again`.
* Every remote call is recorded, with its outcome, in the `events` of the
  iteration that makes it; a call of `choose` yields the list of its
  iterations, oldest first.
-/

set_option linter.unusedSectionVars false

namespace elle.athena.paxos

/-! ## Data model -/

/-- Modelled from the spec: the declaration of `Proposal` is not among the
sources; the spec gives the three fields `(version, round, client)`, and the
source reads `->version` and `->round`. -/
structure Proposal (Version ClientId : Type) where
  version : Version
  round : Int
  client : ClientId
deriving DecidableEq, Repr

/-- Modelled from the spec: `operator <` of `Proposal` is not among the sources;
the spec says `P < Q` iff `P.version < Q.version`, or equal and
`P.round < Q.round`, or both equal and `P.client < Q.client`. -/
def Proposal.lt {Version ClientId : Type} [LinearOrder Version] [LinearOrder ClientId]
    (p q : Proposal Version ClientId) : Prop :=
  p.version < q.version ∨
    (p.version = q.version ∧ (p.round < q.round ∨ (p.round = q.round ∧ p.client < q.client)))

instance {Version ClientId : Type} [LinearOrder Version] [LinearOrder ClientId] :
    LT (Proposal Version ClientId) := ⟨Proposal.lt⟩

instance Proposal.decLt {Version ClientId : Type} [LinearOrder Version] [LinearOrder ClientId]
    (p q : Proposal Version ClientId) : Decidable (p < q) :=
  inferInstanceAs (Decidable (p.version < q.version ∨
    (p.version = q.version ∧ (p.round < q.round ∨ (p.round = q.round ∧ p.client < q.client)))))

/-- The triple of a proposal in the lexicographic product order; it serves to
transport the order lemmas of `Prod.Lex` to `Proposal`. -/
def Proposal.key {Version ClientId : Type} (p : Proposal Version ClientId) :
    Version ×ₗ (Int ×ₗ ClientId) :=
  toLex (p.version, toLex (p.round, p.client))

/-- The quorum: a set of client ids (`Quorum q; q.insert(peer->id())`). -/
abbrev Quorum (ClientId : Type) := Finset ClientId

/-- Modelled from the spec: the phase-1 reply (`Response` is declared outside the
sources).  The source reads `proposal()`, `value()` (both optional) and
`confirmed()`. -/
structure Response (Version ClientId Value : Type) where
  proposal : Option (Proposal Version ClientId)
  value : Option Value
  confirmed : Bool
deriving DecidableEq, Repr

/-- Modelled from the spec: `Accepted` is `(proposal, Value)`. -/
structure Accepted (Version ClientId Value : Type) where
  proposal : Proposal Version ClientId
  value : Value
deriving DecidableEq, Repr

/-- Modelled from the spec: `State` is `(optional Value, Quorum, optional Proposal)`. -/
structure State (Version ClientId Value : Type) where
  value : Option Value
  quorum : Quorum ClientId
  proposal : Option (Proposal Version ClientId)

instance State.decEq {Version ClientId Value : Type} [DecidableEq Version] [DecidableEq ClientId]
    [DecidableEq Value] : DecidableEq (State Version ClientId Value) :=
  fun a b => decidable_of_iff (a.value = b.value ∧ a.quorum = b.quorum ∧ a.proposal = b.proposal)
    (by cases a; cases b; simp)

/-- The result of `choose`: `_proposal`, `_conflicted`, `_value`. -/
structure Choice (Version ClientId Value : Type) where
  _proposal : Proposal Version ClientId
  _conflicted : Bool
  _value : Option Value
deriving DecidableEq, Repr

/-- Constructor `Choice::Choice(Proposal proposal)`. -/
def Choice.ofProposal {Version ClientId Value : Type} (proposal : Proposal Version ClientId) :
    Choice Version ClientId Value :=
  { _proposal := proposal, _conflicted := false, _value := none }

/-- Constructor `Choice::Choice(Proposal proposal, Value value)`. -/
def Choice.ofProposalValue {Version ClientId Value : Type} (proposal : Proposal Version ClientId)
    (value : Value) : Choice Version ClientId Value :=
  { _proposal := proposal, _conflicted := true, _value := some value }

/-- Modelled from the spec: `Server::WrongQuorum` is declared outside the
sources; the source reads its optional `proposal()`. -/
structure WrongQuorum (Version ClientId : Type) where
  proposal : Option (Proposal Version ClientId)
deriving DecidableEq, Repr

/-- The exceptions that travel through the proposer.  `Unavailable`, `WeakError`
and `TooFewPeers` are the classes of the source; `WrongQuorum` carries the
server's error; `Foreign e` is any
other exception, in particular the one a `WeakError` wraps once it is rethrown
by `std::rethrow_exception`; `AssertError` is a failed `ELLE_ENFORCE` or the
dereference of an empty optional. -/
inductive Exn (Version ClientId E : Type) where
  | Unavailable
  | WeakError (exception : E)
  | WrongQuorum (e : WrongQuorum Version ClientId)
  | TooFewPeers (effective total : Int)
  | Foreign (e : E)
  | AssertError
deriving DecidableEq, Repr

/-- Equality of outcomes is decidable when it is for errors and for results. -/
instance Except.decEq {ε α : Type} [DecidableEq ε] [DecidableEq α] : DecidableEq (Except ε α)
  | .ok a, .ok b => if h : a = b then isTrue (by rw [h]) else isFalse (fun h2 => h (Except.ok.inj h2))
  | .error a, .error b =>
    if h : a = b then isTrue (by rw [h]) else isFalse (fun h2 => h (Except.error.inj h2))
  | .ok _, .error _ => isFalse (fun h => Except.noConfusion h)
  | .error _, .ok _ => isFalse (fun h => Except.noConfusion h)

/-- The answer of a remote call: a result or a raised exception. -/
abbrev Reply (Version ClientId E α : Type) := Except (Exn Version ClientId E) α

/-- The peer capability (`Client::Peer`): an id and the four remote procedures,
each indexed by the logical clock. -/
structure Peer (Version ClientId Value E : Type) where
  id : ClientId
  propose : Nat → Quorum ClientId → Proposal Version ClientId →
    Reply Version ClientId E (Response Version ClientId Value)
  accept : Nat → Quorum ClientId → Proposal Version ClientId → Value →
    Reply Version ClientId E (Proposal Version ClientId)
  confirm : Nat → Quorum ClientId → Proposal Version ClientId → Reply Version ClientId E Unit
  get : Nat → Quorum ClientId → Reply Version ClientId E (Option (Accepted Version ClientId Value))

/-- The proposer (`Client`): `_id`, `_peers`, `_conflict_backoff`, `_round`. -/
structure Client (Version ClientId Value E : Type) where
  _id : ClientId
  _peers : List (Peer Version ClientId Value E)
  _conflict_backoff : Bool
  _round : Int

/-- Constructor `Client::Client(ClientId id, P&& peers)`; the assertion
`!this->_peers.empty()` makes the construction fail on an empty list. -/
def Client.make {Version ClientId Value E : Type} (id : ClientId)
    (peers : List (Peer Version ClientId Value E)) : Option (Client Version ClientId Value E) :=
  if peers.isEmpty then none
  else some { _id := id, _peers := peers, _conflict_backoff := true, _round := 0 }

/-- One remote call together with its outcome, or a suspension of the proposer.
`peer` is the position of the callee in `_peers`. -/
inductive Event (Version ClientId Value E : Type) where
  | propose (peer : Nat) (q : Quorum ClientId) (proposal : Proposal Version ClientId)
      (reply : Reply Version ClientId E (Response Version ClientId Value))
  | accept (peer : Nat) (q : Quorum ClientId) (proposal : Proposal Version ClientId)
      (value : Value) (reply : Reply Version ClientId E (Proposal Version ClientId))
  | confirm (peer : Nat) (q : Quorum ClientId) (proposal : Proposal Version ClientId)
      (reply : Reply Version ClientId E Unit)
  | get (peer : Nat) (q : Quorum ClientId)
      (reply : Reply Version ClientId E (Option (Accepted Version ClientId Value)))
  | sleep (delay : Int)
deriving DecidableEq

/-- The accepted value that a call reports: the value of the `Response` of a
successful `propose`, nothing for any other call. -/
def Event.reported {Version ClientId Value E : Type} :
    Event Version ClientId Value E → Option Value
  | .propose _ _ _ (.ok r) => r.value
  | _ => none

/-! ## Quorum headcount -/

/-- The quorum built at the start of `choose` and `state`:
`for (auto const& peer: this->_peers) q.insert(peer->id());`. -/
def quorum {Version ClientId Value E : Type} [DecidableEq ClientId]
    (peers : List (Peer Version ClientId Value E)) : Quorum ClientId :=
  peers.foldl (fun q peer => insert peer.id q) ∅

/-- The threshold of a headcount over a quorum of `n` peers, in natural numbers:
`(n - 1) / 2` for a read, `n / 2` for a write. -/
def threshold (n : Nat) (reading : Bool) : Nat := (n - (if reading then 1 else 0)) / 2

/-- `Client::_check_headcount(q, reached, weak_error, reading)`. -/
def _check_headcount {Version ClientId E : Type} (q : Quorum ClientId) (reached : Int)
    (weak_error : Option E) (reading : Bool) : Except (Exn Version ClientId E) Unit :=
  let size : Int := (q.card : Int)
  if reached ≤ (size - (if reading then 1 else 0)).tdiv 2 then
    match weak_error with
    | some e => .error (.Foreign e)
    | none => .error (.TooFewPeers reached size)
  else
    .ok ()

section Algorithms

variable {Version ClientId Value E : Type} [LinearOrder Version] [LinearOrder ClientId]

/-! ## Helpers of the library used by `choose` -/

/-- Modelled from the spec: `elle::find_if` (`elle/find_if.hh` is not among the
sources) yields the first element that satisfies the predicate, if any. -/
def find_if {α : Type} (pred : α → Bool) : List α → Option α
  | [] => none
  | x :: xs => if pred x then some x else find_if pred xs

/-- The scan of `std::max_element` once a first candidate is held: the candidate
is replaced when `comp candidate x` holds. -/
def max_element_from {α ε : Type} (comp : α → α → Except ε Bool) : α → List α → Except ε α
  | largest, [] => .ok largest
  | largest, x :: xs =>
    match comp largest x with
    | .error e => .error e
    | .ok true => max_element_from comp x xs
    | .ok false => max_element_from comp largest xs

/-- Modelled from the spec: `elle::max_element` (`elle/max_element.hh` is not
among the sources) finds a greatest element for the comparison, nothing on an
empty range; it is embedded as `std::max_element`, with a comparison that may
raise. -/
def max_element {α ε : Type} (comp : α → α → Except ε Bool) : List α → Except ε (Option α)
  | [] => .ok none
  | x :: xs =>
    match max_element_from comp x xs with
    | .error e => .error e
    | .ok r => .ok (some r)

/-- The lambda `confirmed` of `choose`: `r.value() && r.confirmed()`. -/
def confirmed (r : Response Version ClientId Value) : Bool :=
  r.value.isSome && r.confirmed

/-- The lambda `valued` of `choose`; `ELLE_ENFORCE` raises on an absent proposal. -/
def valued (l r : Response Version ClientId Value) : Except (Exn Version ClientId E) Bool :=
  if l.value.isSome && r.value.isSome then
    match l.proposal, r.proposal with
    | some lp, some rp => .ok (decide (lp < rp))
    | _, _ => .error .AssertError
  else
    .ok (!l.value.isSome && r.value.isSome)

/-- The lambda `proposed` of `choose`. -/
def proposed (l r : Response Version ClientId Value) : Except (Exn Version ClientId E) Bool :=
  if l.proposal.isSome && r.proposal.isSome then
    match l.proposal, r.proposal with
    | some lp, some rp => .ok (decide (lp < rp))
    | _, _ => .error .AssertError
  else
    .ok (!l.proposal.isSome && r.proposal.isSome)

/-! ## `choose`: the three fan-outs -/

/-- The locals of the block "send proposal" that the fan-out mutates, the calls
made, and the exception that escapes the fan-out, if any. -/
structure Prepare (Version ClientId Value E : Type) where
  reached : Int
  unavailables : List Nat
  weak_error : Option E
  responses : List (Response Version ClientId Value)
  events : List (Event Version ClientId Value E)
  raised : Option (Exn Version ClientId E)

/-- The fan-out "send proposal" over the peers from position `i` on. -/
def send_proposal (now : Nat) (q : Quorum ClientId) (proposal : Proposal Version ClientId) :
    List (Peer Version ClientId Value E) → Nat → Prepare Version ClientId Value E →
    Prepare Version ClientId Value E
  | [], _, s => s
  | peer :: rest, i, s =>
    let reply := peer.propose now q proposal
    let events := s.events ++ [Event.propose i q proposal reply]
    match reply with
    | .ok response =>
      send_proposal now q proposal rest (i + 1)
        { s with reached := s.reached + 1, responses := s.responses ++ [response],
                 events := events }
    | .error .Unavailable =>
      send_proposal now q proposal rest (i + 1)
        { s with unavailables := s.unavailables ++ [i], events := events }
    | .error (.WeakError e) =>
      send_proposal now q proposal rest (i + 1)
        { s with unavailables := s.unavailables ++ [i],
                 weak_error := if s.weak_error.isSome then s.weak_error else some e,
                 events := events }
    | .error exn => { s with events := events, raised := some exn }

/-- The locals that the fan-out "send acceptation" mutates: those of its block,
`unavailables`, and `version` and `this->_round`, assigned on a conflict. -/
structure Acceptation (Version ClientId Value E : Type) where
  reached : Int
  conflicted : Bool
  weak_error : Option E
  unavailables : List Nat
  version : Version
  _round : Int
  events : List (Event Version ClientId Value E)
  raised : Option (Exn Version ClientId E)

/-- The fan-out "send acceptation" over the peers from position `i` on; a
conflict stops the traversal (`break_parallel`). -/
def send_acceptation (now : Nat) (q : Quorum ClientId) (proposal : Proposal Version ClientId)
    (v : Value) :
    List (Peer Version ClientId Value E) → Nat → Acceptation Version ClientId Value E →
    Acceptation Version ClientId Value E
  | [], _, s => s
  | peer :: rest, i, s =>
    if i ∈ s.unavailables then
      send_acceptation now q proposal v rest (i + 1) s
    else
      let reply := peer.accept now q proposal v
      let events := s.events ++ [Event.accept i q proposal v reply]
      match reply with
      | .ok minimum =>
        if proposal < minimum then
          { s with version := minimum.version, _round := minimum.round, conflicted := true,
                   events := events }
        else
          send_acceptation now q proposal v rest (i + 1)
            { s with reached := s.reached + 1, events := events }
      | .error .Unavailable =>
        send_acceptation now q proposal v rest (i + 1)
          { s with unavailables := s.unavailables ++ [i], events := events }
      | .error (.WeakError e) =>
        send_acceptation now q proposal v rest (i + 1)
          { s with unavailables := s.unavailables ++ [i],
                   weak_error := if s.weak_error.isSome then s.weak_error else some e,
                   events := events }
      | .error exn => { s with events := events, raised := some exn }

/-- The locals that the fan-out "send confirmation" mutates. -/
structure Confirmation (Version ClientId Value E : Type) where
  reached : Int
  weak_error : Option E
  unavailables : List Nat
  events : List (Event Version ClientId Value E)
  raised : Option (Exn Version ClientId E)

/-- The fan-out "send confirmation" over the peers from position `i` on. -/
def send_confirmation (now : Nat) (q : Quorum ClientId) (proposal : Proposal Version ClientId) :
    List (Peer Version ClientId Value E) → Nat → Confirmation Version ClientId Value E →
    Confirmation Version ClientId Value E
  | [], _, s => s
  | peer :: rest, i, s =>
    if i ∈ s.unavailables then
      send_confirmation now q proposal rest (i + 1) s
    else
      let reply := peer.confirm now q proposal
      let events := s.events ++ [Event.confirm i q proposal reply]
      match reply with
      | .ok _ =>
        send_confirmation now q proposal rest (i + 1)
          { s with reached := s.reached + 1, events := events }
      | .error .Unavailable =>
        send_confirmation now q proposal rest (i + 1)
          { s with unavailables := s.unavailables ++ [i], events := events }
      | .error (.WeakError e) =>
        send_confirmation now q proposal rest (i + 1)
          { s with unavailables := s.unavailables ++ [i],
                   weak_error := if s.weak_error.isSome then s.weak_error else some e,
                   events := events }
      | .error exn => { s with events := events, raised := some exn }

/-! ## `choose`: one iteration of `while (true)` -/

/-- How an iteration, or a whole call, ends: `return`, a raised exception, or
`continue` (for a call: the loop was still running when the fuel ran out). -/
inductive Flow (Version ClientId Value E : Type) where
  | returned (choice : Choice Version ClientId Value)
  | raised (e : Exn Version ClientId E)
  | again
deriving DecidableEq

/-- The variables of `choose` that live across iterations: the parameter
`version`, the locals `backoff` and `replace`, and the member `_round`. -/
structure Loop (Version Value : Type) where
  version : Version
  backoff : Int
  replace : Option Value
  _round : Int
deriving DecidableEq

/-- The record of one iteration: how it ended, the loop variables at that point,
the proposal it built and the calls it made. -/
structure Iteration (Version ClientId Value E : Type) where
  flow : Flow Version ClientId Value E
  loop : Loop Version Value
  proposal : Proposal Version ClientId
  events : List (Event Version ClientId Value E)
deriving DecidableEq

/-- The end of the block "send proposal": either the iteration is over, or it
goes on to "send acceptation" with the given `unavailables`. -/
inductive Prepared (Version ClientId Value E : Type) where
  | done (flow : Flow Version ClientId Value E) (loop : Loop Version Value)
      (events : List (Event Version ClientId Value E))
  | proceed (loop : Loop Version Value) (unavailables : List Nat)
      (events : List (Event Version ClientId Value E))

/-- The whole fan-out "send proposal", from `reached = 0`, no `unavailables`, no
`weak_error` and no response. -/
def fan_out_proposal (now : Nat) (q : Quorum ClientId) (proposal : Proposal Version ClientId)
    (peers : List (Peer Version ClientId Value E)) : Prepare Version ClientId Value E :=
  send_proposal now q proposal peers 0
    { reached := 0, unavailables := [], weak_error := none, responses := [], events := [],
      raised := none }

/-- The update of `replace` from the greatest response for `valued`:
`if (auto r = elle::max_element(responses, valued)) if (r->value()) replace = r->value();`. -/
def adopt (mv : Option (Response Version ClientId Value)) (replace : Option Value) :
    Option Value :=
  match mv with
  | some r => if r.value.isSome then r.value else replace
  | none => replace

/-- The decision taken on the greatest response for `proposed`: the loop
variables with which the iteration `continue`s, or nothing when it goes on to
"send acceptation". -/
def retry (proposal : Proposal Version ClientId) (mp : Option (Response Version ClientId Value))
    (l : Loop Version Value) : Option (Loop Version Value) :=
  match mp.bind Response.proposal with
  | some rp =>
    if proposal = rp then
      some { l with _round := rp.round + 1 }
    else if proposal < rp then
      some { l with version := rp.version, _round := rp.round }
    else
      none
  | none => none

/-- The block "send proposal" of `choose`, after `++this->_round` and the
construction of `proposal`. -/
def prepare (now : Nat) (c : Client Version ClientId Value E) (q : Quorum ClientId)
    (proposal : Proposal Version ClientId) (l : Loop Version Value) :
    Prepared Version ClientId Value E :=
  let p := fan_out_proposal now q proposal c._peers
  match p.raised with
  | some e => .done (.raised e) l p.events
  | none =>
    match find_if confirmed p.responses with
    | some r =>
      match r.proposal, r.value with
      | some rp, some rv => .done (.returned (Choice.ofProposalValue rp rv)) l p.events
      | _, _ => .done (.raised .AssertError) l p.events
    | none =>
      match _check_headcount q p.reached p.weak_error false with
      | .error e => .done (.raised e) l p.events
      | .ok _ =>
        match max_element (@valued Version ClientId Value E _ _) p.responses with
        | .error e => .done (.raised e) l p.events
        | .ok mv =>
          match max_element (@proposed Version ClientId Value E _ _) p.responses with
          | .error e => .done (.raised e) { l with replace := adopt mv l.replace } p.events
          | .ok mp =>
            match retry proposal mp { l with replace := adopt mv l.replace } with
            | some l2 => .done .again l2 p.events
            | none => .proceed { l with replace := adopt mv l.replace } p.unavailables p.events

/-- The value sent in "send acceptation": `replace ? *replace : value`. -/
def replace_or (replace : Option Value) (value : Value) : Value :=
  match replace with
  | some r => r
  | none => value

/-- The block "send confirmation" of `choose` and the final `return`. -/
def confirm_return (now : Nat) (c : Client Version ClientId Value E) (q : Quorum ClientId)
    (proposal : Proposal Version ClientId) (l : Loop Version Value) (unavailables : List Nat)
    (events : List (Event Version ClientId Value E)) : Iteration Version ClientId Value E :=
  let k := send_confirmation now q proposal c._peers 0
    { reached := 0, weak_error := none, unavailables := unavailables, events := events,
      raised := none }
  match k.raised with
  | some e => { flow := .raised e, loop := l, proposal := proposal, events := k.events }
  | none =>
    match _check_headcount q k.reached k.weak_error false with
    | .error e => { flow := .raised e, loop := l, proposal := proposal, events := k.events }
    | .ok _ =>
      match l.replace with
      | some r =>
        { flow := .returned (Choice.ofProposalValue proposal r), loop := l,
          proposal := proposal, events := k.events }
      | none =>
        { flow := .returned (Choice.ofProposal proposal), loop := l,
          proposal := proposal, events := k.events }

/-- The block "send acceptation" of `choose`, followed by `confirm_return` when
there is neither conflict nor shortfall.  `rnd now` is the draw of
`elle::cryptography::random::generate<uint8_t>(1, 8)`. -/
def accept_confirm (rnd : Nat → Nat) (now : Nat) (c : Client Version ClientId Value E)
    (q : Quorum ClientId) (value : Value) (proposal : Proposal Version ClientId)
    (l : Loop Version Value) (unavailables : List Nat)
    (events : List (Event Version ClientId Value E)) : Iteration Version ClientId Value E :=
  let a := send_acceptation now q proposal (replace_or l.replace value) c._peers 0
    { reached := 0, conflicted := false, weak_error := none, unavailables := unavailables,
      version := l.version, _round := l._round, events := events, raised := none }
  match a.raised with
  | some e =>
    { flow := .raised e, loop := { l with version := a.version, _round := a._round },
      proposal := proposal, events := a.events }
  | none =>
    if a.conflicted then
      { flow := .again,
        loop := { l with version := a.version, _round := a._round,
                         backoff := min (l.backoff * 2) 64 },
        proposal := proposal,
        events :=
          if c._conflict_backoff then
            a.events ++ [Event.sleep (100 * (rnd now : Int) * l.backoff)]
          else a.events }
    else
      match _check_headcount q a.reached a.weak_error false with
      | .error e =>
        { flow := .raised e, loop := { l with version := a.version, _round := a._round },
          proposal := proposal, events := a.events }
      | .ok _ =>
        confirm_return now c q proposal { l with version := a.version, _round := a._round }
          a.unavailables a.events

/-- The body of `while (true)` in `choose`. -/
def iteration (rnd : Nat → Nat) (now : Nat) (c : Client Version ClientId Value E)
    (q : Quorum ClientId) (value : Value) (l : Loop Version Value) :
    Iteration Version ClientId Value E :=
  let l := { l with _round := l._round + 1 }
  let proposal : Proposal Version ClientId :=
    { version := l.version, round := l._round, client := c._id }
  match prepare now c q proposal l with
  | .done flow l events => { flow := flow, loop := l, proposal := proposal, events := events }
  | .proceed l unavailables events => accept_confirm rnd now c q value proposal l unavailables events

/-- A call of `choose` or `state`: how it ended, the proposer afterwards, the
clock afterwards, and the iterations performed, oldest first. -/
structure Run (Version ClientId Value E : Type) where
  flow : Flow Version ClientId Value E
  client : Client Version ClientId Value E
  now : Nat
  trace : List (Iteration Version ClientId Value E)

/-- The loop `while (true)` of `choose`, for at most `fuel` iterations. -/
def choose_loop (rnd : Nat → Nat) (c : Client Version ClientId Value E) (q : Quorum ClientId)
    (value : Value) : Nat → Nat → Loop Version Value → Run Version ClientId Value E
  | 0, now, l => { flow := .again, client := { c with _round := l._round }, now := now, trace := [] }
  | fuel + 1, now, l =>
    let it := iteration rnd now c q value l
    match it.flow with
    | .again =>
      let r := choose_loop rnd c q value fuel (now + 1) it.loop
      { r with trace := it :: r.trace }
    | flow =>
      { flow := flow, client := { c with _round := it.loop._round }, now := now + 1, trace := [it] }

/-- `Client::choose(version, value)`. -/
def choose (rnd : Nat → Nat) (fuel now : Nat) (c : Client Version ClientId Value E)
    (version : Version) (value : Value) : Run Version ClientId Value E :=
  choose_loop rnd c (quorum c._peers) value fuel now
    { version := version, backoff := 1, replace := none, _round := c._round }

/-! ## `state`: the read path -/

/-- The locals of `state` that the fan-out "get quorum" mutates. -/
structure Reading (Version ClientId Value E : Type) where
  reached : Int
  res : Option (Accepted Version ClientId Value)
  wrong_quorum : Option (WrongQuorum Version ClientId)
  weak_error : Option E
  events : List (Event Version ClientId Value E)
  raised : Option (Exn Version ClientId E)

/-- Comparison `x < o` of a proposal with a `boost::optional` proposal: an empty
optional is below every value. -/
def lt_optional (x : Proposal Version ClientId) (o : Option (Proposal Version ClientId)) : Bool :=
  match o with
  | some y => decide (x < y)
  | none => false

/-- The fan-out "get quorum" of `state` over the peers from position `i` on. -/
def get_quorum (now : Nat) (q : Quorum ClientId) :
    List (Peer Version ClientId Value E) → Nat → Reading Version ClientId Value E →
    Reading Version ClientId Value E
  | [], _, s => s
  | peer :: rest, i, s =>
    let reply := peer.get now q
    let events := s.events ++ [Event.get i q reply]
    match reply with
    | .ok accepted =>
      let res :=
        match accepted with
        | some a =>
          match s.res with
          | none => some a
          | some r => if r.proposal < a.proposal then some a else some r
        | none => s.res
      get_quorum now q rest (i + 1) { s with res := res, reached := s.reached + 1, events := events }
    | .error (.WrongQuorum e) =>
      match e.proposal with
      | none => { s with events := events, raised := some (.WrongQuorum e) }
      | some ep =>
        match s.wrong_quorum with
        | none =>
          get_quorum now q rest (i + 1)
            { s with wrong_quorum := some e, reached := s.reached + 1, events := events }
        | some w =>
          match w.proposal with
          | none => { s with events := events, raised := some .AssertError }
          | some wp =>
            get_quorum now q rest (i + 1)
              { s with wrong_quorum := if wp < ep then some e else some w,
                       reached := s.reached + 1, events := events }
    | .error .Unavailable => get_quorum now q rest (i + 1) { s with events := events }
    | .error (.WeakError e) =>
      get_quorum now q rest (i + 1)
        { s with weak_error := if s.weak_error.isSome then s.weak_error else some e,
                 events := events }
    | .error exn => { s with events := events, raised := some exn }

/-- The whole fan-out "get quorum", from `reached = 0` and nothing kept. -/
def fan_out_get (now : Nat) (q : Quorum ClientId)
    (peers : List (Peer Version ClientId Value E)) : Reading Version ClientId Value E :=
  get_quorum now q peers 0
    { reached := 0, res := none, wrong_quorum := none, weak_error := none, events := [],
      raised := none }

/-- The accepted replies of the peers to `get`, in the order of the peers. -/
def accepted_replies (now : Nat) (q : Quorum ClientId)
    (peers : List (Peer Version ClientId Value E)) : List (Accepted Version ClientId Value) :=
  peers.filterMap (fun peer =>
    match peer.get now q with
    | .ok (some a) => some a
    | _ => none)

/-- The proposals carried by the `WrongQuorum` errors that the peers raise on
`get`, in the order of the peers. -/
def wrong_quorum_replies (now : Nat) (q : Quorum ClientId)
    (peers : List (Peer Version ClientId Value E)) : List (Proposal Version ClientId) :=
  peers.filterMap (fun peer =>
    match peer.get now q with
    | .error (.WrongQuorum w) => w.proposal
    | _ => none)

/-- A call of `state`: the result or the exception, the proposer and the clock
afterwards, and the calls made. -/
structure Read (Version ClientId Value E : Type) where
  result : Except (Exn Version ClientId E) (State Version ClientId Value)
  client : Client Version ClientId Value E
  now : Nat
  events : List (Event Version ClientId Value E)

/-- The end of `state`, after the fan-out: the headcount and the decision
between the accepted value and the wrong quorum. -/
def state_result (q : Quorum ClientId) (g : Reading Version ClientId Value E) :
    Except (Exn Version ClientId E) (State Version ClientId Value) :=
  match g.raised with
  | some e => .error e
  | none =>
    match _check_headcount q g.reached g.weak_error true with
    | .error e => .error e
    | .ok _ =>
      match g.wrong_quorum, g.res with
      | some w, none => .error (.WrongQuorum w)
      | some w, some r =>
        if lt_optional r.proposal w.proposal then .error (.WrongQuorum w)
        else .ok { value := some r.value, quorum := q, proposal := some r.proposal }
      | none, some r => .ok { value := some r.value, quorum := q, proposal := some r.proposal }
      | none, none => .ok { value := none, quorum := q, proposal := none }

/-- `Client::state()`. -/
def state (now : Nat) (c : Client Version ClientId Value E) : Read Version ClientId Value E :=
  let q := quorum c._peers
  let g := fan_out_get now q c._peers
  { result := state_result q g, client := c, now := now + 1, events := g.events }

end Algorithms

/-- Whether a call counts toward `reached` in the block "send acceptation": an
`accept` that returns a minimum which is not above the proposal. -/
def Event.accepted {Version ClientId Value E : Type} [LinearOrder Version] [LinearOrder ClientId]
    (proposal : Proposal Version ClientId) : Event Version ClientId Value E → Bool
  | .accept _ _ _ _ (.ok minimum) => !decide (proposal < minimum)
  | _ => false

/-- The delay of a suspension of the proposer; nothing for a remote call. -/
def Event.delay {Version ClientId Value E : Type} : Event Version ClientId Value E → Option Int
  | .sleep d => some d
  | _ => none

/-- Whether a call is an `accept` that returns a minimum above the proposal. -/
def Event.conflict {Version ClientId Value E : Type} [LinearOrder Version] [LinearOrder ClientId]
    (proposal : Proposal Version ClientId) : Event Version ClientId Value E → Bool
  | .accept _ _ _ _ (.ok minimum) => decide (proposal < minimum)
  | _ => false

/-- Whether an iteration met a phase-2 conflict: one of its `accept` calls
returned a minimum above its proposal. -/
def Iteration.conflicted {Version ClientId Value E : Type} [LinearOrder Version]
    [LinearOrder ClientId] (it : Iteration Version ClientId Value E) : Bool :=
  it.events.any (Event.conflict it.proposal)

/-- The weak error that a `propose` call raised, if it raised one. -/
def Event.weak_propose {Version ClientId Value E : Type} :
    Event Version ClientId Value E → Option E
  | .propose _ _ _ (.error (.WeakError e)) => some e
  | _ => none

/-- The weak error that an `accept` call raised, if it raised one. -/
def Event.weak_accept {Version ClientId Value E : Type} :
    Event Version ClientId Value E → Option E
  | .accept _ _ _ _ (.error (.WeakError e)) => some e
  | _ => none

/-- The weak error that a `confirm` call raised, if it raised one. -/
def Event.weak_confirm {Version ClientId Value E : Type} :
    Event Version ClientId Value E → Option E
  | .confirm _ _ _ (.error (.WeakError e)) => some e
  | _ => none

/-- The iterations of a sequence of calls of `choose` made one after the other
on one proposer, each call given by its `version` and its `value`; oldest
first. -/
def choose_all {Version ClientId Value E : Type} [LinearOrder Version] [LinearOrder ClientId]
    (rnd : Nat → Nat) (fuel : Nat) :
    Nat → Client Version ClientId Value E → List (Version × Value) →
    List (Iteration Version ClientId Value E)
  | _, _, [] => []
  | now, c, call :: rest =>
    (choose rnd fuel now c call.1 call.2).trace
      ++ choose_all rnd fuel (choose rnd fuel now c call.1 call.2).now
          (choose rnd fuel now c call.1 call.2).client rest

/-- Whether, in a sequence of calls of `choose`, every call ends and is given a
version that is not below `floor`, the version of the last proposal sent by
the call before it (no condition on the first call when `floor` is absent). -/
def ascending {Version ClientId Value E : Type} [LinearOrder Version] [LinearOrder ClientId]
    (rnd : Nat → Nat) (fuel : Nat) :
    Nat → Client Version ClientId Value E → Option Version → List (Version × Value) → Bool
  | _, _, _, [] => true
  | now, c, floor, call :: rest =>
    (match floor with
      | some f => decide (f ≤ call.1)
      | none => true) &&
    (match (choose rnd fuel now c call.1 call.2).flow with
      | .again => false
      | _ => true) &&
    ascending rnd fuel (choose rnd fuel now c call.1 call.2).now
      (choose rnd fuel now c call.1 call.2).client
      ((choose rnd fuel now c call.1 call.2).trace.getLast?.map (fun it => it.proposal.version))
      rest

/-- Whether an exception is one of the two that a fan-out catches per peer:
`Unavailable` or `WeakError`. -/
def Exn.caught {Version ClientId E : Type} : Exn Version ClientId E → Bool
  | .Unavailable => true
  | .WeakError _ => true
  | _ => false

/-- Whether the proposal that a call reports, if it reports one, has a round of
at least `1`: the highest proposal seen carried by the `Response` of a
`propose`, the minimum returned by an `accept`. -/
def Event.round_reported {Version ClientId Value E : Type} :
    Event Version ClientId Value E → Bool
  | .propose _ _ _ (.ok r) =>
    match r.proposal with
    | some s => decide (1 ≤ s.round)
    | none => true
  | .accept _ _ _ _ (.ok m) => decide (1 ≤ m.round)
  | _ => true

/-- Whether the outcome of a `get` call counts toward `reached` in `state`: a
return, with or without an accepted value, or a `WrongQuorum` that carries a
proposal. -/
def get_counted {Version ClientId Value E : Type}
    (reply : Reply Version ClientId E (Option (Accepted Version ClientId Value))) : Bool :=
  match reply with
  | .ok _ => true
  | .error (.WrongQuorum w) => w.proposal.isSome
  | .error _ => false

/-- The weak error that the outcome of a `get` call carries, when the call raised
`WeakError`. -/
def get_weak {Version ClientId Value E : Type}
    (reply : Reply Version ClientId E (Option (Accepted Version ClientId Value))) : Option E :=
  match reply with
  | .error (.WeakError e) => some e
  | _ => none

/-- A number of successive calls of `state` on one proposer: the proposer and
the clock after the last one. -/
def state_repeat {Version ClientId Value E : Type} [LinearOrder Version] [LinearOrder ClientId] :
    Nat → Nat → Client Version ClientId Value E → Client Version ClientId Value E × Nat
  | 0, now, c => (c, now)
  | n + 1, now, c => state_repeat n (state now c).now (state now c).client

/-- An iteration without its suspensions: how it ended, its loop variables, its
proposal and its remote calls. -/
def Iteration.calls {Version ClientId Value E : Type}
    (it : Iteration Version ClientId Value E) : Iteration Version ClientId Value E :=
  { it with events := it.events.filter (fun e => e.delay.isNone) }

/-! ## Concrete peers used in the examples -/

namespace Example

/-- A peer that has seen nothing: empty `Response`, accepts any proposal (its
minimum is the proposal itself), confirms, and reads back no value. -/
def fresh (id : Nat) : Peer Nat Nat String String :=
  { id := id
    propose := fun _ _ _ => .ok { proposal := none, value := none, confirmed := false }
    accept := fun _ _ p _ => .ok p
    confirm := fun _ _ _ => .ok ()
    get := fun _ _ => .ok none }

/-- A peer that raises `Unavailable` on every call. -/
def down (id : Nat) : Peer Nat Nat String String :=
  { id := id
    propose := fun _ _ _ => .error .Unavailable
    accept := fun _ _ _ _ => .error .Unavailable
    confirm := fun _ _ _ => .error .Unavailable
    get := fun _ _ => .error .Unavailable }

/-- A peer that raises `WeakError(e)` on every call. -/
def weak (id : Nat) (e : String) : Peer Nat Nat String String :=
  { id := id
    propose := fun _ _ _ => .error (.WeakError e)
    accept := fun _ _ _ _ => .error (.WeakError e)
    confirm := fun _ _ _ => .error (.WeakError e)
    get := fun _ _ => .error (.WeakError e) }

/-- A peer that has accepted `v` at proposal `p` and has seen nothing higher. -/
def accepted (id : Nat) (p : Proposal Nat Nat) (v : String) : Peer Nat Nat String String :=
  { id := id
    propose := fun _ _ _ => .ok { proposal := some p, value := some v, confirmed := false }
    accept := fun _ _ proposal _ => .ok proposal
    confirm := fun _ _ _ => .ok ()
    get := fun _ _ => .ok (some { proposal := p, value := v }) }

/-- A peer that reports the accepted value `v` at proposal `p` at clock `0` and
is `Unavailable` from clock `1` on. -/
def leaving (id : Nat) (p : Proposal Nat Nat) (v : String) : Peer Nat Nat String String :=
  { id := id
    propose := fun now _ _ =>
      if now = 0 then .ok { proposal := some p, value := some v, confirmed := false }
      else .error .Unavailable
    accept := fun now _ proposal _ => if now = 0 then .ok proposal else .error .Unavailable
    confirm := fun now _ _ => if now = 0 then .ok () else .error .Unavailable
    get := fun now _ => if now = 0 then .ok (some { proposal := p, value := v })
      else .error .Unavailable }

/-- A peer with nothing accepted whose minimum at clock `0` is `m`, and which
accepts any proposal from clock `1` on. -/
def contended (id : Nat) (m : Proposal Nat Nat) : Peer Nat Nat String String :=
  { id := id
    propose := fun _ _ _ => .ok { proposal := none, value := none, confirmed := false }
    accept := fun now _ proposal _ => if now = 0 then .ok m else .ok proposal
    confirm := fun _ _ _ => .ok ()
    get := fun _ _ => .ok none }

/-- A peer that raises `WrongQuorum` carrying the proposal `p` on every call. -/
def wrong (id : Nat) (p : Proposal Nat Nat) : Peer Nat Nat String String :=
  { id := id
    propose := fun _ _ _ => .error (.WrongQuorum { proposal := some p })
    accept := fun _ _ _ _ => .error (.WrongQuorum { proposal := some p })
    confirm := fun _ _ _ => .error (.WrongQuorum { proposal := some p })
    get := fun _ _ => .error (.WrongQuorum { proposal := some p }) }

/-- A peer with nothing accepted that reports `p0` as the highest proposal seen
before clock `t` and `p1` from clock `t` on, and accepts any proposal. -/
def seen (id : Nat) (p0 p1 : Proposal Nat Nat) (t : Nat) : Peer Nat Nat String String :=
  { id := id
    propose := fun now _ _ =>
      .ok { proposal := some (if now < t then p0 else p1), value := none, confirmed := false }
    accept := fun _ _ proposal _ => .ok proposal
    confirm := fun _ _ _ => .ok ()
    get := fun _ _ => .ok none }

/-- A proposer with id `7`, round `0` and backoff enabled, as built by the
constructor. -/
def client (peers : List (Peer Nat Nat String String)) : Client Nat Nat String String :=
  { _id := 7, _peers := peers, _conflict_backoff := true, _round := 0 }

/-- A peer with nothing accepted that answers `propose` and raises `x` on
`accept` and on `confirm`. -/
def promising (id : Nat) (x : Exn Nat Nat String) : Peer Nat Nat String String :=
  { id := id
    propose := fun _ _ _ => .ok { proposal := none, value := none, confirmed := false }
    accept := fun _ _ _ _ => .error x
    confirm := fun _ _ _ => .error x
    get := fun _ _ => .ok none }

/-- A peer with nothing accepted that has seen the proposal `p`, accepts any
proposal, and is `Unavailable` at clock `t` only. -/
def absent (id : Nat) (p : Proposal Nat Nat) (t : Nat) : Peer Nat Nat String String :=
  { id := id
    propose := fun now _ _ =>
      if now = t then .error .Unavailable
      else .ok { proposal := some p, value := none, confirmed := false }
    accept := fun now _ proposal _ => if now = t then .error .Unavailable else .ok proposal
    confirm := fun now _ _ => if now = t then .error .Unavailable else .ok ()
    get := fun now _ => if now = t then .error .Unavailable else .ok none }

/-- A peer of an old version: it raises a `WrongQuorum` that carries no proposal
on every call. -/
def legacy (id : Nat) : Peer Nat Nat String String :=
  { id := id
    propose := fun _ _ _ => .error (.WrongQuorum { proposal := none })
    accept := fun _ _ _ _ => .error (.WrongQuorum { proposal := none })
    confirm := fun _ _ _ => .error (.WrongQuorum { proposal := none })
    get := fun _ _ => .error (.WrongQuorum { proposal := none }) }

/-- A peer that has seen a confirmation: it reports the value `v` accepted at
proposal `p` as confirmed. -/
def decided (id : Nat) (p : Proposal Nat Nat) (v : String) : Peer Nat Nat String String :=
  { id := id
    propose := fun _ _ _ => .ok { proposal := some p, value := some v, confirmed := true }
    accept := fun _ _ proposal _ => .ok proposal
    confirm := fun _ _ _ => .ok ()
    get := fun _ _ => .ok (some { proposal := p, value := v }) }

end Example

/-! ## The order on proposals -/

section Order

variable {Version ClientId : Type} [LinearOrder Version] [LinearOrder ClientId]

/-- The order on proposals is the lexicographic order on their triples. -/
theorem Proposal.lt_iff_key (p q : Proposal Version ClientId) : p < q ↔ p.key < q.key := by
  show Proposal.lt p q ↔ _
  unfold Proposal.lt Proposal.key
  simp only [Prod.Lex.lt_iff, ofLex_toLex]

/-- No proposal is below itself. -/
theorem Proposal.not_lt_self (p : Proposal Version ClientId) : ¬ p < p := by
  rw [Proposal.lt_iff_key]
  exact lt_irrefl _

/-- The order on proposals is transitive. -/
theorem Proposal.lt_chain {p q r : Proposal Version ClientId} (h1 : p < q) (h2 : q < r) :
    p < r := by
  rw [Proposal.lt_iff_key] at *
  exact lt_trans h1 h2

/-- The order on proposals is asymmetric. -/
theorem Proposal.asymm {p q : Proposal Version ClientId} (h : p < q) : ¬ q < p := by
  rw [Proposal.lt_iff_key] at *
  exact lt_asymm h

/-- The relation of not being above is transitive. -/
theorem Proposal.not_lt_chain {p q r : Proposal Version ClientId} (h1 : ¬ q < p)
    (h2 : ¬ r < q) : ¬ r < p := by
  rw [Proposal.lt_iff_key] at *
  exact not_lt.2 (le_trans (not_lt.1 h1) (not_lt.1 h2))

/-- Below a proposal that is not above a third one is below the third one. -/
theorem Proposal.lt_of_lt_of_not_lt {p q r : Proposal Version ClientId} (h1 : p < q)
    (h2 : ¬ r < q) : p < r := by
  rw [Proposal.lt_iff_key] at *
  exact lt_of_lt_of_le h1 (not_lt.1 h2)

/-- Not above a proposal that is below a third one is below the third one. -/
theorem Proposal.lt_of_not_lt_of_lt {p q r : Proposal Version ClientId} (h1 : ¬ q < p)
    (h2 : q < r) : p < r := by
  rw [Proposal.lt_iff_key] at *
  exact lt_of_le_of_lt (not_lt.1 h1) h2

/-- Two proposals of which none is below the other are equal. -/
theorem Proposal.eq_of_not_lt {p q : Proposal Version ClientId} (h1 : ¬ p < q)
    (h2 : ¬ q < p) : p = q := by
  by_contra hne
  have hk : p.key ≠ q.key := by
    intro hk
    apply hne
    cases p; cases q
    simp only [Proposal.key, EmbeddingLike.apply_eq_iff_eq, Prod.mk.injEq] at hk
    obtain ⟨e1, e2, e3⟩ := hk
    subst e1 e2 e3
    rfl
  rw [Proposal.lt_iff_key] at h1 h2
  rcases lt_or_gt_of_ne hk with h | h
  · exact h1 h
  · exact h2 h

end Order

/-! ## Lemmas on `max_element` -/

section MaxElement

variable {Version ClientId Value E : Type} [LinearOrder Version] [LinearOrder ClientId]

/-- The scan with `valued` ends on an element of the range; it carries a value as
soon as one element does, and every element that carries a value is the
result itself or has a proposal that is not above the proposal of the result. -/
theorem valued_scan (xs : List (Response Version ClientId Value)) :
    ∀ (largest m : Response Version ClientId Value),
      max_element_from (@valued Version ClientId Value E _ _) largest xs = .ok m →
      m ∈ largest :: xs ∧
      ∀ x ∈ largest :: xs, x.value.isSome = true →
        m.value.isSome = true ∧
        (x = m ∨ ∃ p px, m.proposal = some p ∧ x.proposal = some px ∧ ¬ p < px) := by
  induction xs with
  | nil =>
    intro largest m h
    simp only [max_element_from, Except.ok.injEq] at h
    subst h
    refine ⟨List.mem_singleton.2 rfl, fun x hx hv => ?_⟩
    rw [List.mem_singleton] at hx
    subst hx
    exact ⟨hv, Or.inl rfl⟩
  | cons y ys ih =>
    intro largest m h
    unfold max_element_from at h
    cases hc : (@valued Version ClientId Value E _ _ largest y) with
    | error e => rw [hc] at h; exact absurd h (by simp)
    | ok b =>
      rw [hc] at h
      cases b with
      | true =>
        simp only at h
        obtain ⟨hm, hall⟩ := ih y m h
        refine ⟨List.mem_cons_of_mem _ hm, fun x hx hv => ?_⟩
        rcases List.mem_cons.1 hx with hx | hx
        · subst hx
          -- `x` is the former candidate: it carries a value, so `y` was above it
          unfold valued at hc
          by_cases hy : y.value.isSome = true
          · simp only [hv, hy, Bool.and_self, if_true] at hc
            cases hlp : x.proposal with
            | none => rw [hlp] at hc; exact absurd hc (by simp)
            | some lp =>
              cases hyp : y.proposal with
              | none => rw [hlp, hyp] at hc; exact absurd hc (by simp)
              | some yp =>
                rw [hlp, hyp] at hc
                simp only [Except.ok.injEq, decide_eq_true_eq] at hc
                obtain ⟨hmv, hcase⟩ := hall y (List.mem_cons_self _ _) hy
                refine ⟨hmv, Or.inr ?_⟩
                rcases hcase with hym | ⟨p, px, hp, hpx, hle⟩
                · subst hym
                  exact ⟨yp, lp, hyp, rfl, Proposal.asymm hc⟩
                · rw [hyp] at hpx
                  cases hpx
                  refine ⟨p, lp, hp, rfl, fun hlt => hle (Proposal.lt_chain hlt hc)⟩
          · simp only [hv, hy, Bool.and_false, Bool.false_eq_true, if_false, Bool.not_true,
              Bool.and_self, Except.ok.injEq] at hc
        · exact hall x hx hv
      | false =>
        simp only at h
        obtain ⟨hm, hall⟩ := ih largest m h
        refine ⟨?_, fun x hx hv => ?_⟩
        · rcases List.mem_cons.1 hm with hm | hm
          · exact hm ▸ List.mem_cons_self _ _
          · exact List.mem_cons_of_mem _ (List.mem_cons_of_mem _ hm)
        rcases List.mem_cons.1 hx with hx | hx
        · exact hall x (hx ▸ List.mem_cons_self _ _) hv
        rcases List.mem_cons.1 hx with hx | hx
        · subst hx
          -- `x` was compared with the candidate and was not above it
          unfold valued at hc
          by_cases hl : largest.value.isSome = true
          · simp only [hv, hl, Bool.and_self, if_true] at hc
            cases hlp : largest.proposal with
            | none => rw [hlp] at hc; exact absurd hc (by simp)
            | some lp =>
              cases hxp : x.proposal with
              | none => rw [hlp, hxp] at hc; exact absurd hc (by simp)
              | some xp =>
                rw [hlp, hxp] at hc
                simp only [Except.ok.injEq, decide_eq_false_iff_not] at hc
                obtain ⟨hmv, hcase⟩ := hall largest (List.mem_cons_self _ _) hl
                refine ⟨hmv, Or.inr ?_⟩
                rcases hcase with hlm | ⟨p, pl, hp, hpl, hle⟩
                · subst hlm
                  exact ⟨lp, xp, hlp, rfl, hc⟩
                · rw [hlp] at hpl
                  cases hpl
                  exact ⟨p, xp, hp, rfl, Proposal.not_lt_chain hc hle⟩
          · simp only [hv, hl, Bool.false_and, Bool.false_eq_true, if_false, Bool.not_false,
              Bool.and_self, Except.ok.injEq] at hc
            exact absurd hc (by decide)
        · exact hall x (List.mem_cons_of_mem _ hx) hv

end MaxElement


/-! ## Lemmas on the fan-outs: the calls recorded -/

section FanoutEvents

variable {Version ClientId Value E : Type} [LinearOrder Version] [LinearOrder ClientId]

/-- The fan-out "send proposal" keeps the calls already recorded. -/
theorem send_proposal_events_mono (now : Nat) (q : Quorum ClientId)
    (proposal : Proposal Version ClientId) (peers : List (Peer Version ClientId Value E)) :
    ∀ (i : Nat) (s : Prepare Version ClientId Value E) (e : Event Version ClientId Value E),
      e ∈ s.events → e ∈ (send_proposal now q proposal peers i s).events := by
  induction peers with
  | nil => intro i s e he; exact he
  | cons peer rest ih =>
    intro i s e he
    unfold send_proposal
    cases h : peer.propose now q proposal with
    | ok response => dsimp only; apply ih; simp [he]
    | error ex =>
      cases ex <;> dsimp only <;> first | (apply ih; simp [he]) | simp [he]

/-- The fan-out "send proposal" records `propose` calls only. -/
theorem send_proposal_events (now : Nat) (q : Quorum ClientId)
    (proposal : Proposal Version ClientId) (peers : List (Peer Version ClientId Value E)) :
    ∀ (i : Nat) (s : Prepare Version ClientId Value E) (e : Event Version ClientId Value E),
      e ∈ (send_proposal now q proposal peers i s).events →
      e ∈ s.events ∨ ∃ j rep, e = Event.propose j q proposal rep := by
  induction peers with
  | nil => intro i s e he; exact Or.inl he
  | cons peer rest ih =>
    intro i s e he
    have step : ∀ evs : List (Event Version ClientId Value E),
        evs = s.events ++ [Event.propose i q proposal (peer.propose now q proposal)] →
        (e ∈ evs ∨ ∃ j rep, e = Event.propose j q proposal rep) →
        e ∈ s.events ∨ ∃ j rep, e = Event.propose j q proposal rep := by
      intro evs hs2 h
      rcases h with h | h
      · rw [hs2, List.mem_append, List.mem_singleton] at h
        rcases h with h | h
        · exact Or.inl h
        · exact Or.inr ⟨_, _, h⟩
      · exact Or.inr h
    unfold send_proposal at he
    cases h : peer.propose now q proposal with
    | ok response =>
      rw [h] at he step; dsimp only at he
      exact step _ rfl (ih _ _ _ he)
    | error ex =>
      rw [h] at he step
      cases ex <;> dsimp only at he <;>
        first
        | exact step _ rfl (ih _ _ _ he)
        | exact step _ rfl (Or.inl he)

/-- Every response collected by "send proposal" is the reply of a recorded
`propose` call. -/
theorem send_proposal_responses (now : Nat) (q : Quorum ClientId)
    (proposal : Proposal Version ClientId) (peers : List (Peer Version ClientId Value E)) :
    ∀ (i : Nat) (s : Prepare Version ClientId Value E) (r : Response Version ClientId Value),
      r ∈ (send_proposal now q proposal peers i s).responses →
      r ∈ s.responses ∨
        ∃ j, Event.propose j q proposal (.ok r)
          ∈ (send_proposal now q proposal peers i s).events := by
  induction peers with
  | nil => intro i s r hr; exact Or.inl hr
  | cons peer rest ih =>
    intro i s r hr
    unfold send_proposal at hr ⊢
    cases h : peer.propose now q proposal with
    | ok response =>
      rw [h] at hr; dsimp only at hr ⊢
      rcases ih _ _ _ hr with h1 | h1
      · rw [List.mem_append, List.mem_singleton] at h1
        rcases h1 with h1 | h1
        · exact Or.inl h1
        · subst h1
          refine Or.inr ⟨i, ?_⟩
          apply send_proposal_events_mono
          simp
      · exact Or.inr h1
    | error ex =>
      rw [h] at hr
      cases ex <;> dsimp only at hr ⊢ <;>
        first
        | exact ih _ _ _ hr
        | exact Or.inl hr

/-- The fan-out "send acceptation" keeps the calls already recorded. -/
theorem send_acceptation_events_mono (now : Nat) (q : Quorum ClientId)
    (proposal : Proposal Version ClientId) (v : Value)
    (peers : List (Peer Version ClientId Value E)) :
    ∀ (i : Nat) (s : Acceptation Version ClientId Value E) (e : Event Version ClientId Value E),
      e ∈ s.events → e ∈ (send_acceptation now q proposal v peers i s).events := by
  induction peers with
  | nil => intro i s e he; exact he
  | cons peer rest ih =>
    intro i s e he
    unfold send_acceptation
    by_cases hu : i ∈ s.unavailables
    · rw [if_pos hu]; exact ih _ _ _ he
    · rw [if_neg hu]
      cases h : peer.accept now q proposal v with
      | ok minimum =>
        dsimp only
        by_cases hc : proposal < minimum
        · rw [if_pos hc]; simp [he]
        · rw [if_neg hc]; apply ih; simp [he]
      | error ex =>
        cases ex <;> dsimp only <;> first | (apply ih; simp [he]) | simp [he]

/-- The fan-out "send acceptation" records `accept` calls only, all of them with
the proposal and the value it was given. -/
theorem send_acceptation_events (now : Nat) (q : Quorum ClientId)
    (proposal : Proposal Version ClientId) (v : Value)
    (peers : List (Peer Version ClientId Value E)) :
    ∀ (i : Nat) (s : Acceptation Version ClientId Value E) (e : Event Version ClientId Value E),
      e ∈ (send_acceptation now q proposal v peers i s).events →
      e ∈ s.events ∨ ∃ j rep, e = Event.accept j q proposal v rep := by
  induction peers with
  | nil => intro i s e he; exact Or.inl he
  | cons peer rest ih =>
    intro i s e he
    have step : ∀ evs : List (Event Version ClientId Value E),
        evs = s.events ++ [Event.accept i q proposal v (peer.accept now q proposal v)] →
        (e ∈ evs ∨ ∃ j rep, e = Event.accept j q proposal v rep) →
        e ∈ s.events ∨ ∃ j rep, e = Event.accept j q proposal v rep := by
      intro evs hs2 h
      rcases h with h | h
      · rw [hs2, List.mem_append, List.mem_singleton] at h
        rcases h with h | h
        · exact Or.inl h
        · exact Or.inr ⟨_, _, h⟩
      · exact Or.inr h
    unfold send_acceptation at he
    by_cases hu : i ∈ s.unavailables
    · rw [if_pos hu] at he; exact ih _ _ _ he
    · rw [if_neg hu] at he
      cases h : peer.accept now q proposal v with
      | ok minimum =>
        rw [h] at he step; dsimp only at he
        by_cases hc : proposal < minimum
        · rw [if_pos hc] at he; exact step _ rfl (Or.inl he)
        · rw [if_neg hc] at he; exact step _ rfl (ih _ _ _ he)
      | error ex =>
        rw [h] at he step
        cases ex <;> dsimp only at he <;>
          first
          | exact step _ rfl (ih _ _ _ he)
          | exact step _ rfl (Or.inl he)

/-- The fan-out "send confirmation" keeps the calls already recorded. -/
theorem send_confirmation_events_mono (now : Nat) (q : Quorum ClientId)
    (proposal : Proposal Version ClientId) (peers : List (Peer Version ClientId Value E)) :
    ∀ (i : Nat) (s : Confirmation Version ClientId Value E) (e : Event Version ClientId Value E),
      e ∈ s.events → e ∈ (send_confirmation now q proposal peers i s).events := by
  induction peers with
  | nil => intro i s e he; exact he
  | cons peer rest ih =>
    intro i s e he
    unfold send_confirmation
    by_cases hu : i ∈ s.unavailables
    · rw [if_pos hu]; exact ih _ _ _ he
    · rw [if_neg hu]
      cases h : peer.confirm now q proposal with
      | ok u => dsimp only; apply ih; simp [he]
      | error ex =>
        cases ex <;> dsimp only <;> first | (apply ih; simp [he]) | simp [he]

/-- The fan-out "send confirmation" records `confirm` calls only. -/
theorem send_confirmation_events (now : Nat) (q : Quorum ClientId)
    (proposal : Proposal Version ClientId) (peers : List (Peer Version ClientId Value E)) :
    ∀ (i : Nat) (s : Confirmation Version ClientId Value E) (e : Event Version ClientId Value E),
      e ∈ (send_confirmation now q proposal peers i s).events →
      e ∈ s.events ∨ ∃ j rep, e = Event.confirm j q proposal rep := by
  induction peers with
  | nil => intro i s e he; exact Or.inl he
  | cons peer rest ih =>
    intro i s e he
    have step : ∀ evs : List (Event Version ClientId Value E),
        evs = s.events ++ [Event.confirm i q proposal (peer.confirm now q proposal)] →
        (e ∈ evs ∨ ∃ j rep, e = Event.confirm j q proposal rep) →
        e ∈ s.events ∨ ∃ j rep, e = Event.confirm j q proposal rep := by
      intro evs hs2 h
      rcases h with h | h
      · rw [hs2, List.mem_append, List.mem_singleton] at h
        rcases h with h | h
        · exact Or.inl h
        · exact Or.inr ⟨_, _, h⟩
      · exact Or.inr h
    unfold send_confirmation at he
    by_cases hu : i ∈ s.unavailables
    · rw [if_pos hu] at he; exact ih _ _ _ he
    · rw [if_neg hu] at he
      cases h : peer.confirm now q proposal with
      | ok u =>
        rw [h] at he step; dsimp only at he
        exact step _ rfl (ih _ _ _ he)
      | error ex =>
        rw [h] at he step
        cases ex <;> dsimp only at he <;>
          first
          | exact step _ rfl (ih _ _ _ he)
          | exact step _ rfl (Or.inl he)

end FanoutEvents


/-! ## Lemmas on one iteration of `choose` -/

section IterationLemmas

variable {Version ClientId Value E : Type} [LinearOrder Version] [LinearOrder ClientId]

/-- The fan-out "send proposal" records `propose` calls only. -/
theorem fan_out_proposal_events (now : Nat) (q : Quorum ClientId)
    (proposal : Proposal Version ClientId) (peers : List (Peer Version ClientId Value E))
    (e : Event Version ClientId Value E)
    (he : e ∈ (fan_out_proposal now q proposal peers).events) :
    ∃ j rep, e = Event.propose j q proposal rep := by
  rcases send_proposal_events now q proposal peers 0 _ e he with h | h
  · exact absurd h (List.not_mem_nil _)
  · exact h

/-- Every response of the fan-out "send proposal" is the reply of a recorded
`propose` call. -/
theorem fan_out_proposal_responses (now : Nat) (q : Quorum ClientId)
    (proposal : Proposal Version ClientId) (peers : List (Peer Version ClientId Value E))
    (r : Response Version ClientId Value)
    (hr : r ∈ (fan_out_proposal now q proposal peers).responses) :
    ∃ j, Event.propose j q proposal (.ok r) ∈ (fan_out_proposal now q proposal peers).events := by
  rcases send_proposal_responses now q proposal peers 0 _ r hr with h | h
  · exact absurd h (List.not_mem_nil _)
  · exact h

/-- What holds when the block "send proposal" goes on to "send acceptation". -/
theorem prepare_proceed (now : Nat) (c : Client Version ClientId Value E) (q : Quorum ClientId)
    (proposal : Proposal Version ClientId) (l l2 : Loop Version Value) (u : List Nat)
    (ev : List (Event Version ClientId Value E))
    (h : prepare now c q proposal l = .proceed l2 u ev) :
    ∃ mv mp,
      max_element (@valued Version ClientId Value E _ _)
        (fan_out_proposal now q proposal c._peers).responses = .ok mv ∧
      max_element (@proposed Version ClientId Value E _ _)
        (fan_out_proposal now q proposal c._peers).responses = .ok mp ∧
      retry proposal mp { l with replace := adopt mv l.replace } = none ∧
      l2 = { l with replace := adopt mv l.replace } ∧
      u = (fan_out_proposal now q proposal c._peers).unavailables ∧
      ev = (fan_out_proposal now q proposal c._peers).events ∧
      (fan_out_proposal now q proposal c._peers).raised = none ∧
      find_if confirmed (fan_out_proposal now q proposal c._peers).responses = none ∧
      (_check_headcount q (fan_out_proposal now q proposal c._peers).reached
        (fan_out_proposal now q proposal c._peers).weak_error false :
          Except (Exn Version ClientId E) Unit) = .ok () := by
  unfold prepare at h
  dsimp only at h
  generalize fan_out_proposal now q proposal c._peers = p at h ⊢
  cases hr : p.raised with
  | some e => rw [hr] at h; exact absurd h (by simp)
  | none =>
    rw [hr] at h; dsimp only at h
    cases hf : find_if confirmed p.responses with
    | some r =>
      rw [hf] at h; dsimp only at h
      split at h <;> exact absurd h (by simp)
    | none =>
      rw [hf] at h; dsimp only at h
      cases hh : (_check_headcount q p.reached p.weak_error false :
          Except (Exn Version ClientId E) Unit) with
      | error e => rw [hh] at h; exact absurd h (by simp)
      | ok u1 =>
        rw [hh] at h; dsimp only at h
        cases hv : max_element (@valued Version ClientId Value E _ _) p.responses with
        | error e => rw [hv] at h; exact absurd h (by simp)
        | ok mv =>
          rw [hv] at h; dsimp only at h
          cases hp : max_element (@proposed Version ClientId Value E _ _) p.responses with
          | error e => rw [hp] at h; exact absurd h (by simp)
          | ok mp =>
            rw [hp] at h; dsimp only at h
            cases hy : retry proposal mp { l with replace := adopt mv l.replace } with
            | some l3 => rw [hy] at h; exact absurd h (by simp)
            | none =>
              rw [hy] at h
              simp only [Prepared.proceed.injEq] at h
              obtain ⟨h1, h2, h3⟩ := h
              exact ⟨mv, mp, rfl, rfl, hy, h1.symm, h2.symm, h3.symm, rfl, rfl, rfl⟩

/-- The block "send confirmation" records what the fan-out records. -/
theorem confirm_return_events (now : Nat) (c : Client Version ClientId Value E)
    (q : Quorum ClientId) (proposal : Proposal Version ClientId) (l : Loop Version Value)
    (unavailables : List Nat) (events : List (Event Version ClientId Value E)) :
    (confirm_return now c q proposal l unavailables events).events
      = (send_confirmation now q proposal c._peers 0
          { reached := 0, weak_error := none, unavailables := unavailables, events := events,
            raised := none }).events := by
  unfold confirm_return
  dsimp only
  repeat' split
  all_goals rfl

/-- The calls of the blocks "send acceptation" and "send confirmation". -/
theorem accept_confirm_events (rnd : Nat → Nat) (now : Nat) (c : Client Version ClientId Value E)
    (q : Quorum ClientId) (value : Value) (proposal : Proposal Version ClientId)
    (l : Loop Version Value) (unavailables : List Nat)
    (events : List (Event Version ClientId Value E)) (e : Event Version ClientId Value E)
    (he : e ∈ (accept_confirm rnd now c q value proposal l unavailables events).events) :
    e ∈ events ∨
      (∃ j rep, e = Event.accept j q proposal (replace_or l.replace value) rep) ∨
      (∃ j rep, e = Event.confirm j q proposal rep) ∨ ∃ d, e = Event.sleep d := by
  have hA : ∀ x, x ∈ (send_acceptation now q proposal (replace_or l.replace value) c._peers 0
      { reached := 0, conflicted := false, weak_error := none, unavailables := unavailables,
        version := l.version, _round := l._round, events := events, raised := none }).events →
      x ∈ events ∨ (∃ j rep, x = Event.accept j q proposal (replace_or l.replace value) rep) ∨
        (∃ j rep, x = Event.confirm j q proposal rep) ∨ ∃ d, x = Event.sleep d := by
    intro x hx
    rcases send_acceptation_events now q proposal _ c._peers 0 _ x hx with h | h
    · exact Or.inl h
    · exact Or.inr (Or.inl h)
  unfold accept_confirm at he
  dsimp only at he
  generalize send_acceptation now q proposal (replace_or l.replace value) c._peers 0
      { reached := 0, conflicted := false, weak_error := none, unavailables := unavailables,
        version := l.version, _round := l._round, events := events, raised := none } = a
    at he hA
  cases hr : a.raised with
  | some ex => rw [hr] at he; exact hA e he
  | none =>
    rw [hr] at he; dsimp only at he
    by_cases hc : a.conflicted = true
    · rw [if_pos hc] at he
      dsimp only at he
      by_cases hb : c._conflict_backoff = true
      · rw [if_pos hb, List.mem_append, List.mem_singleton] at he
        rcases he with he | he
        · exact hA e he
        · exact Or.inr (Or.inr (Or.inr ⟨_, he⟩))
      · rw [if_neg hb] at he; exact hA e he
    · rw [if_neg hc] at he
      cases hh : (_check_headcount q a.reached a.weak_error false :
          Except (Exn Version ClientId E) Unit) with
      | error ex => rw [hh] at he; exact hA e he
      | ok u1 =>
        rw [hh] at he; dsimp only at he
        rw [confirm_return_events] at he
        rcases send_confirmation_events now q proposal c._peers 0 _ e he with h | h
        · exact hA e h
        · exact Or.inr (Or.inr (Or.inl h))

end IterationLemmas


/-! ## Lemmas on `replace` -/

section ReplaceLemmas

variable {Version ClientId Value E : Type} [LinearOrder Version] [LinearOrder ClientId]

/-- The element found by `find_if` is in the range and satisfies the predicate. -/
theorem find_if_some {α : Type} (pred : α → Bool) (xs : List α) (r : α)
    (h : find_if pred xs = some r) : r ∈ xs ∧ pred r = true := by
  induction xs with
  | nil => exact absurd h (by simp [find_if])
  | cons x xs ih =>
    unfold find_if at h
    by_cases hp : pred x = true
    · rw [if_pos hp] at h
      simp only [Option.some.injEq] at h
      subst h
      exact ⟨List.mem_cons_self _ _, hp⟩
    · rw [if_neg hp] at h
      exact ⟨List.mem_cons_of_mem _ (ih h).1, (ih h).2⟩

/-- The scan of `max_element` ends on the candidate or on an element scanned. -/
theorem max_element_from_mem {α ε : Type} (comp : α → α → Except ε Bool) (xs : List α) :
    ∀ (largest m : α), max_element_from comp largest xs = .ok m → m ∈ largest :: xs := by
  induction xs with
  | nil =>
    intro largest m h
    simp only [max_element_from, Except.ok.injEq] at h
    exact h ▸ List.mem_singleton.2 rfl
  | cons y ys ih =>
    intro largest m h
    unfold max_element_from at h
    cases hc : comp largest y with
    | error e => rw [hc] at h; exact absurd h (by simp)
    | ok b =>
      rw [hc] at h
      cases b with
      | true => exact List.mem_cons_of_mem _ (ih y m h)
      | false =>
        rcases List.mem_cons.1 (ih largest m h) with hm | hm
        · exact hm ▸ List.mem_cons_self _ _
        · exact List.mem_cons_of_mem _ (List.mem_cons_of_mem _ hm)

/-- The element found by `max_element` is in the range. -/
theorem max_element_mem {α ε : Type} (comp : α → α → Except ε Bool) (xs : List α) (m : α)
    (h : max_element comp xs = .ok (some m)) : m ∈ xs := by
  cases xs with
  | nil => simp [max_element] at h
  | cons y ys =>
    unfold max_element at h
    dsimp only at h
    cases hs : max_element_from comp y ys with
    | error e => rw [hs] at h; exact absurd h (by simp)
    | ok r =>
      rw [hs] at h
      simp only [Except.ok.injEq, Option.some.injEq] at h
      exact h ▸ max_element_from_mem comp ys y r hs

/-- After `adopt`, `replace` is what it was or the value of the response. -/
theorem adopt_some (mv : Option (Response Version ClientId Value)) (replace : Option Value)
    (v : Value) (h : adopt mv replace = some v) :
    replace = some v ∨ ∃ r, mv = some r ∧ r.value = some v := by
  unfold adopt at h
  cases mv with
  | none => exact Or.inl h
  | some r =>
    dsimp only at h
    by_cases hr : r.value.isSome = true
    · rw [if_pos hr] at h; exact Or.inr ⟨r, rfl, h⟩
    · rw [if_neg hr] at h; exact Or.inl h

/-- A retry leaves `replace` and `backoff` as they are. -/
theorem retry_replace (proposal : Proposal Version ClientId)
    (mp : Option (Response Version ClientId Value)) (l l2 : Loop Version Value)
    (h : retry proposal mp l = some l2) : l2.replace = l.replace ∧ l2.backoff = l.backoff := by
  unfold retry at h
  split at h
  · split at h
    · simp only [Option.some.injEq] at h; subst h; exact ⟨rfl, rfl⟩
    · split at h
      · simp only [Option.some.injEq] at h; subst h; exact ⟨rfl, rfl⟩
      · exact absurd h (by simp)
  · exact absurd h (by simp)

/-- The value reported by a successful `propose` is the value of the response. -/
theorem reported_propose (j : Nat) (q : Quorum ClientId) (p : Proposal Version ClientId)
    (r : Response Version ClientId Value) :
    (Event.propose j q p (.ok r) : Event Version ClientId Value E).reported = r.value := rfl

/-- A value carried by a response of the fan-out "send proposal" is reported by
a recorded call. -/
theorem fan_out_proposal_reported (now : Nat) (q : Quorum ClientId)
    (proposal : Proposal Version ClientId) (peers : List (Peer Version ClientId Value E))
    (r : Response Version ClientId Value) (v : Value)
    (hr : r ∈ (fan_out_proposal now q proposal peers).responses) (hv : r.value = some v) :
    ∃ e ∈ (fan_out_proposal now q proposal peers).events, e.reported = some v := by
  obtain ⟨j, hj⟩ := fan_out_proposal_responses now q proposal peers r hr
  exact ⟨_, hj, by rw [reported_propose, hv]⟩

/-- What holds when the iteration ends in the block "send proposal". -/
theorem prepare_done (now : Nat) (c : Client Version ClientId Value E) (q : Quorum ClientId)
    (proposal : Proposal Version ClientId) (l l2 : Loop Version Value)
    (flow : Flow Version ClientId Value E) (ev : List (Event Version ClientId Value E))
    (h : prepare now c q proposal l = .done flow l2 ev) :
    ev = (fan_out_proposal now q proposal c._peers).events ∧
    (∀ ch, flow = .returned ch →
      ∃ r ∈ (fan_out_proposal now q proposal c._peers).responses, ∃ rp rv,
        r.proposal = some rp ∧ r.value = some rv ∧ confirmed r = true ∧
        ch = Choice.ofProposalValue rp rv) ∧
    (flow = .again →
      ∃ mv, max_element (@valued Version ClientId Value E _ _)
          (fan_out_proposal now q proposal c._peers).responses = .ok mv ∧
        l2.replace = adopt mv l.replace ∧ l2.backoff = l.backoff) := by
  unfold prepare at h
  dsimp only at h
  generalize fan_out_proposal now q proposal c._peers = p at h ⊢
  cases hr : p.raised with
  | some e =>
    rw [hr] at h
    simp only [Prepared.done.injEq] at h
    obtain ⟨h1, -, h3⟩ := h
    subst h1
    exact ⟨h3.symm, fun ch hch => absurd hch (by simp), fun hch => absurd hch (by simp)⟩
  | none =>
    rw [hr] at h; dsimp only at h
    cases hf : find_if confirmed p.responses with
    | some r =>
      rw [hf] at h; dsimp only at h
      obtain ⟨hmem, hconf⟩ := find_if_some _ _ _ hf
      split at h
      · rename_i rp rv hrp hrv
        simp only [Prepared.done.injEq] at h
        obtain ⟨h1, -, h3⟩ := h
        subst h1
        refine ⟨h3.symm, fun ch hch => ?_, fun hch => absurd hch (by simp)⟩
        simp only [Flow.returned.injEq] at hch
        exact ⟨r, hmem, rp, rv, hrp, hrv, hconf, hch.symm⟩
      · simp only [Prepared.done.injEq] at h
        obtain ⟨h1, -, h3⟩ := h
        subst h1
        exact ⟨h3.symm, fun ch hch => absurd hch (by simp), fun hch => absurd hch (by simp)⟩
    | none =>
      rw [hf] at h; dsimp only at h
      cases hh : (_check_headcount q p.reached p.weak_error false :
          Except (Exn Version ClientId E) Unit) with
      | error e =>
        rw [hh] at h
        simp only [Prepared.done.injEq] at h
        obtain ⟨h1, -, h3⟩ := h
        subst h1
        exact ⟨h3.symm, fun ch hch => absurd hch (by simp), fun hch => absurd hch (by simp)⟩
      | ok u1 =>
        rw [hh] at h; dsimp only at h
        cases hv : max_element (@valued Version ClientId Value E _ _) p.responses with
        | error e =>
          rw [hv] at h
          simp only [Prepared.done.injEq] at h
          obtain ⟨h1, -, h3⟩ := h
          subst h1
          exact ⟨h3.symm, fun ch hch => absurd hch (by simp), fun hch => absurd hch (by simp)⟩
        | ok mv =>
          rw [hv] at h; dsimp only at h
          cases hp : max_element (@proposed Version ClientId Value E _ _) p.responses with
          | error e =>
            rw [hp] at h
            simp only [Prepared.done.injEq] at h
            obtain ⟨h1, -, h3⟩ := h
            subst h1
            exact ⟨h3.symm, fun ch hch => absurd hch (by simp), fun hch => absurd hch (by simp)⟩
          | ok mp =>
            rw [hp] at h; dsimp only at h
            cases hy : retry proposal mp { l with replace := adopt mv l.replace } with
            | some l3 =>
              rw [hy] at h
              simp only [Prepared.done.injEq] at h
              obtain ⟨h1, h2, h3⟩ := h
              subst h1 h2
              obtain ⟨ha, hb⟩ := retry_replace proposal mp _ _ hy
              exact ⟨h3.symm, fun ch hch => absurd hch (by simp), fun _ => ⟨mv, rfl, ha, hb⟩⟩
            | none => rw [hy] at h; exact absurd h (by simp)

/-- The blocks "send acceptation" and "send confirmation" keep the calls already
recorded. -/
theorem accept_confirm_events_mono (rnd : Nat → Nat) (now : Nat)
    (c : Client Version ClientId Value E) (q : Quorum ClientId) (value : Value)
    (proposal : Proposal Version ClientId) (l : Loop Version Value) (unavailables : List Nat)
    (events : List (Event Version ClientId Value E)) (e : Event Version ClientId Value E)
    (he : e ∈ events) :
    e ∈ (accept_confirm rnd now c q value proposal l unavailables events).events := by
  have hA := send_acceptation_events_mono now q proposal (replace_or l.replace value) c._peers 0
      { reached := 0, conflicted := false, weak_error := none, unavailables := unavailables,
        version := l.version, _round := l._round, events := events, raised := none } e he
  unfold accept_confirm
  dsimp only
  generalize send_acceptation now q proposal (replace_or l.replace value) c._peers 0
      { reached := 0, conflicted := false, weak_error := none, unavailables := unavailables,
        version := l.version, _round := l._round, events := events, raised := none } = a
    at hA ⊢
  cases hr : a.raised with
  | some ex => exact hA
  | none =>
    dsimp only
    by_cases hc : a.conflicted = true
    · rw [if_pos hc]
      dsimp only
      by_cases hb : c._conflict_backoff = true
      · rw [if_pos hb]; exact List.mem_append_left _ hA
      · rw [if_neg hb]; exact hA
    · rw [if_neg hc]
      cases hh : (_check_headcount q a.reached a.weak_error false :
          Except (Exn Version ClientId E) Unit) with
      | error ex => exact hA
      | ok u1 =>
        dsimp only
        rw [confirm_return_events]
        exact send_confirmation_events_mono now q proposal c._peers 0 _ e hA

/-- The blocks "send acceptation" and "send confirmation" leave `replace` as it is. -/
theorem accept_confirm_replace (rnd : Nat → Nat) (now : Nat)
    (c : Client Version ClientId Value E) (q : Quorum ClientId) (value : Value)
    (proposal : Proposal Version ClientId) (l : Loop Version Value) (unavailables : List Nat)
    (events : List (Event Version ClientId Value E)) :
    (accept_confirm rnd now c q value proposal l unavailables events).loop.replace
      = l.replace := by
  unfold accept_confirm confirm_return
  dsimp only
  repeat' split
  all_goals rfl

end ReplaceLemmas


/-! ## Lemmas on the read path -/

section ReadLemmas

variable {Version ClientId Value E : Type} [LinearOrder Version] [LinearOrder ClientId]

/-- After a complete fan-out "get quorum", `res` is the initial `res` or an
accepted reply, and its proposal is below no accepted reply and not below the
initial one; it is empty only if there was nothing to keep. -/
theorem get_quorum_res (now : Nat) (q : Quorum ClientId)
    (peers : List (Peer Version ClientId Value E)) :
    ∀ (i : Nat) (s : Reading Version ClientId Value E),
      (get_quorum now q peers i s).raised = none →
      ((get_quorum now q peers i s).res = none →
        s.res = none ∧ accepted_replies now q peers = []) ∧
      (∀ r, (get_quorum now q peers i s).res = some r →
        (s.res = some r ∨ r ∈ accepted_replies now q peers) ∧
        (∀ a ∈ accepted_replies now q peers, ¬ r.proposal < a.proposal) ∧
        (∀ r0, s.res = some r0 → ¬ r.proposal < r0.proposal)) := by
  induction peers with
  | nil =>
    intro i s _
    refine ⟨fun h => ⟨h, rfl⟩, fun r h => ⟨Or.inl h, fun a ha => absurd ha (List.not_mem_nil _),
      fun r0 h0 => ?_⟩⟩
    have h1 : (get_quorum now q ([] : List (Peer Version ClientId Value E)) i s).res = s.res := rfl
    rw [h1, h0] at h
    simp only [Option.some.injEq] at h
    subst h
    exact Proposal.not_lt_self _
  | cons peer rest ih =>
    intro i s hraised
    unfold get_quorum at hraised ⊢
    unfold accepted_replies
    rw [List.filterMap_cons]
    cases hg : peer.get now q with
    | ok accepted =>
      rw [hg] at hraised
      dsimp only at hraised ⊢
      cases accepted with
      | none =>
        dsimp only at hraised ⊢
        exact ih _ _ hraised
      | some a =>
        dsimp only at hraised ⊢
        cases hres : s.res with
        | none =>
          rw [hres] at hraised
          dsimp only at hraised ⊢
          obtain ⟨ihn, ihs⟩ := ih _ _ hraised
          refine ⟨fun h => absurd (ihn h).1 (by simp), fun r h => ?_⟩
          obtain ⟨h1, h2, h3⟩ := ihs r h
          refine ⟨Or.inr ?_, fun x hx => ?_, fun r0 h0 => absurd h0 (by simp)⟩
          · rcases h1 with h1 | h1
            · simp only [Option.some.injEq] at h1
              exact h1 ▸ List.mem_cons_self _ _
            · exact List.mem_cons_of_mem _ h1
          · rcases List.mem_cons.1 hx with hx | hx
            · exact hx ▸ h3 a rfl
            · exact h2 x hx
        | some r1 =>
          rw [hres] at hraised
          dsimp only at hraised ⊢
          by_cases hlt : r1.proposal < a.proposal
          · rw [if_pos hlt] at hraised ⊢
            obtain ⟨ihn, ihs⟩ := ih _ _ hraised
            refine ⟨fun h => absurd (ihn h).1 (by simp), fun r h => ?_⟩
            obtain ⟨h1, h2, h3⟩ := ihs r h
            refine ⟨Or.inr ?_, fun x hx => ?_, fun r0 h0 => ?_⟩
            · rcases h1 with h1 | h1
              · simp only [Option.some.injEq] at h1
                exact h1 ▸ List.mem_cons_self _ _
              · exact List.mem_cons_of_mem _ h1
            · rcases List.mem_cons.1 hx with hx | hx
              · exact hx ▸ h3 a rfl
              · exact h2 x hx
            · rw [← Option.some.inj h0]
              exact fun hc => h3 a rfl (Proposal.lt_chain hc hlt)
          · rw [if_neg hlt] at hraised ⊢
            obtain ⟨ihn, ihs⟩ := ih _ _ hraised
            refine ⟨fun h => absurd (ihn h).1 (by simp), fun r h => ?_⟩
            obtain ⟨h1, h2, h3⟩ := ihs r h
            refine ⟨?_, fun x hx => ?_, fun r0 h0 => ?_⟩
            · rcases h1 with h1 | h1
              · exact Or.inl h1
              · exact Or.inr (List.mem_cons_of_mem _ h1)
            · rcases List.mem_cons.1 hx with hx | hx
              · rw [hx]
                exact Proposal.not_lt_chain hlt (h3 r1 rfl)
              · exact h2 x hx
            · rw [← Option.some.inj h0]
              exact h3 r1 rfl
    | error ex =>
      rw [hg] at hraised
      cases ex with
      | Unavailable => dsimp only at hraised ⊢; exact ih _ _ hraised
      | WeakError x => dsimp only at hraised ⊢; exact ih _ _ hraised
      | WrongQuorum w =>
        dsimp only at hraised ⊢
        cases hwp : w.proposal with
        | none => rw [hwp] at hraised; exact absurd hraised (by simp)
        | some ep =>
          rw [hwp] at hraised
          dsimp only at hraised ⊢
          cases hsw : s.wrong_quorum with
          | none =>
            rw [hsw] at hraised
            dsimp only at hraised ⊢
            exact ih _ _ hraised
          | some w0 =>
            rw [hsw] at hraised
            dsimp only at hraised ⊢
            cases hw0 : w0.proposal with
            | none => rw [hw0] at hraised; exact absurd hraised (by simp)
            | some wp =>
              rw [hw0] at hraised
              dsimp only at hraised ⊢
              exact ih _ _ hraised
      | TooFewPeers a b => exact absurd hraised (by simp)
      | Foreign x => exact absurd hraised (by simp)
      | AssertError => exact absurd hraised (by simp)

/-- After a complete fan-out "get quorum", `wrong_quorum` is the initial one or
an error raised by a peer; it carries a proposal, which is below no proposal of
a `WrongQuorum` raised and not below the initial one; it is empty only if
there was nothing to keep. -/
theorem get_quorum_wrong_quorum (now : Nat) (q : Quorum ClientId)
    (peers : List (Peer Version ClientId Value E)) :
    ∀ (i : Nat) (s : Reading Version ClientId Value E),
      (∀ w0, s.wrong_quorum = some w0 → ∃ wp0, w0.proposal = some wp0) →
      (get_quorum now q peers i s).raised = none →
      ((get_quorum now q peers i s).wrong_quorum = none →
        s.wrong_quorum = none ∧ wrong_quorum_replies now q peers = []) ∧
      (∀ w, (get_quorum now q peers i s).wrong_quorum = some w →
        ∃ wp, w.proposal = some wp ∧
          (s.wrong_quorum = some w ∨ wp ∈ wrong_quorum_replies now q peers) ∧
          (∀ x ∈ wrong_quorum_replies now q peers, ¬ wp < x) ∧
          (∀ w0 wp0, s.wrong_quorum = some w0 → w0.proposal = some wp0 → ¬ wp < wp0)) := by
  induction peers with
  | nil =>
    intro i s hwf _
    refine ⟨fun h => ⟨h, rfl⟩, fun w h => ?_⟩
    have h1 : (get_quorum now q ([] : List (Peer Version ClientId Value E)) i s).wrong_quorum
        = s.wrong_quorum := rfl
    rw [h1] at h
    obtain ⟨wp, hwp⟩ := hwf w h
    refine ⟨wp, hwp, Or.inl h, fun x hx => absurd hx (List.not_mem_nil _), fun w0 wp0 h0 h0p => ?_⟩
    rw [h] at h0
    rw [← Option.some.inj h0, hwp] at h0p
    rw [← Option.some.inj h0p]
    exact Proposal.not_lt_self _
  | cons peer rest ih =>
    intro i s hwf hraised
    unfold get_quorum at hraised ⊢
    unfold wrong_quorum_replies
    rw [List.filterMap_cons]
    cases hg : peer.get now q with
    | ok accepted =>
      rw [hg] at hraised
      dsimp only at hraised ⊢
      exact ih _ _ hwf hraised
    | error ex =>
      rw [hg] at hraised
      cases ex with
      | Unavailable => dsimp only at hraised ⊢; exact ih _ _ hwf hraised
      | WeakError x => dsimp only at hraised ⊢; exact ih _ _ hwf hraised
      | WrongQuorum w =>
        dsimp only at hraised ⊢
        cases hwp : w.proposal with
        | none => rw [hwp] at hraised; exact absurd hraised (by simp)
        | some ep =>
          rw [hwp] at hraised
          dsimp only at hraised ⊢
          cases hsw : s.wrong_quorum with
          | none =>
            rw [hsw] at hraised
            dsimp only at hraised ⊢
            have hwf2 : ∀ w0, some w = some w0 → ∃ wp0, w0.proposal = some wp0 := by
              intro w0 h0
              rw [← Option.some.inj h0]
              exact ⟨ep, hwp⟩
            obtain ⟨ihn, ihs⟩ := ih _ _ hwf2 hraised
            refine ⟨fun h => absurd (ihn h).1 (by simp), fun w1 h => ?_⟩
            obtain ⟨wp, h0, h1, h2, h3⟩ := ihs w1 h
            refine ⟨wp, h0, Or.inr ?_, fun x hx => ?_, fun w0 wp0 hw0 _ => absurd hw0 (by simp)⟩
            · rcases h1 with h1 | h1
              · rw [← Option.some.inj h1, hwp] at h0
                rw [← Option.some.inj h0]
                exact List.mem_cons_self _ _
              · exact List.mem_cons_of_mem _ h1
            · rcases List.mem_cons.1 hx with hx | hx
              · rw [hx]; exact h3 w ep rfl hwp
              · exact h2 x hx
          | some w0 =>
            rw [hsw] at hraised
            dsimp only at hraised ⊢
            cases hw0 : w0.proposal with
            | none => rw [hw0] at hraised; exact absurd hraised (by simp)
            | some wp0 =>
              rw [hw0] at hraised
              dsimp only at hraised ⊢
              by_cases hlt : wp0 < ep
              · rw [if_pos hlt] at hraised ⊢
                have hwf2 : ∀ w1, some w = some w1 → ∃ wp1, w1.proposal = some wp1 := by
                  intro w1 h1
                  rw [← Option.some.inj h1]
                  exact ⟨ep, hwp⟩
                obtain ⟨ihn, ihs⟩ := ih _ _ hwf2 hraised
                refine ⟨fun h => absurd (ihn h).1 (by simp), fun w1 h => ?_⟩
                obtain ⟨wp, h0, h1, h2, h3⟩ := ihs w1 h
                refine ⟨wp, h0, Or.inr ?_, fun x hx => ?_, fun w2 wp2 hw2 hwp2 => ?_⟩
                · rcases h1 with h1 | h1
                  · rw [← Option.some.inj h1, hwp] at h0
                    rw [← Option.some.inj h0]
                    exact List.mem_cons_self _ _
                  · exact List.mem_cons_of_mem _ h1
                · rcases List.mem_cons.1 hx with hx | hx
                  · rw [hx]; exact h3 w ep rfl hwp
                  · exact h2 x hx
                · rw [← Option.some.inj hw2, hw0] at hwp2
                  rw [← Option.some.inj hwp2]
                  exact fun hc => h3 w ep rfl hwp (Proposal.lt_chain hc hlt)
              · rw [if_neg hlt] at hraised ⊢
                have hwf2 : ∀ w1, some w0 = some w1 → ∃ wp1, w1.proposal = some wp1 := by
                  intro w1 h1
                  rw [← Option.some.inj h1]
                  exact ⟨wp0, hw0⟩
                obtain ⟨ihn, ihs⟩ := ih _ _ hwf2 hraised
                refine ⟨fun h => absurd (ihn h).1 (by simp), fun w1 h => ?_⟩
                obtain ⟨wp, h0, h1, h2, h3⟩ := ihs w1 h
                refine ⟨wp, h0, ?_, fun x hx => ?_, fun w2 wp2 hw2 hwp2 => ?_⟩
                · rcases h1 with h1 | h1
                  · exact Or.inl h1
                  · exact Or.inr (List.mem_cons_of_mem _ h1)
                · rcases List.mem_cons.1 hx with hx | hx
                  · rw [hx]
                    exact Proposal.not_lt_chain hlt (h3 w0 wp0 rfl hw0)
                  · exact h2 x hx
                · rw [← Option.some.inj hw2, hw0] at hwp2
                  rw [← Option.some.inj hwp2]
                  exact h3 w0 wp0 rfl hw0
      | TooFewPeers a b => exact absurd hraised (by simp)
      | Foreign x => exact absurd hraised (by simp)
      | AssertError => exact absurd hraised (by simp)

end ReadLemmas

/-! ## Lemmas on the headcount -/

section Headcount

variable {Version ClientId E : Type}

/-- The threshold of the source, computed with truncating division on `int`,
is the natural-number threshold. -/
theorem threshold_eq (n : Nat) (reading : Bool) :
    ((n : Int) - (if reading then 1 else 0)).tdiv 2
      = (((n - (if reading then 1 else 0)) / 2 : Nat) : Int) := by
  cases reading
  · simp only [Bool.false_eq_true, if_false, sub_zero, Nat.sub_zero]
    rw [Int.tdiv_eq_ediv (by omega) (by omega)]
    omega
  · simp only [if_true]
    rcases Nat.eq_zero_or_pos n with h | h
    · subst h; decide
    · rw [Int.tdiv_eq_ediv (by omega) (by omega)]
      omega

/-- The headcount, with its threshold written as a natural number. -/
theorem check_headcount_eq (q : Quorum ClientId) (reached : Int) (weak_error : Option E)
    (reading : Bool) :
    (_check_headcount q reached weak_error reading : Except (Exn Version ClientId E) Unit)
      = if reached ≤ (threshold q.card reading : Int) then
          .error (match weak_error with
                  | some w => Exn.Foreign w
                  | none => Exn.TooFewPeers reached q.card)
        else .ok () := by
  unfold _check_headcount threshold
  simp only [threshold_eq]
  cases weak_error <;> rfl

/-- The headcount passes exactly above the threshold. -/
theorem check_headcount_ok_iff (q : Quorum ClientId) (reached : Int) (weak_error : Option E)
    (reading : Bool) :
    (_check_headcount q reached weak_error reading : Except (Exn Version ClientId E) Unit) = .ok ()
      ↔ (threshold q.card reading : Int) < reached := by
  rw [check_headcount_eq]
  by_cases h : reached ≤ (threshold q.card reading : Int)
  · simp only [h, if_true, reduceCtorEq, false_iff]; omega
  · simp only [h, if_false, true_iff]; omega

/-- The headcount fails with the weak error, or else with `TooFewPeers`. -/
theorem check_headcount_error_iff (q : Quorum ClientId) (reached : Int) (weak_error : Option E)
    (reading : Bool) (e : Exn Version ClientId E) :
    _check_headcount q reached weak_error reading = .error e
      ↔ reached ≤ (threshold q.card reading : Int) ∧
        e = (match weak_error with
              | some w => Exn.Foreign w
              | none => Exn.TooFewPeers reached q.card) := by
  rw [check_headcount_eq]
  by_cases h : reached ≤ (threshold q.card reading : Int)
  · simp only [h, if_true, true_and, Except.error.injEq]
    exact eq_comm
  · simp only [h, if_false, reduceCtorEq, false_and]

end Headcount

/-! ## The quorum headcount (`_check_headcount`) -/

section HeadcountClaims

variable {Version ClientId E : Type}

/-- C1: `_check_headcount(q, reached, weak_error, reading)` raises an error exactly
when `reached <= (|q| - 1) / 2` if `reading` is true and exactly when
`reached <= |q| / 2` if `reading` is false (the division of the source, which
truncates, and equally the division of natural numbers); otherwise it returns
normally.  In particular a write phase passes iff `reached > |q| / 2`. -/
theorem check_headcount_raises_iff (q : Quorum ClientId) (reached : Int)
    (weak_error : Option E) (reading : Bool) :
    ((∃ e, (_check_headcount q reached weak_error reading :
          Except (Exn Version ClientId E) Unit) = .error e)
        ↔ reached ≤ (if reading then ((q.card : Int) - 1).tdiv 2 else (q.card : Int).tdiv 2)) ∧
    ((∃ e, (_check_headcount q reached weak_error reading :
          Except (Exn Version ClientId E) Unit) = .error e)
        ↔ reached ≤ (((if reading then (q.card - 1) / 2 else q.card / 2 : Nat)) : Int)) ∧
    ((_check_headcount q reached weak_error reading :
          Except (Exn Version ClientId E) Unit) = .ok ()
        ↔ ¬ reached ≤ (if reading then ((q.card : Int) - 1).tdiv 2 else (q.card : Int).tdiv 2)) ∧
    ((_check_headcount q reached weak_error false :
          Except (Exn Version ClientId E) Unit) = .ok ()
        ↔ reached > (q.card : Int).tdiv 2) := by
  have hr := threshold_eq q.card true
  have hw := threshold_eq q.card false
  simp only [if_true, Bool.false_eq_true, if_false, sub_zero, Nat.sub_zero] at hr hw
  have herr : (∃ e, (_check_headcount q reached weak_error reading :
      Except (Exn Version ClientId E) Unit) = .error e)
      ↔ reached ≤ (threshold q.card reading : Int) := by
    constructor
    · rintro ⟨e, he⟩
      exact ((check_headcount_error_iff q reached weak_error reading e).1 he).1
    · intro h
      exact ⟨_, (check_headcount_error_iff q reached weak_error reading _).2 ⟨h, rfl⟩⟩
  have hok := @check_headcount_ok_iff Version ClientId E q reached weak_error reading
  have hokw := @check_headcount_ok_iff Version ClientId E q reached weak_error false
  rw [herr, hok, hokw]
  cases reading
  · unfold threshold
    simp only [Bool.false_eq_true, if_false, Nat.sub_zero, hw]
    simp only [not_le, gt_iff_lt, and_self]
  · unfold threshold
    simp only [if_true, Bool.false_eq_true, if_false, Nat.sub_zero, hr, hw]
    simp only [not_le, gt_iff_lt, and_self]

/-- C2: whenever a headcount check fails, the error raised is the captured weak
error if one was captured, and otherwise `TooFewPeers(reached, |Q|)`.  `choose`
against five peers of which three are `Unavailable` in phase 1 fails with
`TooFewPeers(2, 5)`; against five peers of which four are `Unavailable` and one
raises `WeakError(boom)` it raises `boom`. -/
theorem headcount_failure_error (q : Quorum ClientId) (reached : Int) (reading : Bool) :
    (∀ w : E,
      (_check_headcount q reached (some w) reading : Except (Exn Version ClientId E) Unit)
          = .ok () ∨
        (_check_headcount q reached (some w) reading : Except (Exn Version ClientId E) Unit)
          = .error (.Foreign w)) ∧
    ((_check_headcount q reached (none : Option E) reading :
          Except (Exn Version ClientId E) Unit) = .ok () ∨
      (_check_headcount q reached (none : Option E) reading :
          Except (Exn Version ClientId E) Unit) = .error (.TooFewPeers reached q.card)) ∧
    (choose (fun _ => 1) 1 0
        (Example.client [Example.fresh 1, Example.fresh 2, Example.down 3, Example.down 4,
          Example.down 5]) 1 "X").flow = .raised (.TooFewPeers 2 5) ∧
    (choose (fun _ => 1) 1 0
        (Example.client [Example.down 1, Example.down 2, Example.weak 3 "boom", Example.down 4,
          Example.down 5]) 1 "X").flow = .raised (.Foreign "boom") := by
  refine ⟨fun w => ?_, ?_, by decide, by decide⟩
  · rw [check_headcount_eq]
    by_cases h : reached ≤ (threshold q.card reading : Int)
    · right; simp only [h, if_true]
    · left; simp only [h, if_false]
  · rw [check_headcount_eq]
    by_cases h : reached ≤ (threshold q.card reading : Int)
    · right; simp only [h, if_true]
    · left; simp only [h, if_false]

/-- C3, the claim fails: with five peers a read does not pass with two peers
reached.  `state()` with two successful empty replies and three `Unavailable`
peers raises `TooFewPeers(2, 5)`, and over a quorum of five the least count
that passes is three for a read as for a write. -/
theorem read_headcount_of_five_fails :
    (state 0 (Example.client [Example.fresh 1, Example.fresh 2, Example.down 3, Example.down 4,
        Example.down 5])).result = .error (.TooFewPeers 2 5) ∧
    (_check_headcount ({1, 2, 3, 4, 5} : Finset Nat) 2 (none : Option String) true :
        Except (Exn Nat Nat String) Unit) = .error (.TooFewPeers 2 5) ∧
    (_check_headcount ({1, 2, 3, 4, 5} : Finset Nat) 2 (none : Option String) false :
        Except (Exn Nat Nat String) Unit) = .error (.TooFewPeers 2 5) ∧
    (_check_headcount ({1, 2, 3, 4, 5} : Finset Nat) 3 (none : Option String) true :
        Except (Exn Nat Nat String) Unit) = .ok () ∧
    (_check_headcount ({1, 2, 3, 4, 5} : Finset Nat) 3 (none : Option String) false :
        Except (Exn Nat Nat String) Unit) = .ok () := by
  decide

/-- C3, amended: the reading flag loosens the headcount threshold by one exactly
for the even, non-zero quorum sizes (a read passes at `reached` iff a write
passes at `reached + 1`); for the odd sizes a read passes iff a write passes.
With `|Q| = 5` writes and reads both pass iff `reached >= 3`; with `|Q| = 4`
writes pass iff `reached >= 3` and reads pass iff `reached >= 2`. -/
theorem read_headcount_vs_write (q : Quorum ClientId) (reached : Int) (weak_error : Option E) :
    (q.card % 2 = 1 →
      ((_check_headcount q reached weak_error true : Except (Exn Version ClientId E) Unit)
          = .ok ()
        ↔ (_check_headcount q reached weak_error false : Except (Exn Version ClientId E) Unit)
          = .ok ())) ∧
    (q.card % 2 = 0 → q.card ≠ 0 →
      ((_check_headcount q reached weak_error true : Except (Exn Version ClientId E) Unit)
          = .ok ()
        ↔ (_check_headcount q (reached + 1) weak_error false :
            Except (Exn Version ClientId E) Unit) = .ok ())) ∧
    (q.card = 5 →
      ((_check_headcount q reached weak_error false : Except (Exn Version ClientId E) Unit)
          = .ok () ↔ 3 ≤ reached) ∧
      ((_check_headcount q reached weak_error true : Except (Exn Version ClientId E) Unit)
          = .ok () ↔ 3 ≤ reached)) ∧
    (q.card = 4 →
      ((_check_headcount q reached weak_error false : Except (Exn Version ClientId E) Unit)
          = .ok () ↔ 3 ≤ reached) ∧
      ((_check_headcount q reached weak_error true : Except (Exn Version ClientId E) Unit)
          = .ok () ↔ 2 ≤ reached)) := by
  simp only [check_headcount_ok_iff, threshold, if_true, Bool.false_eq_true, if_false,
    Nat.sub_zero]
  refine ⟨fun h => ?_, fun h h0 => ?_, fun h => ?_, fun h => ?_⟩
  · omega
  · omega
  · rw [h]; simp only [Nat.reduceSub, Nat.reduceDiv]; omega
  · rw [h]; simp only [Nat.reduceSub, Nat.reduceDiv]; omega

/-- Witness of `read_headcount_vs_write` at the quorums `{1, 2, 3, 4, 5}` (odd
size) and `{1, 2, 3, 4}` (even size), with two peers reached. -/
theorem read_headcount_vs_write_witness :
    (({1, 2, 3, 4, 5} : Finset Nat).card % 2 = 1 ∧ ({1, 2, 3, 4, 5} : Finset Nat).card = 5) ∧
    ((_check_headcount ({1, 2, 3, 4, 5} : Finset Nat) 2 (none : Option String) true :
          Except (Exn Nat Nat String) Unit) = .ok ()
      ↔ (_check_headcount ({1, 2, 3, 4, 5} : Finset Nat) 2 (none : Option String) false :
          Except (Exn Nat Nat String) Unit) = .ok ()) ∧
    ((_check_headcount ({1, 2, 3, 4, 5} : Finset Nat) 2 (none : Option String) true :
          Except (Exn Nat Nat String) Unit) = .ok () ↔ (3 : Int) ≤ 2) :=
  ⟨⟨by decide, by decide⟩,
    (@read_headcount_vs_write Nat Nat String ({1, 2, 3, 4, 5} : Finset Nat) 2
      (none : Option String)).1 (by decide),
    ((@read_headcount_vs_write Nat Nat String ({1, 2, 3, 4, 5} : Finset Nat) 2
      (none : Option String)).2.2.1 (by decide)).2⟩

end HeadcountClaims

/-! ## `choose` -/

section ChooseClaims

variable {Version ClientId Value E : Type} [LinearOrder Version] [LinearOrder ClientId]

/-- The choice returned by the block "send confirmation". -/
theorem confirm_return_flow (now : Nat) (c : Client Version ClientId Value E)
    (q : Quorum ClientId) (proposal : Proposal Version ClientId) (l : Loop Version Value)
    (unavailables : List Nat) (events : List (Event Version ClientId Value E))
    (ch : Choice Version ClientId Value)
    (h : (confirm_return now c q proposal l unavailables events).flow = .returned ch) :
    ch = (match l.replace with
          | some r => Choice.ofProposalValue proposal r
          | none => Choice.ofProposal proposal) := by
  unfold confirm_return at h
  dsimp only at h
  split at h
  · exact absurd h (by simp)
  · split at h
    · exact absurd h (by simp)
    · split at h
      · simp only [Flow.returned.injEq] at h
        exact h.symm
      · simp only [Flow.returned.injEq] at h
        exact h.symm

/-- The choice returned by the blocks "send acceptation" and "send confirmation". -/
theorem accept_confirm_flow (rnd : Nat → Nat) (now : Nat) (c : Client Version ClientId Value E)
    (q : Quorum ClientId) (value : Value) (proposal : Proposal Version ClientId)
    (l : Loop Version Value) (unavailables : List Nat)
    (events : List (Event Version ClientId Value E)) (ch : Choice Version ClientId Value)
    (h : (accept_confirm rnd now c q value proposal l unavailables events).flow = .returned ch) :
    ch = (match l.replace with
          | some r => Choice.ofProposalValue proposal r
          | none => Choice.ofProposal proposal) := by
  unfold accept_confirm at h
  dsimp only at h
  split at h
  · exact absurd h (by simp)
  · split at h
    · exact absurd h (by simp)
    · split at h
      · exact absurd h (by simp)
      · have h2 := confirm_return_flow _ _ _ _ _ _ _ ch h
        exact h2

/-- An iteration whose block "send proposal" goes on is the rest of the body. -/
theorem iteration_of_proceed (rnd : Nat → Nat) (now : Nat) (c : Client Version ClientId Value E)
    (q : Quorum ClientId) (value : Value) (l l2 : Loop Version Value) (u : List Nat)
    (ev : List (Event Version ClientId Value E))
    (h : prepare now c q { version := l.version, round := l._round + 1, client := c._id }
      { l with _round := l._round + 1 } = .proceed l2 u ev) :
    iteration rnd now c q value l
      = accept_confirm rnd now c q value
          { version := l.version, round := l._round + 1, client := c._id } l2 u ev := by
  unfold iteration
  dsimp only
  rw [h]

/-- C4: re-propose law.  In an iteration of `choose` that reaches phase 2 (the
block "send proposal" goes on to "send acceptation"), if at least one phase-1
response carries an accepted value, then there is a value-carrying response `r`
whose proposal no value-carrying response exceeds, the value passed to every
`accept` call of the iteration is the value of `r` (whatever the caller's
value), and if the iteration returns, it returns the `Choice` built from the
proposal and that value, with `conflicted = true`.  With two fresh peers and one
peer reporting `("Y", Proposal(1,1,5))`, `choose(1, "X")` by client `7` returns
`Choice(Proposal(1,1,7), conflicted=true, value="Y")`. -/
theorem repropose_law (rnd : Nat → Nat) (now : Nat) (c : Client Version ClientId Value E)
    (q : Quorum ClientId) (value : Value) (l l2 : Loop Version Value) (u : List Nat)
    (ev : List (Event Version ClientId Value E)) :
    (prepare now c q { version := l.version, round := l._round + 1, client := c._id }
        { l with _round := l._round + 1 } = .proceed l2 u ev →
      (∃ r0 ∈ (fan_out_proposal now q
            { version := l.version, round := l._round + 1, client := c._id } c._peers).responses,
          r0.value.isSome = true) →
      ∃ r ∈ (fan_out_proposal now q
            { version := l.version, round := l._round + 1, client := c._id } c._peers).responses,
        ∃ v, r.value = some v ∧
          (∀ x ∈ (fan_out_proposal now q
                { version := l.version, round := l._round + 1, client := c._id }
                c._peers).responses,
            x.value.isSome = true →
              x = r ∨ ∃ p px, r.proposal = some p ∧ x.proposal = some px ∧ ¬ p < px) ∧
          (∀ j q2 p2 v2 rep,
            Event.accept j q2 p2 v2 rep ∈ (iteration rnd now c q value l).events → v2 = v) ∧
          (∀ ch, (iteration rnd now c q value l).flow = .returned ch →
            ch = { _proposal := { version := l.version, round := l._round + 1, client := c._id },
                   _conflicted := true, _value := some v })) ∧
    (choose (fun _ => 1) 1 0
        (Example.client [Example.fresh 1, Example.fresh 2,
          Example.accepted 3 { version := 1, round := 1, client := 5 } "Y"]) 1 "X").flow
      = .returned { _proposal := { version := 1, round := 1, client := 7 }, _conflicted := true,
                    _value := some "Y" } := by
  refine ⟨fun hprep hex => ?_, by decide⟩
  obtain ⟨mv, mp, hv, -, -, hl2, -, hev, -, -, -⟩ := prepare_proceed now c q _ _ l2 u ev hprep
  rw [iteration_of_proceed rnd now c q value l l2 u ev hprep]
  generalize hR : (fan_out_proposal now q
      { version := l.version, round := l._round + 1, client := c._id } c._peers).responses = rs
    at hv hex
  obtain ⟨r0, hr0, hr0v⟩ := hex
  cases rs with
  | nil => exact absurd hr0 (List.not_mem_nil _)
  | cons y ys =>
    unfold max_element at hv
    dsimp only at hv
    cases hs : max_element_from (@valued Version ClientId Value E _ _) y ys with
    | error e => rw [hs] at hv; exact absurd hv (by simp)
    | ok m =>
      rw [hs] at hv
      simp only [Except.ok.injEq] at hv
      obtain ⟨hm, hall⟩ := valued_scan ys y m hs
      have hmv : m.value.isSome = true := (hall r0 hr0 hr0v).1
      obtain ⟨v, hvm⟩ := Option.isSome_iff_exists.1 hmv
      have hrep : l2.replace = some v := by
        rw [hl2, ← hv]
        simp only [adopt, hvm, Option.isSome_some, if_true]
      refine ⟨m, hm, v, hvm, fun x hx hxv => ?_, ?_, ?_⟩
      · rcases (hall x hx hxv).2 with h | h
        · exact Or.inl h
        · exact Or.inr h
      · intro j q2 p2 v2 rep he
        rcases accept_confirm_events rnd now c q value _ l2 u ev _ he with h | h | h | h
        · rw [hev] at h
          obtain ⟨j2, rep2, h2⟩ := fan_out_proposal_events now q _ c._peers _ h
          exact absurd h2 (by simp)
        · obtain ⟨j2, rep2, h2⟩ := h
          simp only [Event.accept.injEq] at h2
          rw [h2.2.2.2.1, hrep]
          rfl
        · obtain ⟨j2, rep2, h2⟩ := h
          exact absurd h2 (by simp)
        · obtain ⟨d, h2⟩ := h
          exact absurd h2 (by simp)
      · intro ch hch
        have := accept_confirm_flow rnd now c q value _ l2 u ev ch hch
        rw [hrep] at this
        exact this

/-- Witness of `repropose_law`: client `7`, fresh, proposes `(1, 1, 7)` to two
fresh peers and to one peer that accepted `"Y"` at `(1, 1, 5)`. -/
theorem repropose_law_witness :
    ∃ r ∈ (fan_out_proposal 0 (quorum [Example.fresh 1, Example.fresh 2,
            Example.accepted 3 { version := 1, round := 1, client := 5 } "Y"])
          { version := 1, round := 0 + 1, client := 7 }
          [Example.fresh 1, Example.fresh 2,
            Example.accepted 3 { version := 1, round := 1, client := 5 } "Y"]).responses,
      ∃ v, r.value = some v ∧
        (∀ j q2 p2 v2 rep,
          Event.accept j q2 p2 v2 rep ∈
            (iteration (fun _ => 1) 0
              (Example.client [Example.fresh 1, Example.fresh 2,
                Example.accepted 3 { version := 1, round := 1, client := 5 } "Y"])
              (quorum [Example.fresh 1, Example.fresh 2,
                Example.accepted 3 { version := 1, round := 1, client := 5 } "Y"]) "X"
              { version := 1, backoff := 1, replace := none, _round := 0 }).events → v2 = v) := by
  obtain ⟨r, hr, v, hv, -, h2, -⟩ :=
    (@repropose_law Nat Nat String String _ _ (fun _ => 1) 0
      (Example.client [Example.fresh 1, Example.fresh 2,
        Example.accepted 3 { version := 1, round := 1, client := 5 } "Y"])
      (quorum [Example.fresh 1, Example.fresh 2,
        Example.accepted 3 { version := 1, round := 1, client := 5 } "Y"]) "X"
      { version := 1, backoff := 1, replace := none, _round := 0 }
      { version := 1, backoff := 1, replace := some "Y", _round := 1 } []
      _).1 (by rfl) (by decide)
  exact ⟨r, hr, v, hv, h2⟩

/-- A value adopted from the greatest response for `valued` is reported by a
recorded call of the fan-out. -/
theorem adopted_reported (now : Nat) (q : Quorum ClientId)
    (proposal : Proposal Version ClientId) (peers : List (Peer Version ClientId Value E))
    (mv : Option (Response Version ClientId Value)) (replace : Option Value) (v : Value)
    (hmv : max_element (@valued Version ClientId Value E _ _)
      (fan_out_proposal now q proposal peers).responses = .ok mv)
    (h : adopt mv replace = some v) :
    replace = some v ∨
      ∃ e ∈ (fan_out_proposal now q proposal peers).events, e.reported = some v := by
  rcases adopt_some mv replace v h with h1 | ⟨r, hr, hrv⟩
  · exact Or.inl h1
  · subst hr
    exact Or.inr (fan_out_proposal_reported now q proposal peers r v
      (max_element_mem _ _ r hmv) hrv)

/-- The value of a conflicted `Choice` returned by an iteration, and the value
of `replace` when the iteration loops, is the former `replace` or a value
reported in this iteration. -/
theorem iteration_adopted (rnd : Nat → Nat) (now : Nat) (c : Client Version ClientId Value E)
    (q : Quorum ClientId) (value : Value) (l : Loop Version Value) :
    (∀ ch, (iteration rnd now c q value l).flow = .returned ch → ch._conflicted = true →
      ∃ v, ch._value = some v ∧
        (l.replace = some v ∨
          ∃ e ∈ (iteration rnd now c q value l).events, e.reported = some v)) ∧
    ((iteration rnd now c q value l).flow = .again →
      ∀ v, (iteration rnd now c q value l).loop.replace = some v →
        (l.replace = some v ∨
          ∃ e ∈ (iteration rnd now c q value l).events, e.reported = some v)) := by
  cases hprep : prepare now c q { version := l.version, round := l._round + 1, client := c._id }
      { l with _round := l._round + 1 } with
  | done flow l2 ev =>
    have hit : iteration rnd now c q value l
        = { flow := flow, loop := l2,
            proposal := { version := l.version, round := l._round + 1, client := c._id },
            events := ev } := by
      unfold iteration
      dsimp only
      rw [hprep]
    rw [hit]
    obtain ⟨hev, hret, hag⟩ := prepare_done now c q _ _ l2 flow ev hprep
    refine ⟨fun ch hch hconf => ?_, fun hflow v hv => ?_⟩
    · obtain ⟨r, hr, rp, rv, -, hrv, -, hc⟩ := hret ch hch
      refine ⟨rv, by rw [hc]; rfl, Or.inr ?_⟩
      dsimp only
      rw [hev]
      exact fan_out_proposal_reported now q _ c._peers r rv hr hrv
    · obtain ⟨mv, hmv, hrep, -⟩ := hag hflow
      dsimp only at hv ⊢
      rw [hrep] at hv
      rw [hev]
      exact adopted_reported now q _ c._peers mv _ v hmv hv
  | proceed l2 u ev =>
    rw [iteration_of_proceed rnd now c q value l l2 u ev hprep]
    obtain ⟨mv, mp, hmv, -, -, hl2, -, hev, -, -, -⟩ := prepare_proceed now c q _ _ l2 u ev hprep
    have hrep : l2.replace = adopt mv l.replace := by rw [hl2]
    have key : ∀ v, l2.replace = some v →
        (l.replace = some v ∨
          ∃ e ∈ (accept_confirm rnd now c q value
              { version := l.version, round := l._round + 1, client := c._id } l2 u ev).events,
            e.reported = some v) := by
      intro v hv
      rw [hrep] at hv
      rcases adopted_reported now q _ c._peers mv _ v hmv hv with h | ⟨e, he, hre⟩
      · exact Or.inl h
      · refine Or.inr ⟨e, ?_, hre⟩
        apply accept_confirm_events_mono
        rw [hev]
        exact he
    refine ⟨fun ch hch hconf => ?_, fun _ v hv => ?_⟩
    · have hc := accept_confirm_flow rnd now c q value _ l2 u ev ch hch
      cases hl : l2.replace with
      | none =>
        rw [hl] at hc
        rw [hc] at hconf
        exact absurd hconf (by simp [Choice.ofProposal])
      | some v =>
        rw [hl] at hc
        exact ⟨v, by rw [hc]; rfl, key v hl⟩
    · rw [accept_confirm_replace] at hv
      exact key v hv

/-- The value of a conflicted `Choice` returned by the loop of `choose` is the
initial `replace` or a value reported in one of the iterations. -/
theorem choose_loop_adopted (rnd : Nat → Nat) (c : Client Version ClientId Value E)
    (q : Quorum ClientId) (value : Value) (fuel : Nat) :
    ∀ (now : Nat) (l : Loop Version Value) (ch : Choice Version ClientId Value),
      (choose_loop rnd c q value fuel now l).flow = .returned ch → ch._conflicted = true →
      ∃ v, ch._value = some v ∧
        (l.replace = some v ∨
          ∃ it ∈ (choose_loop rnd c q value fuel now l).trace,
            ∃ e ∈ it.events, e.reported = some v) := by
  induction fuel with
  | zero =>
    intro now l ch h
    exact absurd h (by simp [choose_loop])
  | succ fuel ih =>
    intro now l ch h hconf
    obtain ⟨hA, hB⟩ := iteration_adopted rnd now c q value l
    unfold choose_loop at h ⊢
    dsimp only at h ⊢
    cases hflow : (iteration rnd now c q value l).flow with
    | again =>
      rw [hflow] at h
      dsimp only at h ⊢
      obtain ⟨v, hv, hcase⟩ := ih (now + 1) _ ch h hconf
      refine ⟨v, hv, ?_⟩
      rcases hcase with hl | ⟨it, hit, e, he, hre⟩
      · rcases hB hflow v hl with h1 | ⟨e, he, hre⟩
        · exact Or.inl h1
        · exact Or.inr ⟨_, List.mem_cons_self _ _, e, he, hre⟩
      · exact Or.inr ⟨it, List.mem_cons_of_mem _ hit, e, he, hre⟩
    | returned ch2 =>
      rw [hflow] at h
      dsimp only at h ⊢
      simp only [Flow.returned.injEq] at h
      subst h
      obtain ⟨v, hv, hcase⟩ := hA ch2 hflow hconf
      refine ⟨v, hv, ?_⟩
      rcases hcase with h1 | ⟨e, he, hre⟩
      · exact Or.inl h1
      · exact Or.inr ⟨_, List.mem_singleton.2 rfl, e, he, hre⟩
    | raised ex =>
      rw [hflow] at h
      exact absurd h (by simp)

/-- C5, the claim fails: `replace` is declared before the loop and survives a
`continue`.  Client `7` proposes `(1, 1, 7)`; peer 1 reports `"Y"` accepted at
`(1, 1, 5)`, peer 2 answers `accept` with the minimum `(1, 2, 5)`, a conflict.
In the second iteration peer 1 is `Unavailable` and no response carries a
value, yet `choose` returns `Choice((1, 3, 7), conflicted=true, "Y")`. -/
theorem conflict_adoption_from_earlier_iteration :
    (choose (fun _ => 1) 2 0
        (Example.client [Example.leaving 1 { version := 1, round := 1, client := 5 } "Y",
          Example.contended 2 { version := 1, round := 2, client := 5 }, Example.fresh 3])
        1 "X").flow
      = .returned { _proposal := { version := 1, round := 3, client := 7 }, _conflicted := true,
                    _value := some "Y" } ∧
    (choose (fun _ => 1) 2 0
        (Example.client [Example.leaving 1 { version := 1, round := 1, client := 5 } "Y",
          Example.contended 2 { version := 1, round := 2, client := 5 }, Example.fresh 3])
        1 "X").trace.map (fun it => (it.proposal, it.events.filterMap Event.reported))
      = [({ version := 1, round := 1, client := 7 }, ["Y"]),
         ({ version := 1, round := 3, client := 7 }, [])] := by
  decide

/-- C5, amended: for every `choose` call that returns a `Choice` with
`conflicted = true`, the value it carries was reported as accepted by at least
one peer in phase 1 of some iteration of that call, the final one or an
earlier one. -/
theorem conflict_adoption (rnd : Nat → Nat) (fuel now : Nat)
    (c : Client Version ClientId Value E) (version : Version) (value : Value)
    (ch : Choice Version ClientId Value)
    (h : (choose rnd fuel now c version value).flow = .returned ch)
    (hconf : ch._conflicted = true) :
    ∃ v, ch._value = some v ∧
      ∃ it ∈ (choose rnd fuel now c version value).trace,
        ∃ j q p r, Event.propose j q p (.ok r) ∈ it.events ∧ r.value = some v := by
  unfold choose at h ⊢
  obtain ⟨v, hv, hcase⟩ := choose_loop_adopted rnd c (quorum c._peers) value fuel now _ ch h hconf
  refine ⟨v, hv, ?_⟩
  rcases hcase with h1 | ⟨it, hit, e, he, hre⟩
  · exact absurd h1 (by simp)
  · refine ⟨it, hit, ?_⟩
    cases e with
    | propose j q p rep =>
      cases rep with
      | ok r => exact ⟨j, q, p, r, he, hre⟩
      | error ex => exact absurd hre (by simp [Event.reported])
    | accept j q p v2 rep => exact absurd hre (by simp [Event.reported])
    | confirm j q p rep => exact absurd hre (by simp [Event.reported])
    | get j q rep => exact absurd hre (by simp [Event.reported])
    | sleep d => exact absurd hre (by simp [Event.reported])

/-- Witness of `conflict_adoption` on a run whose first iteration meets a conflict
after a peer reported `"Y"`, and whose second iteration returns. -/
theorem conflict_adoption_witness :
    ∃ v, (some "Y" : Option String) = some v ∧
      ∃ it ∈ (choose (fun _ => 1) 2 0
          (Example.client [Example.leaving 1 { version := 1, round := 1, client := 5 } "Y",
            Example.contended 2 { version := 1, round := 2, client := 5 }, Example.fresh 3])
          1 "X").trace,
        ∃ j q p r, Event.propose j q p (.ok r) ∈ it.events ∧ r.value = some v :=
  conflict_adoption (fun _ => 1) 2 0
    (Example.client [Example.leaving 1 { version := 1, round := 1, client := 5 } "Y",
      Example.contended 2 { version := 1, round := 2, client := 5 }, Example.fresh 3])
    1 "X"
    { _proposal := { version := 1, round := 3, client := 7 }, _conflicted := true,
      _value := some "Y" }
    (by decide) rfl

end ChooseClaims

/-! ## `state` -/

section StateClaims

variable {Version ClientId Value E : Type} [LinearOrder Version] [LinearOrder ClientId]

/-- What the complete fan-out of `state` keeps: the highest accepted reply and
the highest `WrongQuorum`, each present exactly when there is one. -/
theorem fan_out_get_kept (now : Nat) (q : Quorum ClientId)
    (peers : List (Peer Version ClientId Value E))
    (hraised : (fan_out_get now q peers).raised = none) :
    ((fan_out_get now q peers).res = none → accepted_replies now q peers = []) ∧
    (∀ r, (fan_out_get now q peers).res = some r →
      r ∈ accepted_replies now q peers ∧
      ∀ a ∈ accepted_replies now q peers, ¬ r.proposal < a.proposal) ∧
    ((fan_out_get now q peers).wrong_quorum = none → wrong_quorum_replies now q peers = []) ∧
    (∀ w, (fan_out_get now q peers).wrong_quorum = some w →
      ∃ wp, w.proposal = some wp ∧ wp ∈ wrong_quorum_replies now q peers ∧
        ∀ x ∈ wrong_quorum_replies now q peers, ¬ wp < x) := by
  obtain ⟨r1, r2⟩ := get_quorum_res now q peers 0 _ hraised
  obtain ⟨w1, w2⟩ := get_quorum_wrong_quorum now q peers 0
    { reached := 0, res := none, wrong_quorum := none, weak_error := none, events := [],
      raised := none } (fun w0 h0 => absurd h0 (by simp)) hraised
  refine ⟨fun h => (r1 h).2, fun r h => ?_, fun h => (w1 h).2, fun w h => ?_⟩
  · obtain ⟨h1, h2, -⟩ := r2 r h
    rcases h1 with h1 | h1
    · exact absurd h1 (by simp)
    · exact ⟨h1, h2⟩
  · obtain ⟨wp, h0, h1, h2, -⟩ := w2 w h
    rcases h1 with h1 | h1
    · exact absurd h1 (by simp)
    · exact ⟨wp, h0, h1, h2⟩

/-- The end of `state` once the fan-out is complete and the headcount passes. -/
theorem state_result_of_passed (q : Quorum ClientId) (g : Reading Version ClientId Value E)
    (hraised : g.raised = none)
    (hhead : (_check_headcount q g.reached g.weak_error true :
      Except (Exn Version ClientId E) Unit) = .ok ()) :
    state_result q g =
      (match g.wrong_quorum, g.res with
        | some w, none => .error (.WrongQuorum w)
        | some w, some r =>
          if lt_optional r.proposal w.proposal then .error (.WrongQuorum w)
          else .ok { value := some r.value, quorum := q, proposal := some r.proposal }
        | none, some r => .ok { value := some r.value, quorum := q, proposal := some r.proposal }
        | none, none => .ok { value := none, quorum := q, proposal := none }) := by
  unfold state_result
  rw [hraised, hhead]

/-- A result of `state` comes from a complete fan-out and a passed headcount. -/
theorem state_result_ok (q : Quorum ClientId) (g : Reading Version ClientId Value E)
    (st : State Version ClientId Value) (h : state_result q g = .ok st) :
    g.raised = none ∧
    (_check_headcount q g.reached g.weak_error true :
      Except (Exn Version ClientId E) Unit) = .ok () := by
  unfold state_result at h
  cases hr : g.raised with
  | some e => rw [hr] at h; exact absurd h (by simp)
  | none =>
    rw [hr] at h
    dsimp only at h
    cases hh : (_check_headcount q g.reached g.weak_error true :
        Except (Exn Version ClientId E) Unit) with
    | error e => rw [hh] at h; exact absurd h (by simp)
    | ok u => exact ⟨rfl, rfl⟩

/-- The quorum is the set of the ids of the peers. -/
theorem mem_quorum (peers : List (Peer Version ClientId Value E)) (x : ClientId) :
    x ∈ quorum peers ↔ ∃ peer ∈ peers, peer.id = x := by
  have key : ∀ (ps : List (Peer Version ClientId Value E)) (acc : Finset ClientId),
      x ∈ ps.foldl (fun q peer => insert peer.id q) acc ↔ x ∈ acc ∨ ∃ peer ∈ ps, peer.id = x := by
    intro ps
    induction ps with
    | nil => intro acc; simp
    | cons p ps ih =>
      intro acc
      rw [List.foldl_cons, ih, Finset.mem_insert]
      constructor
      · rintro ((h | h) | ⟨peer, hp, hx⟩)
        · exact Or.inr ⟨p, List.mem_cons_self _ _, h.symm⟩
        · exact Or.inl h
        · exact Or.inr ⟨peer, List.mem_cons_of_mem _ hp, hx⟩
      · rintro (h | ⟨peer, hp, hx⟩)
        · exact Or.inl (Or.inr h)
        · rcases List.mem_cons.1 hp with hp | hp
          · exact Or.inl (Or.inl (by rw [← hx, hp]))
          · exact Or.inr ⟨peer, hp, hx⟩
  unfold quorum
  rw [key]
  simp

/-- The decision of `state` between the highest accepted reply `a` and the
highest `WrongQuorum` proposal `wp`, once the headcount has passed: the error is
raised exactly when `a.proposal < wp`. -/
theorem state_decision (now : Nat) (c : Client Version ClientId Value E)
    (hraised : (fan_out_get now (quorum c._peers) c._peers).raised = none)
    (hhead : (_check_headcount (quorum c._peers)
      (fan_out_get now (quorum c._peers) c._peers).reached
      (fan_out_get now (quorum c._peers) c._peers).weak_error true :
        Except (Exn Version ClientId E) Unit) = .ok ())
    (a : Accepted Version ClientId Value) (wp : Proposal Version ClientId)
    (ha : a ∈ accepted_replies now (quorum c._peers) c._peers)
    (hamax : ∀ x ∈ accepted_replies now (quorum c._peers) c._peers, ¬ a.proposal < x.proposal)
    (hw : wp ∈ wrong_quorum_replies now (quorum c._peers) c._peers)
    (hwmax : ∀ x ∈ wrong_quorum_replies now (quorum c._peers) c._peers, ¬ wp < x) :
    (a.proposal < wp → ∃ w, w.proposal = some wp ∧
      (state now c).result = .error (.WrongQuorum w)) ∧
    (¬ a.proposal < wp → ∃ r ∈ accepted_replies now (quorum c._peers) c._peers,
      (∀ x ∈ accepted_replies now (quorum c._peers) c._peers, ¬ r.proposal < x.proposal) ∧
      r.proposal = a.proposal ∧
      (state now c).result
        = .ok { value := some r.value, quorum := quorum c._peers,
                proposal := some r.proposal }) := by
  obtain ⟨k1, k2, k3, k4⟩ := fan_out_get_kept now (quorum c._peers) c._peers hraised
  have hres : (state now c).result
      = state_result (quorum c._peers) (fan_out_get now (quorum c._peers) c._peers) := rfl
  rw [hres, state_result_of_passed _ _ hraised hhead]
  cases hgr : (fan_out_get now (quorum c._peers) c._peers).res with
  | none => rw [k1 hgr] at ha; exact absurd ha (List.not_mem_nil _)
  | some r =>
    obtain ⟨hr, hrmax⟩ := k2 r hgr
    cases hgw : (fan_out_get now (quorum c._peers) c._peers).wrong_quorum with
    | none => rw [k3 hgw] at hw; exact absurd hw (List.not_mem_nil _)
    | some w =>
      obtain ⟨wp2, hwp2, hw2, hw2max⟩ := k4 w hgw
      dsimp only
      rw [hwp2]
      unfold lt_optional
      dsimp only
      -- `r` and `a` are both highest accepted replies, `wp2` and `wp` both highest errors
      have e1 : ¬ r.proposal < a.proposal := hrmax a ha
      have e2 : ¬ a.proposal < r.proposal := hamax r hr
      have e3 : ¬ wp2 < wp := hw2max wp hw
      have e4 : ¬ wp < wp2 := hwmax wp2 hw2
      have e5 : wp2 = wp := Proposal.eq_of_not_lt e3 e4
      subst e5
      constructor
      · intro hlt
        have hlt2 : r.proposal < wp2 := Proposal.lt_of_not_lt_of_lt e2 hlt
        refine ⟨w, hwp2, ?_⟩
        simp only [hlt2, decide_True, if_true]
      · intro hnlt
        have hnlt2 : ¬ r.proposal < wp2 := fun h => hnlt (Proposal.lt_of_not_lt_of_lt e1 h)
        refine ⟨r, hr, hrmax, Proposal.eq_of_not_lt e1 e2, ?_⟩
        simp only [hnlt2, decide_False, Bool.false_eq_true, if_false]

/-- C7, the claim fails: when the highest accepted proposal equals the highest
`WrongQuorum` proposal, `state()` returns the accepted value.  One peer returns
`Accepted(Proposal(1,1,7), "X")` and one raises `WrongQuorum(Proposal(1,1,7))`:
the result is `State("X", {1, 2}, Proposal(1,1,7))`, not an error. -/
theorem wrong_quorum_tie_returns_value :
    (state 0 (Example.client
        [Example.accepted 1 { version := 1, round := 1, client := 7 } "X",
          Example.wrong 2 { version := 1, round := 1, client := 7 }])).result
      = .ok { value := some "X", quorum := {1, 2},
              proposal := some { version := 1, round := 1, client := 7 } } := by
  decide

/-- C7, amended: after the read headcount passes, `state()` chooses between the
highest accepted reply `a` and the highest `WrongQuorum` proposal `wp` by
comparing their proposals: it raises the `WrongQuorum` when `a.proposal < wp`,
and returns an accepted reply of highest proposal when `wp < a.proposal` and
also when the two proposals are equal: the tie breaks toward the accepted
value. -/
theorem wrong_quorum_supersession (now : Nat) (c : Client Version ClientId Value E)
    (hraised : (fan_out_get now (quorum c._peers) c._peers).raised = none)
    (hhead : (_check_headcount (quorum c._peers)
      (fan_out_get now (quorum c._peers) c._peers).reached
      (fan_out_get now (quorum c._peers) c._peers).weak_error true :
        Except (Exn Version ClientId E) Unit) = .ok ())
    (a : Accepted Version ClientId Value) (wp : Proposal Version ClientId)
    (ha : a ∈ accepted_replies now (quorum c._peers) c._peers)
    (hamax : ∀ x ∈ accepted_replies now (quorum c._peers) c._peers, ¬ a.proposal < x.proposal)
    (hw : wp ∈ wrong_quorum_replies now (quorum c._peers) c._peers)
    (hwmax : ∀ x ∈ wrong_quorum_replies now (quorum c._peers) c._peers, ¬ wp < x) :
    (a.proposal < wp →
      (state now c).result = .error (.WrongQuorum { proposal := some wp })) ∧
    (wp < a.proposal ∨ a.proposal = wp →
      ∃ r ∈ accepted_replies now (quorum c._peers) c._peers,
        r.proposal = a.proposal ∧
        (state now c).result
          = .ok { value := some r.value, quorum := quorum c._peers,
                  proposal := some a.proposal }) := by
  obtain ⟨d1, d2⟩ := state_decision now c hraised hhead a wp ha hamax hw hwmax
  constructor
  · intro hlt
    obtain ⟨w, hwp, hres⟩ := d1 hlt
    rw [hres]
    cases w
    simp only at hwp
    rw [hwp]
  · intro h
    have hn : ¬ a.proposal < wp := by
      rcases h with h | h
      · exact Proposal.asymm h
      · rw [h]; exact Proposal.not_lt_self _
    obtain ⟨r, hr, -, hrp, hres⟩ := d2 hn
    exact ⟨r, hr, hrp, by rw [hres, hrp]⟩

/-- Witness of `wrong_quorum_supersession` on a tie: one peer returns `"X"`
accepted at `(1, 1, 7)`, one raises `WrongQuorum` with `(1, 1, 7)`. -/
theorem wrong_quorum_supersession_witness :
    ∃ r ∈ accepted_replies 0
        (quorum [Example.accepted 1 { version := 1, round := 1, client := 7 } "X",
          Example.wrong 2 { version := 1, round := 1, client := 7 }])
        [Example.accepted 1 { version := 1, round := 1, client := 7 } "X",
          Example.wrong 2 { version := 1, round := 1, client := 7 }],
      r.proposal = { version := 1, round := 1, client := 7 } ∧
      (state 0 (Example.client
          [Example.accepted 1 { version := 1, round := 1, client := 7 } "X",
            Example.wrong 2 { version := 1, round := 1, client := 7 }])).result
        = .ok { value := some r.value,
                quorum := quorum [Example.accepted 1 { version := 1, round := 1, client := 7 } "X",
                  Example.wrong 2 { version := 1, round := 1, client := 7 }],
                proposal := some { version := 1, round := 1, client := 7 } } :=
  (wrong_quorum_supersession 0
    (Example.client [Example.accepted 1 { version := 1, round := 1, client := 7 } "X",
      Example.wrong 2 { version := 1, round := 1, client := 7 }])
    (by decide) (by decide)
    { proposal := { version := 1, round := 1, client := 7 }, value := "X" }
    { version := 1, round := 1, client := 7 }
    (by decide) (by decide) (by decide) (by decide)).2 (Or.inr rfl)

/-- C8: after the read headcount passes, `state()` raises `WrongQuorum` iff at
least one peer raised a `WrongQuorum` carrying a proposal and either no peer
returned an accepted value or the highest accepted proposal is strictly less
than the highest `WrongQuorum` proposal; the error raised carries the highest
proposal among the `WrongQuorum` errors.  Two peers returning
`Accepted(Proposal(1,1,7), "X")` and one raising `WrongQuorum(Proposal(2,1,7))`
make `state()` raise that `WrongQuorum`. -/
theorem state_raises_wrong_quorum_iff (now : Nat) (c : Client Version ClientId Value E)
    (hraised : (fan_out_get now (quorum c._peers) c._peers).raised = none)
    (hhead : (_check_headcount (quorum c._peers)
      (fan_out_get now (quorum c._peers) c._peers).reached
      (fan_out_get now (quorum c._peers) c._peers).weak_error true :
        Except (Exn Version ClientId E) Unit) = .ok ()) :
    ((∃ w, (state now c).result = .error (.WrongQuorum w)) ↔
      wrong_quorum_replies now (quorum c._peers) c._peers ≠ [] ∧
        (accepted_replies now (quorum c._peers) c._peers = [] ∨
          ∃ a ∈ accepted_replies now (quorum c._peers) c._peers,
            ∃ wp ∈ wrong_quorum_replies now (quorum c._peers) c._peers,
              (∀ x ∈ accepted_replies now (quorum c._peers) c._peers,
                ¬ a.proposal < x.proposal) ∧
              (∀ x ∈ wrong_quorum_replies now (quorum c._peers) c._peers, ¬ wp < x) ∧
              a.proposal < wp)) ∧
    (∀ w, (state now c).result = .error (.WrongQuorum w) →
      ∃ wp, w.proposal = some wp ∧ wp ∈ wrong_quorum_replies now (quorum c._peers) c._peers ∧
        ∀ x ∈ wrong_quorum_replies now (quorum c._peers) c._peers, ¬ wp < x) ∧
    (state 0 (Example.client
        [Example.accepted 1 { version := 1, round := 1, client := 7 } "X",
          Example.accepted 2 { version := 1, round := 1, client := 7 } "X",
          Example.wrong 3 { version := 2, round := 1, client := 7 }])).result
      = .error (.WrongQuorum { proposal := some { version := 2, round := 1, client := 7 } }) := by
  obtain ⟨k1, k2, k3, k4⟩ := fan_out_get_kept now (quorum c._peers) c._peers hraised
  have hres : (state now c).result
      = state_result (quorum c._peers) (fan_out_get now (quorum c._peers) c._peers) := rfl
  have hshape := state_result_of_passed _ _ hraised hhead
  refine ⟨⟨?_, ?_⟩, ?_, by decide⟩
  · rintro ⟨w, hw⟩
    rw [hres, hshape] at hw
    cases hgw : (fan_out_get now (quorum c._peers) c._peers).wrong_quorum with
    | none =>
      rw [hgw] at hw
      cases hgr : (fan_out_get now (quorum c._peers) c._peers).res with
      | none => rw [hgr] at hw; exact absurd hw (by simp)
      | some r => rw [hgr] at hw; exact absurd hw (by simp)
    | some w2 =>
      obtain ⟨wp, hwp, hmem, hmax⟩ := k4 w2 hgw
      refine ⟨List.ne_nil_of_mem hmem, ?_⟩
      cases hgr : (fan_out_get now (quorum c._peers) c._peers).res with
      | none => exact Or.inl (k1 hgr)
      | some r =>
        obtain ⟨hr, hrmax⟩ := k2 r hgr
        rw [hgw, hgr] at hw
        dsimp only at hw
        by_cases hlt : lt_optional r.proposal w2.proposal = true
        · rw [hwp] at hlt
          simp only [lt_optional, decide_eq_true_eq] at hlt
          exact Or.inr ⟨r, hr, wp, hmem, hrmax, hmax, hlt⟩
        · rw [if_neg hlt] at hw
          exact absurd hw (by simp)
  · rintro ⟨hne, hcase⟩
    cases hgw : (fan_out_get now (quorum c._peers) c._peers).wrong_quorum with
    | none => exact absurd (k3 hgw) hne
    | some w2 =>
      rcases hcase with hA | ⟨a, ha, wp, hw, hamax, hwmax, hlt⟩
      · cases hgr : (fan_out_get now (quorum c._peers) c._peers).res with
        | none =>
          refine ⟨w2, ?_⟩
          rw [hres, hshape, hgw, hgr]
        | some r =>
          rw [hA] at k2
          exact absurd (k2 r hgr).1 (List.not_mem_nil _)
      · obtain ⟨w, -, hw3⟩ := (state_decision now c hraised hhead a wp ha hamax hw hwmax).1 hlt
        exact ⟨w, hw3⟩
  · intro w hw
    rw [hres, hshape] at hw
    cases hgw : (fan_out_get now (quorum c._peers) c._peers).wrong_quorum with
    | none =>
      rw [hgw] at hw
      cases hgr : (fan_out_get now (quorum c._peers) c._peers).res with
      | none => rw [hgr] at hw; exact absurd hw (by simp)
      | some r => rw [hgr] at hw; exact absurd hw (by simp)
    | some w2 =>
      have hw2 : w = w2 := by
        rw [hgw] at hw
        cases hgr : (fan_out_get now (quorum c._peers) c._peers).res with
        | none =>
          rw [hgr] at hw
          simp only [Except.error.injEq, Exn.WrongQuorum.injEq] at hw
          exact hw.symm
        | some r =>
          rw [hgr] at hw
          dsimp only at hw
          by_cases hlt : lt_optional r.proposal w2.proposal = true
          · rw [if_pos hlt] at hw
            simp only [Except.error.injEq, Exn.WrongQuorum.injEq] at hw
            exact hw.symm
          · rw [if_neg hlt] at hw
            exact absurd hw (by simp)
      rw [hw2]
      exact k4 w2 hgw

/-- Witness of `state_raises_wrong_quorum_iff`: two peers return `"X"` accepted
at `(1, 1, 7)` and one raises `WrongQuorum` with `(2, 1, 7)`. -/
theorem state_raises_wrong_quorum_iff_witness :
    ∃ wp, (WrongQuorum.mk (some { version := 2, round := 1, client := 7 }) :
        WrongQuorum Nat Nat).proposal = some wp ∧
      wp ∈ wrong_quorum_replies 0
        (quorum [Example.accepted 1 { version := 1, round := 1, client := 7 } "X",
          Example.accepted 2 { version := 1, round := 1, client := 7 } "X",
          Example.wrong 3 { version := 2, round := 1, client := 7 }])
        [Example.accepted 1 { version := 1, round := 1, client := 7 } "X",
          Example.accepted 2 { version := 1, round := 1, client := 7 } "X",
          Example.wrong 3 { version := 2, round := 1, client := 7 }] :=
  match (state_raises_wrong_quorum_iff 0
    (Example.client [Example.accepted 1 { version := 1, round := 1, client := 7 } "X",
      Example.accepted 2 { version := 1, round := 1, client := 7 } "X",
      Example.wrong 3 { version := 2, round := 1, client := 7 }])
    (by decide) (by decide)).2.1 { proposal := some { version := 2, round := 1, client := 7 } }
    (by decide) with
  | ⟨wp, h1, h2, _⟩ => ⟨wp, h1, h2⟩

/-- C9: whenever `state()` returns normally: if at least one peer returned an
accepted value, the result is `State(v, Q, p)` where `(p, v)` is an accepted
reply whose proposal no accepted reply exceeds and `Q` is the set of the ids
of the current peers; if no peer returned an accepted value, the result is
`State(none, Q, none)`.  In every returned `State` the value is present iff the
proposal is present. -/
theorem state_returns (now : Nat) (c : Client Version ClientId Value E)
    (st : State Version ClientId Value) (h : (state now c).result = .ok st) :
    (accepted_replies now (quorum c._peers) c._peers ≠ [] →
      ∃ a ∈ accepted_replies now (quorum c._peers) c._peers,
        (∀ x ∈ accepted_replies now (quorum c._peers) c._peers, ¬ a.proposal < x.proposal) ∧
        st = { value := some a.value, quorum := quorum c._peers, proposal := some a.proposal }) ∧
    (accepted_replies now (quorum c._peers) c._peers = [] →
      st = { value := none, quorum := quorum c._peers, proposal := none }) ∧
    (∀ x, x ∈ st.quorum ↔ ∃ peer ∈ c._peers, peer.id = x) ∧
    (st.value.isSome = true ↔ st.proposal.isSome = true) := by
  have hres : (state now c).result
      = state_result (quorum c._peers) (fan_out_get now (quorum c._peers) c._peers) := rfl
  rw [hres] at h
  obtain ⟨hraised, hhead⟩ := state_result_ok _ _ st h
  obtain ⟨k1, k2, -, -⟩ := fan_out_get_kept now (quorum c._peers) c._peers hraised
  rw [state_result_of_passed _ _ hraised hhead] at h
  cases hgr : (fan_out_get now (quorum c._peers) c._peers).res with
  | none =>
    have hst : st = { value := none, quorum := quorum c._peers, proposal := none } := by
      rw [hgr] at h
      cases hgw : (fan_out_get now (quorum c._peers) c._peers).wrong_quorum with
      | none =>
        rw [hgw] at h
        simp only [Except.ok.injEq] at h
        exact h.symm
      | some w => rw [hgw] at h; exact absurd h (by simp)
    subst hst
    refine ⟨fun hne => absurd (k1 hgr) hne, fun _ => rfl, fun x => mem_quorum c._peers x, ?_⟩
    simp
  | some r =>
    obtain ⟨hr, hrmax⟩ := k2 r hgr
    have hst : st =
        { value := some r.value, quorum := quorum c._peers, proposal := some r.proposal } := by
      rw [hgr] at h
      cases hgw : (fan_out_get now (quorum c._peers) c._peers).wrong_quorum with
      | none =>
        rw [hgw] at h
        simp only [Except.ok.injEq] at h
        exact h.symm
      | some w =>
        rw [hgw] at h
        dsimp only at h
        by_cases hlt : lt_optional r.proposal w.proposal = true
        · rw [if_pos hlt] at h; exact absurd h (by simp)
        · rw [if_neg hlt] at h
          simp only [Except.ok.injEq] at h
          exact h.symm
    subst hst
    refine ⟨fun _ => ⟨r, hr, hrmax, rfl⟩, fun hnil => ?_, fun x => mem_quorum c._peers x, ?_⟩
    · rw [hnil] at hr
      exact absurd hr (List.not_mem_nil _)
    · simp

/-- Witness of `state_returns`: two peers return `"X"` accepted at `(1, 1, 7)`
and `"Z"` accepted at `(1, 2, 5)`, one is `Unavailable`. -/
theorem state_returns_witness :
    (State.mk (some "Z") (quorum [Example.accepted 1 { version := 1, round := 1, client := 7 } "X",
        Example.accepted 2 { version := 1, round := 2, client := 5 } "Z", Example.down 3])
      (some { version := 1, round := 2, client := 5 }) : State Nat Nat String).value.isSome = true
    ↔ (State.mk (some "Z") (quorum [Example.accepted 1 { version := 1, round := 1, client := 7 } "X",
        Example.accepted 2 { version := 1, round := 2, client := 5 } "Z", Example.down 3])
      (some { version := 1, round := 2, client := 5 }) : State Nat Nat String).proposal.isSome
        = true :=
  (state_returns 0
    (Example.client [Example.accepted 1 { version := 1, round := 1, client := 7 } "X",
      Example.accepted 2 { version := 1, round := 2, client := 5 } "Z", Example.down 3])
    { value := some "Z",
      quorum := quorum [Example.accepted 1 { version := 1, round := 1, client := 7 } "X",
        Example.accepted 2 { version := 1, round := 2, client := 5 } "Z", Example.down 3],
      proposal := some { version := 1, round := 2, client := 5 } }
    (by decide)).2.2.2

end StateClaims

/-! ## Lemmas on an uncontested iteration -/

section Uncontested

variable {Version ClientId Value E : Type} [LinearOrder Version] [LinearOrder ClientId]

/-- The quorum has at most as many members as there are peers. -/
theorem quorum_card_le (peers : List (Peer Version ClientId Value E)) :
    (quorum peers).card ≤ peers.length := by
  have h : quorum peers = (peers.map Peer.id).toFinset := by
    ext x
    rw [mem_quorum, List.mem_toFinset, List.mem_map]
  rw [h]
  exact (List.toFinset_card_le _).trans (by rw [List.length_map])

/-- When every peer answers `propose` with the same response, the fan-out
reaches them all and collects that response once per peer. -/
theorem send_proposal_all_ok (now : Nat) (q : Quorum ClientId)
    (proposal : Proposal Version ClientId) (r0 : Response Version ClientId Value)
    (peers : List (Peer Version ClientId Value E))
    (h : ∀ peer ∈ peers, peer.propose now q proposal = .ok r0) :
    ∀ (i : Nat) (s : Prepare Version ClientId Value E),
      (send_proposal now q proposal peers i s).reached = s.reached + peers.length ∧
      (send_proposal now q proposal peers i s).responses
        = s.responses ++ List.replicate peers.length r0 ∧
      (send_proposal now q proposal peers i s).unavailables = s.unavailables ∧
      (send_proposal now q proposal peers i s).weak_error = s.weak_error ∧
      (send_proposal now q proposal peers i s).raised = s.raised := by
  induction peers with
  | nil => intro i s; simp [send_proposal]
  | cons peer rest ih =>
    intro i s
    unfold send_proposal
    rw [h peer (List.mem_cons_self _ _)]
    dsimp only
    obtain ⟨h1, h2, h3, h4, h5⟩ := ih (fun p hp => h p (List.mem_cons_of_mem _ hp)) (i + 1)
      { s with reached := s.reached + 1, responses := s.responses ++ [r0],
               events := s.events ++ [Event.propose i q proposal (.ok r0)] }
    refine ⟨?_, ?_, h3, h4, h5⟩
    · rw [h1]; simp only [List.length_cons, Nat.cast_add, Nat.cast_one]; ring
    · rw [h2]; simp [List.replicate_succ]

/-- When every peer answers `accept` with a minimum that is not above the
proposal and none is excluded, the fan-out reaches them all without conflict
and records one successful `accept` call per peer. -/
theorem send_acceptation_all_ok (now : Nat) (q : Quorum ClientId)
    (proposal : Proposal Version ClientId) (v : Value)
    (peers : List (Peer Version ClientId Value E))
    (h : ∀ peer ∈ peers, ∃ m, peer.accept now q proposal v = .ok m ∧ ¬ proposal < m) :
    ∀ (i : Nat) (s : Acceptation Version ClientId Value E), s.unavailables = [] →
      (send_acceptation now q proposal v peers i s).reached = s.reached + peers.length ∧
      (send_acceptation now q proposal v peers i s).conflicted = s.conflicted ∧
      (send_acceptation now q proposal v peers i s).unavailables = [] ∧
      (send_acceptation now q proposal v peers i s).weak_error = s.weak_error ∧
      (send_acceptation now q proposal v peers i s).raised = s.raised ∧
      (send_acceptation now q proposal v peers i s).version = s.version ∧
      (send_acceptation now q proposal v peers i s)._round = s._round ∧
      (∀ k, k < peers.length → ∃ m, Event.accept (i + k) q proposal v (.ok m)
        ∈ (send_acceptation now q proposal v peers i s).events) := by
  induction peers with
  | nil =>
    intro i s hs
    refine ⟨by simp [send_acceptation], rfl, hs, rfl, rfl, rfl, rfl, fun k hk => ?_⟩
    exact absurd hk (Nat.not_lt_zero _)
  | cons peer rest ih =>
    intro i s hs
    obtain ⟨m, hm, hnc⟩ := h peer (List.mem_cons_self _ _)
    unfold send_acceptation
    rw [if_neg (by rw [hs]; exact List.not_mem_nil _), hm]
    dsimp only
    rw [if_neg hnc]
    obtain ⟨h1, h2, h3, h4, h5, h6, h7, h8⟩ :=
      ih (fun p hp => h p (List.mem_cons_of_mem _ hp)) (i + 1)
        { s with reached := s.reached + 1,
                 events := s.events ++ [Event.accept i q proposal v (.ok m)] } hs
    refine ⟨?_, h2, h3, h4, h5, h6, h7, fun k hk => ?_⟩
    · rw [h1]; simp only [List.length_cons, Nat.cast_add, Nat.cast_one]; ring
    · cases k with
      | zero =>
        refine ⟨m, ?_⟩
        apply send_acceptation_events_mono
        simp
      | succ k =>
        obtain ⟨m2, hm2⟩ := h8 k (Nat.lt_of_succ_lt_succ hk)
        refine ⟨m2, ?_⟩
        have hidx : i + (k + 1) = i + 1 + k := by omega
        rw [hidx]
        exact hm2

/-- When every peer answers `confirm` and none is excluded, the fan-out reaches
them all. -/
theorem send_confirmation_all_ok (now : Nat) (q : Quorum ClientId)
    (proposal : Proposal Version ClientId) (peers : List (Peer Version ClientId Value E))
    (h : ∀ peer ∈ peers, peer.confirm now q proposal = .ok ()) :
    ∀ (i : Nat) (s : Confirmation Version ClientId Value E), s.unavailables = [] →
      (send_confirmation now q proposal peers i s).reached = s.reached + peers.length ∧
      (send_confirmation now q proposal peers i s).weak_error = s.weak_error ∧
      (send_confirmation now q proposal peers i s).raised = s.raised := by
  induction peers with
  | nil => intro i s _; simp [send_confirmation]
  | cons peer rest ih =>
    intro i s hs
    unfold send_confirmation
    rw [if_neg (by rw [hs]; exact List.not_mem_nil _), h peer (List.mem_cons_self _ _)]
    dsimp only
    obtain ⟨h1, h2, h3⟩ := ih (fun p hp => h p (List.mem_cons_of_mem _ hp)) (i + 1)
      { s with reached := s.reached + 1,
               events := s.events ++ [Event.confirm i q proposal (.ok ())] } hs
    refine ⟨?_, h2, h3⟩
    rw [h1]; simp only [List.length_cons, Nat.cast_add, Nat.cast_one]; ring

/-- A write headcount passes when all the peers are reached. -/
theorem check_headcount_all (peers : List (Peer Version ClientId Value E)) (hne : peers ≠ [])
    (weak_error : Option E) :
    (_check_headcount (quorum peers) (0 + (peers.length : Int)) weak_error false :
      Except (Exn Version ClientId E) Unit) = .ok () := by
  rw [check_headcount_ok_iff]
  have h1 := quorum_card_le peers
  have h2 : 0 < peers.length := List.length_pos.2 hne
  unfold threshold
  simp only [Bool.false_eq_true, if_false, Nat.sub_zero]
  omega

/-- The scan of `max_element` over copies of one response without value and
without proposal ends on that response, for `valued` and for `proposed`. -/
theorem max_element_replicate_empty (n : Nat) :
    max_element_from (@valued Version ClientId Value E _ _)
        { proposal := none, value := none, confirmed := false }
        (List.replicate n { proposal := none, value := none, confirmed := false })
      = .ok { proposal := none, value := none, confirmed := false } ∧
    max_element_from (@proposed Version ClientId Value E _ _)
        { proposal := none, value := none, confirmed := false }
        (List.replicate n { proposal := none, value := none, confirmed := false })
      = .ok { proposal := none, value := none, confirmed := false } := by
  induction n with
  | zero => exact ⟨rfl, rfl⟩
  | succ n ih =>
    rw [List.replicate_succ]
    unfold max_element_from
    exact ih

/-- No copy of a response that is not confirmed is found by `find_if confirmed`. -/
theorem find_if_replicate_empty (n : Nat) :
    find_if confirmed
      (List.replicate n ({ proposal := none, value := none, confirmed := false } :
        Response Version ClientId Value)) = none := by
  induction n with
  | zero => rfl
  | succ n ih =>
    rw [List.replicate_succ]
    unfold find_if
    exact ih

/-- The block "send proposal" goes on to "send acceptation", with the loop
variables unchanged and nobody excluded, when every peer answers `propose`
with the empty response. -/
theorem prepare_uncontested (now : Nat) (c : Client Version ClientId Value E)
    (proposal : Proposal Version ClientId) (l : Loop Version Value) (hne : c._peers ≠ [])
    (hpropose : ∀ peer ∈ c._peers, peer.propose now (quorum c._peers) proposal
      = .ok { proposal := none, value := none, confirmed := false }) :
    prepare now c (quorum c._peers) proposal l
      = .proceed l [] (fan_out_proposal now (quorum c._peers) proposal c._peers).events := by
  obtain ⟨h1, h2, h3, h4, h5⟩ := send_proposal_all_ok now (quorum c._peers) proposal _ c._peers
    hpropose 0
    { reached := 0, unavailables := [], weak_error := none, responses := [], events := [],
      raised := none }
  have hhead := @check_headcount_all Version ClientId Value E _ _ c._peers hne none
  obtain ⟨n, hn⟩ : ∃ n, c._peers.length = n + 1 :=
    ⟨c._peers.length - 1, by have := List.length_pos.2 hne; omega⟩
  unfold prepare
  dsimp only
  unfold fan_out_proposal
  generalize send_proposal now (quorum c._peers) proposal c._peers 0
    { reached := 0, unavailables := [], weak_error := none, responses := [], events := [],
      raised := none } = g at h1 h2 h3 h4 h5 ⊢
  dsimp only at h1 h2 h3 h4 h5
  rw [List.nil_append, hn, List.replicate_succ] at h2
  rw [h5]
  dsimp only
  rw [h2, h1, h4, h3]
  have hf := @find_if_replicate_empty Version ClientId Value _ _ (n + 1)
  rw [List.replicate_succ] at hf
  rw [hf]
  dsimp only
  rw [hhead]
  dsimp only
  unfold max_element
  dsimp only
  rw [(@max_element_replicate_empty Version ClientId Value E _ _ n).1,
    (@max_element_replicate_empty Version ClientId Value E _ _ n).2]
  rfl

/-- The blocks "send acceptation" and "send confirmation" return the choice when
every peer accepts without conflict and confirms, nobody being excluded. -/
theorem accept_confirm_uncontested (rnd : Nat → Nat) (now : Nat)
    (c : Client Version ClientId Value E) (value : Value)
    (proposal : Proposal Version ClientId) (l : Loop Version Value)
    (events : List (Event Version ClientId Value E)) (hne : c._peers ≠ [])
    (haccept : ∀ peer ∈ c._peers, ∃ m,
      peer.accept now (quorum c._peers) proposal (replace_or l.replace value) = .ok m ∧
        ¬ proposal < m)
    (hconfirm : ∀ peer ∈ c._peers, peer.confirm now (quorum c._peers) proposal = .ok ()) :
    (accept_confirm rnd now c (quorum c._peers) value proposal l [] events).flow
      = .returned (match l.replace with
          | some r => Choice.ofProposalValue proposal r
          | none => Choice.ofProposal proposal) ∧
    (accept_confirm rnd now c (quorum c._peers) value proposal l [] events).loop._round
      = l._round ∧
    (accept_confirm rnd now c (quorum c._peers) value proposal l [] events).proposal
      = proposal ∧
    (∀ k, k < c._peers.length → ∃ m,
      Event.accept k (quorum c._peers) proposal (replace_or l.replace value) (.ok m)
        ∈ (accept_confirm rnd now c (quorum c._peers) value proposal l [] events).events) := by
  obtain ⟨a1, a2, a3, a4, a5, a6, a7, a8⟩ := send_acceptation_all_ok now (quorum c._peers)
    proposal (replace_or l.replace value) c._peers haccept 0
    { reached := 0, conflicted := false, weak_error := none, unavailables := [],
      version := l.version, _round := l._round, events := events, raised := none } rfl
  have hhead := @check_headcount_all Version ClientId Value E _ _ c._peers hne none
  have hsplit : accept_confirm rnd now c (quorum c._peers) value proposal l [] events
      = confirm_return now c (quorum c._peers) proposal l []
          (send_acceptation now (quorum c._peers) proposal (replace_or l.replace value) c._peers 0
            { reached := 0, conflicted := false, weak_error := none, unavailables := [],
              version := l.version, _round := l._round, events := events,
              raised := none }).events := by
    unfold accept_confirm
    dsimp only
    generalize send_acceptation now (quorum c._peers) proposal (replace_or l.replace value)
      c._peers 0
      { reached := 0, conflicted := false, weak_error := none, unavailables := [],
        version := l.version, _round := l._round, events := events, raised := none } = a
      at a1 a2 a3 a4 a5 a6 a7 ⊢
    dsimp only at a1 a2 a3 a4 a5 a6 a7
    rw [a5]
    dsimp only
    rw [a2]
    simp only [Bool.false_eq_true, if_false]
    rw [a1, a4, hhead]
    dsimp only
    rw [a3, a6, a7]
  rw [hsplit]
  obtain ⟨k1, k2, k3⟩ := send_confirmation_all_ok now (quorum c._peers) proposal c._peers
    hconfirm 0
    { reached := 0, weak_error := none, unavailables := [],
      events := (send_acceptation now (quorum c._peers) proposal (replace_or l.replace value)
        c._peers 0
        { reached := 0, conflicted := false, weak_error := none, unavailables := [],
          version := l.version, _round := l._round, events := events, raised := none }).events,
      raised := none } rfl
  have hev := confirm_return_events now c (quorum c._peers) proposal l []
    (send_acceptation now (quorum c._peers) proposal (replace_or l.replace value) c._peers 0
      { reached := 0, conflicted := false, weak_error := none, unavailables := [],
        version := l.version, _round := l._round, events := events, raised := none }).events
  refine ⟨?_, ?_, ?_, fun k hk => ?_⟩
  · unfold confirm_return
    dsimp only at k1 k2 k3 ⊢
    rw [k3]
    dsimp only
    rw [k1, k2, hhead]
    dsimp only
    cases l.replace <;> rfl
  · unfold confirm_return
    dsimp only at k1 k2 k3 ⊢
    rw [k3]
    dsimp only
    rw [k1, k2, hhead]
    dsimp only
    cases l.replace <;> rfl
  · unfold confirm_return
    dsimp only at k1 k2 k3 ⊢
    rw [k3]
    dsimp only
    rw [k1, k2, hhead]
    dsimp only
    cases l.replace <;> rfl
  · obtain ⟨m, hm⟩ := a8 k hk
    refine ⟨m, ?_⟩
    rw [hev]
    apply send_confirmation_events_mono
    rw [Nat.zero_add] at hm
    exact hm

/-- C10: uncontested choose.  For a fresh proposer (`_round = 0`) and a non-empty
peer list whose peers all answer `propose` with an empty `Response`, answer
`accept` with a minimum not greater than the proposal and answer `confirm`
successfully, `choose(version, value)` performs exactly one iteration, sends
`accept(Q, Proposal(version, 1, id), value)` to every peer, and returns
`Choice(Proposal(version, 1, id))` with `conflicted = false` and no value;
`_round` is then `1`. -/
theorem uncontested_choose (rnd : Nat → Nat) (fuel now : Nat)
    (c : Client Version ClientId Value E) (version : Version) (value : Value)
    (hround : c._round = 0) (hne : c._peers ≠ [])
    (hpropose : ∀ peer ∈ c._peers,
      peer.propose now (quorum c._peers) { version := version, round := 1, client := c._id }
        = .ok { proposal := none, value := none, confirmed := false })
    (haccept : ∀ peer ∈ c._peers, ∃ m,
      peer.accept now (quorum c._peers) { version := version, round := 1, client := c._id } value
          = .ok m ∧
        ¬ ({ version := version, round := 1, client := c._id } : Proposal Version ClientId) < m)
    (hconfirm : ∀ peer ∈ c._peers,
      peer.confirm now (quorum c._peers) { version := version, round := 1, client := c._id }
        = .ok ()) :
    (choose rnd (fuel + 1) now c version value).flow
      = .returned { _proposal := { version := version, round := 1, client := c._id },
                    _conflicted := false, _value := none } ∧
    (choose rnd (fuel + 1) now c version value).trace.length = 1 ∧
    (∀ it ∈ (choose rnd (fuel + 1) now c version value).trace,
      it.proposal = { version := version, round := 1, client := c._id } ∧
      ∀ k, k < c._peers.length → ∃ m,
        Event.accept k (quorum c._peers) { version := version, round := 1, client := c._id }
          value (.ok m) ∈ it.events) ∧
    (choose rnd (fuel + 1) now c version value).client._round = 1 := by
  have hp : ({ version := version, round := c._round + 1, client := c._id } :
      Proposal Version ClientId) = { version := version, round := 1, client := c._id } := by
    rw [hround, zero_add]
  have hprep := prepare_uncontested now c { version := version, round := 1, client := c._id }
    { version := version, backoff := 1, replace := none, _round := c._round + 1 } hne hpropose
  have hit : iteration rnd now c (quorum c._peers) value
      { version := version, backoff := 1, replace := none, _round := c._round }
      = accept_confirm rnd now c (quorum c._peers) value
          { version := version, round := 1, client := c._id }
          { version := version, backoff := 1, replace := none, _round := c._round + 1 } []
          (fan_out_proposal now (quorum c._peers)
            { version := version, round := 1, client := c._id } c._peers).events := by
    have h := iteration_of_proceed rnd now c (quorum c._peers) value
      { version := version, backoff := 1, replace := none, _round := c._round }
      { version := version, backoff := 1, replace := none, _round := c._round + 1 } []
      (fan_out_proposal now (quorum c._peers)
        { version := version, round := 1, client := c._id } c._peers).events
    dsimp only at h
    rw [hp] at h
    exact h hprep
  obtain ⟨f1, f2, f3, f4⟩ := accept_confirm_uncontested rnd now c value
    { version := version, round := 1, client := c._id }
    { version := version, backoff := 1, replace := none, _round := c._round + 1 }
    (fan_out_proposal now (quorum c._peers)
      { version := version, round := 1, client := c._id } c._peers).events hne haccept hconfirm
  rw [← hit] at f1 f2 f3 f4
  dsimp only at f1 f2
  have hrun : choose rnd (fuel + 1) now c version value
      = { flow := .returned (Choice.ofProposal { version := version, round := 1, client := c._id }),
          client := { c with _round := (iteration rnd now c (quorum c._peers) value
            { version := version, backoff := 1, replace := none, _round := c._round }).loop._round },
          now := now + 1,
          trace := [iteration rnd now c (quorum c._peers) value
            { version := version, backoff := 1, replace := none, _round := c._round }] } := by
    unfold choose choose_loop
    dsimp only
    rw [f1]
  rw [hrun]
  refine ⟨rfl, rfl, fun it hit2 => ?_, ?_⟩
  · rw [List.mem_singleton.1 hit2]
    exact ⟨f3, f4⟩
  · dsimp only
    rw [f2, hround, zero_add]

/-- Witness of `uncontested_choose`: client `7` and three fresh peers. -/
theorem uncontested_choose_witness :
    (choose (fun _ => 1) (0 + 1) 0
        (Example.client [Example.fresh 1, Example.fresh 2, Example.fresh 3]) 1 "X").flow
      = .returned { _proposal := { version := 1, round := 1, client := 7 },
                    _conflicted := false, _value := none } :=
  (uncontested_choose (fun _ => 1) 0 0
    (Example.client [Example.fresh 1, Example.fresh 2, Example.fresh 3]) 1 "X"
    rfl (List.cons_ne_nil _ _) (by decide)
    (by
      intro peer hp
      simp only [Example.client, List.mem_cons, List.mem_singleton, List.not_mem_nil,
        or_false] at hp
      rcases hp with rfl | rfl | rfl <;> exact ⟨_, rfl, by decide⟩)
    (by decide)).1

end Uncontested

/-! ## Proposals of successive iterations -/

section Monotone

variable {Version ClientId Value E : Type} [LinearOrder Version] [LinearOrder ClientId]

/-- A proposal is below the proposal of the same version and the next round. -/
theorem Proposal.lt_next_round (p : Proposal Version ClientId) (x : ClientId) :
    p < { version := p.version, round := p.round + 1, client := x } := by
  show Proposal.lt _ _
  unfold Proposal.lt
  exact Or.inr ⟨rfl, Or.inl (by dsimp only; omega)⟩

/-- When the block "send proposal" makes the iteration `continue`, the proposal
of the next iteration is above the current one. -/
theorem retry_lt (x : ClientId) (mp : Option (Response Version ClientId Value))
    (l l2 : Loop Version Value)
    (h : retry { version := l.version, round := l._round, client := x } mp l = some l2) :
    ({ version := l.version, round := l._round, client := x } : Proposal Version ClientId)
      < { version := l2.version, round := l2._round + 1, client := x } := by
  unfold retry at h
  split at h
  · rename_i rp hrp
    split at h
    · rename_i heq
      simp only [Option.some.injEq] at h
      subst h
      dsimp only
      rw [← heq]
      exact Proposal.lt_chain (Proposal.lt_next_round _ x)
        (Proposal.lt_next_round { version := l.version, round := l._round + 1, client := x } x)
    · split at h
      · rename_i hne hlt
        simp only [Option.some.injEq] at h
        subst h
        dsimp only
        exact Proposal.lt_chain hlt (Proposal.lt_next_round rp x)
      · exact absurd h (by simp)
  · exact absurd h (by simp)

/-- A conflict in "send acceptation" comes from a minimum above the proposal,
whose version and round are adopted. -/
theorem send_acceptation_conflicted (now : Nat) (q : Quorum ClientId)
    (proposal : Proposal Version ClientId) (v : Value)
    (peers : List (Peer Version ClientId Value E)) :
    ∀ (i : Nat) (s : Acceptation Version ClientId Value E), s.conflicted = false →
      (send_acceptation now q proposal v peers i s).conflicted = true →
      ∃ m, proposal < m ∧
        (send_acceptation now q proposal v peers i s).version = m.version ∧
        (send_acceptation now q proposal v peers i s)._round = m.round := by
  induction peers with
  | nil =>
    intro i s hs h
    unfold send_acceptation at h
    rw [hs] at h
    exact absurd h (by simp)
  | cons peer rest ih =>
    intro i s hs h
    unfold send_acceptation at h ⊢
    by_cases hu : i ∈ s.unavailables
    · rw [if_pos hu] at h ⊢
      exact ih _ _ hs h
    · rw [if_neg hu] at h ⊢
      cases hr : peer.accept now q proposal v with
      | ok minimum =>
        rw [hr] at h
        dsimp only at h ⊢
        by_cases hc : proposal < minimum
        · rw [if_pos hc]
          exact ⟨minimum, hc, rfl, rfl⟩
        · rw [if_neg hc] at h ⊢
          exact ih _ _ hs h
      | error ex =>
        rw [hr] at h
        cases ex <;> dsimp only at h ⊢ <;>
          first
          | exact ih _ _ hs h
          | (rw [hs] at h; exact absurd h (by simp))

/-- What holds when the block "send proposal" makes the iteration `continue`. -/
theorem prepare_again (now : Nat) (c : Client Version ClientId Value E) (q : Quorum ClientId)
    (proposal : Proposal Version ClientId) (l l2 : Loop Version Value)
    (ev : List (Event Version ClientId Value E))
    (h : prepare now c q proposal l = .done .again l2 ev) :
    ∃ (mv mp : Option (Response Version ClientId Value)),
      retry proposal mp { l with replace := adopt mv l.replace } = some l2 := by
  unfold prepare at h
  dsimp only at h
  generalize fan_out_proposal now q proposal c._peers = p at h
  cases hr : p.raised with
  | some e => rw [hr] at h; exact absurd h (by simp)
  | none =>
    rw [hr] at h; dsimp only at h
    cases hf : find_if confirmed p.responses with
    | some r =>
      rw [hf] at h; dsimp only at h
      split at h <;> exact absurd h (by simp)
    | none =>
      rw [hf] at h; dsimp only at h
      cases hh : (_check_headcount q p.reached p.weak_error false :
          Except (Exn Version ClientId E) Unit) with
      | error e => rw [hh] at h; exact absurd h (by simp)
      | ok u1 =>
        rw [hh] at h; dsimp only at h
        cases hv : max_element (@valued Version ClientId Value E _ _) p.responses with
        | error e => rw [hv] at h; exact absurd h (by simp)
        | ok mv =>
          rw [hv] at h; dsimp only at h
          cases hp : max_element (@proposed Version ClientId Value E _ _) p.responses with
          | error e => rw [hp] at h; exact absurd h (by simp)
          | ok mp =>
            rw [hp] at h; dsimp only at h
            cases hy : retry proposal mp { l with replace := adopt mv l.replace } with
            | some l3 =>
              rw [hy] at h
              simp only [Prepared.done.injEq, true_and] at h
              exact ⟨mv, mp, by rw [hy, h.1]⟩
            | none => rw [hy] at h; exact absurd h (by simp)

/-- The proposal and the flow of the blocks "send acceptation" and "send
confirmation": the proposal is the one given, and on `continue` the version
and the round are those of a minimum above it. -/
theorem accept_confirm_again (rnd : Nat → Nat) (now : Nat)
    (c : Client Version ClientId Value E) (q : Quorum ClientId) (value : Value)
    (proposal : Proposal Version ClientId) (l : Loop Version Value) (unavailables : List Nat)
    (events : List (Event Version ClientId Value E)) :
    (accept_confirm rnd now c q value proposal l unavailables events).proposal = proposal ∧
    ((accept_confirm rnd now c q value proposal l unavailables events).flow = .again →
      ∃ m, proposal < m ∧
        (accept_confirm rnd now c q value proposal l unavailables events).loop.version
          = m.version ∧
        (accept_confirm rnd now c q value proposal l unavailables events).loop._round
          = m.round) := by
  have hA := send_acceptation_conflicted now q proposal (replace_or l.replace value) c._peers 0
      { reached := 0, conflicted := false, weak_error := none, unavailables := unavailables,
        version := l.version, _round := l._round, events := events, raised := none } rfl
  unfold accept_confirm confirm_return
  dsimp only
  generalize send_acceptation now q proposal (replace_or l.replace value) c._peers 0
      { reached := 0, conflicted := false, weak_error := none, unavailables := unavailables,
        version := l.version, _round := l._round, events := events, raised := none } = a
    at hA ⊢
  cases hr : a.raised with
  | some ex => exact ⟨rfl, fun h => absurd h (by simp)⟩
  | none =>
    dsimp only
    by_cases hc : a.conflicted = true
    · rw [if_pos hc]
      exact ⟨rfl, fun _ => hA hc⟩
    · rw [if_neg hc]
      constructor
      · repeat' split
        all_goals rfl
      · intro h
        repeat' split at h
        all_goals exact absurd h (by simp)

/-- The proposal of an iteration is built from the loop variables, and when the
iteration `continue`s the proposal of the next iteration is above it. -/
theorem iteration_next (rnd : Nat → Nat) (now : Nat) (c : Client Version ClientId Value E)
    (q : Quorum ClientId) (value : Value) (l : Loop Version Value) :
    (iteration rnd now c q value l).proposal
      = { version := l.version, round := l._round + 1, client := c._id } ∧
    ((iteration rnd now c q value l).flow = .again →
      (iteration rnd now c q value l).proposal
        < { version := (iteration rnd now c q value l).loop.version,
            round := (iteration rnd now c q value l).loop._round + 1, client := c._id }) := by
  cases hprep : prepare now c q { version := l.version, round := l._round + 1, client := c._id }
      { l with _round := l._round + 1 } with
  | done flow l2 ev =>
    have hit : iteration rnd now c q value l
        = { flow := flow, loop := l2,
            proposal := { version := l.version, round := l._round + 1, client := c._id },
            events := ev } := by
      unfold iteration
      dsimp only
      rw [hprep]
    rw [hit]
    refine ⟨rfl, fun hflow => ?_⟩
    dsimp only at hflow ⊢
    subst hflow
    obtain ⟨mv, mp, hretry⟩ := prepare_again now c q _ _ l2 ev hprep
    exact retry_lt c._id mp
      { version := l.version, backoff := l.backoff, replace := adopt mv l.replace,
        _round := l._round + 1 } l2 hretry
  | proceed l2 u ev =>
    rw [iteration_of_proceed rnd now c q value l l2 u ev hprep]
    obtain ⟨h1, h2⟩ := accept_confirm_again rnd now c q value
      { version := l.version, round := l._round + 1, client := c._id } l2 u ev
    refine ⟨h1, fun hflow => ?_⟩
    obtain ⟨m, hm, hv, hr⟩ := h2 hflow
    rw [h1, hv, hr]
    exact Proposal.lt_chain hm (Proposal.lt_next_round m c._id)

/-- The proposals of the successive iterations of the loop of `choose` are
strictly increasing, and the first one is built from the loop variables. -/
theorem choose_loop_chain (rnd : Nat → Nat) (c : Client Version ClientId Value E)
    (q : Quorum ClientId) (value : Value) (fuel : Nat) :
    ∀ (now : Nat) (l : Loop Version Value),
      List.Chain' (fun a b => a < b)
        ((choose_loop rnd c q value fuel now l).trace.map (fun it => it.proposal)) ∧
      ∀ p ∈ ((choose_loop rnd c q value fuel now l).trace.map (fun it => it.proposal)).head?,
        p = { version := l.version, round := l._round + 1, client := c._id } := by
  induction fuel with
  | zero =>
    intro now l
    exact ⟨List.chain'_nil, fun p hp => absurd hp (by simp [choose_loop])⟩
  | succ fuel ih =>
    intro now l
    obtain ⟨hprop, hnext⟩ := iteration_next rnd now c q value l
    unfold choose_loop
    dsimp only
    cases hflow : (iteration rnd now c q value l).flow with
    | again =>
      dsimp only
      obtain ⟨ih1, ih2⟩ := ih (now + 1) (iteration rnd now c q value l).loop
      rw [List.map_cons]
      refine ⟨List.chain'_cons'.2 ⟨fun y hy => ?_, ih1⟩, fun p hp => ?_⟩
      · rw [ih2 y hy]
        exact hnext hflow
      · simp only [List.head?_cons, Option.mem_def, Option.some.injEq] at hp
        rw [← hp, hprop]
    | returned ch =>
      dsimp only
      refine ⟨List.chain'_singleton _, fun p hp => ?_⟩
      simp only [List.map_cons, List.map_nil, List.head?_cons, Option.mem_def,
        Option.some.injEq] at hp
      rw [← hp, hprop]
    | raised ex =>
      dsimp only
      refine ⟨List.chain'_singleton _, fun p hp => ?_⟩
      simp only [List.map_cons, List.map_nil, List.head?_cons, Option.mem_def,
        Option.some.injEq] at hp
      rw [← hp, hprop]

/-- Without conflict, "send acceptation" leaves `version` and `_round` as they
are; and it does not both raise and conflict. -/
theorem send_acceptation_unconflicted (now : Nat) (q : Quorum ClientId)
    (proposal : Proposal Version ClientId) (v : Value)
    (peers : List (Peer Version ClientId Value E)) :
    ∀ (i : Nat) (s : Acceptation Version ClientId Value E),
      s.conflicted = false → s.raised = none →
      ((send_acceptation now q proposal v peers i s).conflicted = false →
        (send_acceptation now q proposal v peers i s).version = s.version ∧
        (send_acceptation now q proposal v peers i s)._round = s._round) ∧
      ((send_acceptation now q proposal v peers i s).conflicted = true →
        (send_acceptation now q proposal v peers i s).raised = none) := by
  induction peers with
  | nil =>
    intro i s hs hr
    exact ⟨fun _ => ⟨rfl, rfl⟩, fun _ => hr⟩
  | cons peer rest ih =>
    intro i s hs hr
    unfold send_acceptation
    by_cases hu : i ∈ s.unavailables
    · rw [if_pos hu]
      exact ih _ _ hs hr
    · rw [if_neg hu]
      cases hrep : peer.accept now q proposal v with
      | ok minimum =>
        dsimp only
        by_cases hc : proposal < minimum
        · rw [if_pos hc]
          exact ⟨fun h => absurd h (by simp), fun _ => hr⟩
        · rw [if_neg hc]
          exact ih _ _ hs hr
      | error ex =>
        cases ex <;> dsimp only <;>
          first
          | exact ih _ _ hs hr
          | exact ⟨fun _ => ⟨rfl, rfl⟩, fun h => absurd (hs ▸ h) (by simp)⟩

/-- When the iteration ends in the block "send proposal" without `continue`,
`version` and `_round` are as they were. -/
theorem prepare_done_round (now : Nat) (c : Client Version ClientId Value E)
    (q : Quorum ClientId) (proposal : Proposal Version ClientId) (l l2 : Loop Version Value)
    (flow : Flow Version ClientId Value E) (ev : List (Event Version ClientId Value E))
    (h : prepare now c q proposal l = .done flow l2 ev) (hflow : flow ≠ .again) :
    l2.version = l.version ∧ l2._round = l._round := by
  unfold prepare at h
  dsimp only at h
  generalize fan_out_proposal now q proposal c._peers = p at h
  cases hr : p.raised with
  | some e =>
    rw [hr] at h
    simp only [Prepared.done.injEq] at h
    rw [← h.2.1]
    exact ⟨rfl, rfl⟩
  | none =>
    rw [hr] at h; dsimp only at h
    cases hf : find_if confirmed p.responses with
    | some r =>
      rw [hf] at h; dsimp only at h
      split at h
      · simp only [Prepared.done.injEq] at h
        rw [← h.2.1]
        exact ⟨rfl, rfl⟩
      · simp only [Prepared.done.injEq] at h
        rw [← h.2.1]
        exact ⟨rfl, rfl⟩
    | none =>
      rw [hf] at h; dsimp only at h
      cases hh : (_check_headcount q p.reached p.weak_error false :
          Except (Exn Version ClientId E) Unit) with
      | error e =>
        rw [hh] at h
        simp only [Prepared.done.injEq] at h
        rw [← h.2.1]
        exact ⟨rfl, rfl⟩
      | ok u1 =>
        rw [hh] at h; dsimp only at h
        cases hv : max_element (@valued Version ClientId Value E _ _) p.responses with
        | error e =>
          rw [hv] at h
          simp only [Prepared.done.injEq] at h
          rw [← h.2.1]
          exact ⟨rfl, rfl⟩
        | ok mv =>
          rw [hv] at h; dsimp only at h
          cases hp : max_element (@proposed Version ClientId Value E _ _) p.responses with
          | error e =>
            rw [hp] at h
            simp only [Prepared.done.injEq] at h
            rw [← h.2.1]
            exact ⟨rfl, rfl⟩
          | ok mp =>
            rw [hp] at h; dsimp only at h
            cases hy : retry proposal mp { l with replace := adopt mv l.replace } with
            | some l3 =>
              rw [hy] at h
              simp only [Prepared.done.injEq] at h
              exact absurd h.1.symm hflow
            | none => rw [hy] at h; exact absurd h (by simp)

/-- When the blocks "send acceptation" and "send confirmation" end without
`continue`, `version` and `_round` are as they were. -/
theorem accept_confirm_round (rnd : Nat → Nat) (now : Nat)
    (c : Client Version ClientId Value E) (q : Quorum ClientId) (value : Value)
    (proposal : Proposal Version ClientId) (l : Loop Version Value) (unavailables : List Nat)
    (events : List (Event Version ClientId Value E))
    (hflow : (accept_confirm rnd now c q value proposal l unavailables events).flow ≠ .again) :
    (accept_confirm rnd now c q value proposal l unavailables events).loop.version
      = l.version ∧
    (accept_confirm rnd now c q value proposal l unavailables events).loop._round
      = l._round := by
  obtain ⟨hA, hB⟩ := send_acceptation_unconflicted now q proposal (replace_or l.replace value)
      c._peers 0
      { reached := 0, conflicted := false, weak_error := none, unavailables := unavailables,
        version := l.version, _round := l._round, events := events, raised := none } rfl rfl
  unfold accept_confirm confirm_return at hflow ⊢
  dsimp only at hflow ⊢
  generalize send_acceptation now q proposal (replace_or l.replace value) c._peers 0
      { reached := 0, conflicted := false, weak_error := none, unavailables := unavailables,
        version := l.version, _round := l._round, events := events, raised := none } = a
    at hA hB hflow ⊢
  dsimp only at hA
  cases hr : a.raised with
  | some ex =>
    dsimp only
    cases hc : a.conflicted with
    | true => rw [hB hc] at hr; exact absurd hr (by simp)
    | false => exact hA hc
  | none =>
    rw [hr] at hflow
    dsimp only at hflow ⊢
    by_cases hc : a.conflicted = true
    · rw [if_pos hc] at hflow
      exact absurd rfl hflow
    · rw [if_neg hc]
      have hc2 : a.conflicted = false := by
        cases h : a.conflicted
        · rfl
        · exact absurd h hc
      obtain ⟨h1, h2⟩ := hA hc2
      constructor
      · repeat' split
        all_goals exact h1
      · repeat' split
        all_goals exact h2

/-- When an iteration ends without `continue`, `_round` is the round of its
proposal and `version` the version of its proposal. -/
theorem iteration_final (rnd : Nat → Nat) (now : Nat) (c : Client Version ClientId Value E)
    (q : Quorum ClientId) (value : Value) (l : Loop Version Value)
    (hflow : (iteration rnd now c q value l).flow ≠ .again) :
    (iteration rnd now c q value l).loop._round
      = (iteration rnd now c q value l).proposal.round ∧
    (iteration rnd now c q value l).loop.version
      = (iteration rnd now c q value l).proposal.version := by
  rw [(iteration_next rnd now c q value l).1]
  cases hprep : prepare now c q { version := l.version, round := l._round + 1, client := c._id }
      { l with _round := l._round + 1 } with
  | done flow l2 ev =>
    have hit : iteration rnd now c q value l
        = { flow := flow, loop := l2,
            proposal := { version := l.version, round := l._round + 1, client := c._id },
            events := ev } := by
      unfold iteration
      dsimp only
      rw [hprep]
    rw [hit] at hflow ⊢
    obtain ⟨h1, h2⟩ := prepare_done_round now c q _ _ l2 flow ev hprep hflow
    exact ⟨h2, h1⟩
  | proceed l2 u ev =>
    rw [iteration_of_proceed rnd now c q value l l2 u ev hprep] at hflow ⊢
    obtain ⟨h1, h2⟩ := accept_confirm_round rnd now c q value _ l2 u ev hflow
    obtain ⟨mv, mp, -, -, -, hl2, -, -, -, -, -⟩ := prepare_proceed now c q _ _ l2 u ev hprep
    rw [h1, h2, hl2]
    exact ⟨rfl, rfl⟩

/-- When the loop of `choose` ends, `_round` is the round of the last proposal
sent, and the last iteration did not `continue`. -/
theorem choose_loop_final (rnd : Nat → Nat) (c : Client Version ClientId Value E)
    (q : Quorum ClientId) (value : Value) (fuel : Nat) :
    ∀ (now : Nat) (l : Loop Version Value),
      (choose_loop rnd c q value fuel now l).flow ≠ .again →
      ∃ last, (choose_loop rnd c q value fuel now l).trace.getLast? = some last ∧
        (choose_loop rnd c q value fuel now l).client._round = last.proposal.round ∧
        (choose_loop rnd c q value fuel now l).client._id = c._id ∧
        last.proposal.client = c._id := by
  induction fuel with
  | zero =>
    intro now l h
    exact absurd rfl h
  | succ fuel ih =>
    intro now l h
    unfold choose_loop at h ⊢
    dsimp only at h ⊢
    cases hflow : (iteration rnd now c q value l).flow with
    | again =>
      rw [hflow] at h
      dsimp only at h ⊢
      obtain ⟨last, h1, h2, h3, h4⟩ := ih (now + 1) _ h
      refine ⟨last, ?_, h2, h3, h4⟩
      rw [List.getLast?_cons, h1]
      rfl
    | returned ch =>
      dsimp only
      refine ⟨iteration rnd now c q value l, rfl, ?_, rfl, ?_⟩
      · exact (iteration_final rnd now c q value l (by rw [hflow]; simp)).1
      · rw [(iteration_next rnd now c q value l).1]
    | raised ex =>
      dsimp only
      refine ⟨iteration rnd now c q value l, rfl, ?_, rfl, ?_⟩
      · exact (iteration_final rnd now c q value l (by rw [hflow]; simp)).1
      · rw [(iteration_next rnd now c q value l).1]

/-- C6, the claim fails: across two calls of `choose` the proposals are not
increasing.  Client `7` calls `choose(1, "X")`; a peer has seen `(2, 1, 5)`, so
the call sends `(1, 1, 7)` then `(2, 2, 7)` and returns.  A second call
`choose(1, "Z")` then sends `(1, 3, 7)`, which is below `(2, 2, 7)`. -/
theorem proposals_not_monotone_across_calls :
    ((choose (fun _ => 1) 2 0
        (Example.client [Example.fresh 1, Example.fresh 2,
          Example.seen 3 { version := 2, round := 1, client := 5 }
            { version := 2, round := 2, client := 7 } 2])
        1 "X").trace ++
      (choose (fun _ => 1) 2
        (choose (fun _ => 1) 2 0
          (Example.client [Example.fresh 1, Example.fresh 2,
            Example.seen 3 { version := 2, round := 1, client := 5 }
              { version := 2, round := 2, client := 7 } 2])
          1 "X").now
        (choose (fun _ => 1) 2 0
          (Example.client [Example.fresh 1, Example.fresh 2,
            Example.seen 3 { version := 2, round := 1, client := 5 }
              { version := 2, round := 2, client := 7 } 2])
          1 "X").client
        1 "Z").trace).map (fun it => it.proposal)
      = [{ version := 1, round := 1, client := 7 }, { version := 2, round := 2, client := 7 },
         { version := 1, round := 3, client := 7 }, { version := 2, round := 3, client := 7 }] ∧
    ¬ ({ version := 2, round := 2, client := 7 } : Proposal Nat Nat)
        < { version := 1, round := 3, client := 7 } ∧
    ({ version := 1, round := 3, client := 7 } : Proposal Nat Nat)
        < { version := 2, round := 2, client := 7 } := by
  decide

/-- C6, amended: for every proposer and every `choose` call made on it, the
proposals sent in the successive prepare phases of that call are strictly
increasing under the lexicographic `(version, round, client)` order: each one
is below the next, hence below all the later ones.  From a call that has
ended to the next call on the same proposer, the first proposal of the next
call is above the last proposal of the former when the version given to the
next call is not below the version of that last proposal. -/
theorem proposals_monotone (rnd : Nat → Nat) (fuel now : Nat)
    (c : Client Version ClientId Value E) (version : Version) (value : Value) :
    List.Chain' (fun a b => a < b)
      ((choose rnd fuel now c version value).trace.map (fun it => it.proposal)) ∧
    List.Pairwise (fun a b => a < b)
      ((choose rnd fuel now c version value).trace.map (fun it => it.proposal)) ∧
    (∀ (rnd2 : Nat → Nat) (fuel2 now2 : Nat) (version2 : Version) (value2 : Value)
        (last first : Iteration Version ClientId Value E),
      (choose rnd fuel now c version value).flow ≠ .again →
      (choose rnd fuel now c version value).trace.getLast? = some last →
      last.proposal.version ≤ version2 →
      (choose rnd2 fuel2 now2 (choose rnd fuel now c version value).client version2
        value2).trace.head? = some first →
      last.proposal < first.proposal) := by
  have h := (choose_loop_chain rnd c (quorum c._peers) value fuel now
    { version := version, backoff := 1, replace := none, _round := c._round }).1
  refine ⟨h, (@List.chain'_iff_pairwise _ (fun a b : Proposal Version ClientId => a < b)
    ⟨fun _ _ _ => Proposal.lt_chain⟩ _).1 h, ?_⟩
  intro rnd2 fuel2 now2 version2 value2 last first hflow hlast hver hfirst
  obtain ⟨last2, h1, h2, h3, h4⟩ := choose_loop_final rnd c (quorum c._peers) value fuel now
    { version := version, backoff := 1, replace := none, _round := c._round } hflow
  have hl : last2 = last := by
    have hlast2 : (choose rnd fuel now c version value).trace.getLast? = some last2 := h1
    rw [hlast] at hlast2
    exact (Option.some.inj hlast2).symm
  subst hl
  have hf := (choose_loop_chain rnd2 (choose rnd fuel now c version value).client
    (quorum (choose rnd fuel now c version value).client._peers) value2 fuel2 now2
    { version := version2, backoff := 1, replace := none,
      _round := (choose rnd fuel now c version value).client._round }).2 first.proposal
    (by
      have hfirst2 : (choose_loop rnd2 (choose rnd fuel now c version value).client
          (quorum (choose rnd fuel now c version value).client._peers) value2 fuel2 now2
          { version := version2, backoff := 1, replace := none,
            _round := (choose rnd fuel now c version value).client._round }).trace.head?
          = some first := hfirst
      rw [List.head?_map, hfirst2]
      rfl)
  have h2b : (choose rnd fuel now c version value).client._round = last2.proposal.round := h2
  have h3b : (choose rnd fuel now c version value).client._id = c._id := h3
  rw [hf, h2b, h3b]
  dsimp only
  show Proposal.lt _ _
  unfold Proposal.lt
  dsimp only
  rcases lt_or_eq_of_le hver with hlt | heq
  · exact Or.inl hlt
  · exact Or.inr ⟨heq, Or.inl (by omega)⟩

/-- Witness of `proposals_monotone`: client `7` calls `choose(1, "X")` and then
`choose(1, "Z")` on three fresh peers; the proposals are `(1, 1, 7)` and then
`(1, 2, 7)`. -/
theorem proposals_monotone_witness :
    ({ version := 1, round := 1, client := 7 } : Proposal Nat Nat)
      < { version := 1, round := 0 + 1 + 1, client := 7 } :=
  (proposals_monotone (fun _ => 1) 1 0
    (Example.client [Example.fresh 1, Example.fresh 2, Example.fresh 3]) 1 "X").2.2
    (fun _ => 1) 1 1 1 "Z"
    (iteration (fun _ => 1) 0
      (Example.client [Example.fresh 1, Example.fresh 2, Example.fresh 3])
      (quorum [Example.fresh 1, Example.fresh 2, Example.fresh 3]) "X"
      { version := 1, backoff := 1, replace := none, _round := 0 })
    (iteration (fun _ => 1) 1
      { _id := 7, _peers := [Example.fresh 1, Example.fresh 2, Example.fresh 3],
        _conflict_backoff := true, _round := 0 + 1 }
      (quorum [Example.fresh 1, Example.fresh 2, Example.fresh 3]) "Z"
      { version := 1, backoff := 1, replace := none, _round := 0 + 1 })
    (by decide) rfl (by decide) rfl


end Monotone

/-! ## Phase-1 escalation -/

section Escalation

variable {Version ClientId Value E : Type} [LinearOrder Version] [LinearOrder ClientId]

/-- The scan with `proposed` never raises; it ends on an element of the range,
and every proposal carried by an element is not above the proposal of the
result, which is then present. -/
theorem proposed_scan (xs : List (Response Version ClientId Value)) :
    ∀ (largest : Response Version ClientId Value),
      ∃ m, max_element_from (@proposed Version ClientId Value E _ _) largest xs = .ok m ∧
        m ∈ largest :: xs ∧
        ∀ x ∈ largest :: xs, ∀ px, x.proposal = some px →
          ∃ pm, m.proposal = some pm ∧ ¬ pm < px := by
  induction xs with
  | nil =>
    intro largest
    refine ⟨largest, rfl, List.mem_singleton.2 rfl, fun x hx px hpx => ?_⟩
    rw [List.mem_singleton.1 hx] at hpx
    exact ⟨px, hpx, Proposal.not_lt_self _⟩
  | cons y ys ih =>
    intro largest
    unfold max_element_from
    cases hl : largest.proposal with
    | none =>
      cases hy : y.proposal with
      | none =>
        have hc : (@proposed Version ClientId Value E _ _ largest y) = .ok false := by
          simp [proposed, hl, hy]
        rw [hc]
        dsimp only
        obtain ⟨m, hm, hmem, hall⟩ := ih largest
        refine ⟨m, hm, ?_, fun x hx px hpx => ?_⟩
        · rcases List.mem_cons.1 hmem with h | h
          · exact h ▸ List.mem_cons_self _ _
          · exact List.mem_cons_of_mem _ (List.mem_cons_of_mem _ h)
        · rcases List.mem_cons.1 hx with h | h
          · exact hall x (h ▸ List.mem_cons_self _ _) px hpx
          · rcases List.mem_cons.1 h with h | h
            · rw [h, hy] at hpx; exact absurd hpx (by simp)
            · exact hall x (List.mem_cons_of_mem _ h) px hpx
      | some yp =>
        have hc : (@proposed Version ClientId Value E _ _ largest y) = .ok true := by
          simp [proposed, hl, hy]
        rw [hc]
        dsimp only
        obtain ⟨m, hm, hmem, hall⟩ := ih y
        refine ⟨m, hm, List.mem_cons_of_mem _ hmem, fun x hx px hpx => ?_⟩
        rcases List.mem_cons.1 hx with h | h
        · rw [h, hl] at hpx; exact absurd hpx (by simp)
        · exact hall x h px hpx
    | some lp =>
      cases hy : y.proposal with
      | none =>
        have hc : (@proposed Version ClientId Value E _ _ largest y) = .ok false := by
          simp [proposed, hl, hy]
        rw [hc]
        dsimp only
        obtain ⟨m, hm, hmem, hall⟩ := ih largest
        refine ⟨m, hm, ?_, fun x hx px hpx => ?_⟩
        · rcases List.mem_cons.1 hmem with h | h
          · exact h ▸ List.mem_cons_self _ _
          · exact List.mem_cons_of_mem _ (List.mem_cons_of_mem _ h)
        · rcases List.mem_cons.1 hx with h | h
          · exact hall x (h ▸ List.mem_cons_self _ _) px hpx
          · rcases List.mem_cons.1 h with h | h
            · rw [h, hy] at hpx; exact absurd hpx (by simp)
            · exact hall x (List.mem_cons_of_mem _ h) px hpx
      | some yp =>
        by_cases hlt : lp < yp
        · have hc : (@proposed Version ClientId Value E _ _ largest y) = .ok true := by
            simp [proposed, hl, hy, hlt]
          rw [hc]
          dsimp only
          obtain ⟨m, hm, hmem, hall⟩ := ih y
          refine ⟨m, hm, List.mem_cons_of_mem _ hmem, fun x hx px hpx => ?_⟩
          rcases List.mem_cons.1 hx with h | h
          · rw [h, hl] at hpx
            obtain ⟨pm, hpm, hle⟩ := hall y (List.mem_cons_self _ _) yp hy
            refine ⟨pm, hpm, fun hc2 => hle ?_⟩
            rw [← Option.some.inj hpx] at hc2
            exact Proposal.lt_chain hc2 hlt
          · exact hall x h px hpx
        · have hc : (@proposed Version ClientId Value E _ _ largest y) = .ok false := by
            simp [proposed, hl, hy, hlt]
          rw [hc]
          dsimp only
          obtain ⟨m, hm, hmem, hall⟩ := ih largest
          refine ⟨m, hm, ?_, fun x hx px hpx => ?_⟩
          · rcases List.mem_cons.1 hmem with h | h
            · exact h ▸ List.mem_cons_self _ _
            · exact List.mem_cons_of_mem _ (List.mem_cons_of_mem _ h)
          · rcases List.mem_cons.1 hx with h | h
            · exact hall x (h ▸ List.mem_cons_self _ _) px hpx
            · rcases List.mem_cons.1 h with h | h
              · rw [h, hy] at hpx
                obtain ⟨pm, hpm, hle⟩ := hall largest (List.mem_cons_self _ _) lp hl
                refine ⟨pm, hpm, ?_⟩
                rw [← Option.some.inj hpx]
                exact Proposal.not_lt_chain hlt hle
              · exact hall x (List.mem_cons_of_mem _ h) px hpx

/-- The scan with `valued` does not raise when every response that carries a
value carries a proposal. -/
theorem valued_scan_ok (xs : List (Response Version ClientId Value)) :
    ∀ (largest : Response Version ClientId Value),
      (∀ r ∈ largest :: xs, r.value.isSome = true → r.proposal.isSome = true) →
      ∃ m, max_element_from (@valued Version ClientId Value E _ _) largest xs = .ok m := by
  induction xs with
  | nil => intro largest _; exact ⟨largest, rfl⟩
  | cons y ys ih =>
    intro largest hwf
    unfold max_element_from
    have hcomp : ∃ b, (@valued Version ClientId Value E _ _ largest y) = .ok b := by
      unfold valued
      by_cases hb : (largest.value.isSome && y.value.isSome) = true
      · rw [if_pos hb]
        simp only [Bool.and_eq_true] at hb
        obtain ⟨lp, hlp⟩ := Option.isSome_iff_exists.1
          (hwf largest (List.mem_cons_self _ _) hb.1)
        obtain ⟨yp, hyp⟩ := Option.isSome_iff_exists.1
          (hwf y (List.mem_cons_of_mem _ (List.mem_cons_self _ _)) hb.2)
        rw [hlp, hyp]
        exact ⟨_, rfl⟩
      · rw [if_neg hb]
        exact ⟨_, rfl⟩
    obtain ⟨b, hb⟩ := hcomp
    rw [hb]
    cases b with
    | true =>
      dsimp only
      exact ih y (fun r hr => hwf r (List.mem_cons_of_mem _ hr))
    | false =>
      dsimp only
      refine ih largest (fun r hr => hwf r ?_)
      rcases List.mem_cons.1 hr with h | h
      · exact h ▸ List.mem_cons_self _ _
      · exact List.mem_cons_of_mem _ (List.mem_cons_of_mem _ h)

/-- `find_if` finds nothing when no element satisfies the predicate. -/
theorem find_if_none {α : Type} (pred : α → Bool) (xs : List α)
    (h : ∀ x ∈ xs, pred x = false) : find_if pred xs = none := by
  induction xs with
  | nil => rfl
  | cons x xs ih =>
    unfold find_if
    rw [h x (List.mem_cons_self _ _)]
    simp only [Bool.false_eq_true, if_false]
    exact ih (fun y hy => h y (List.mem_cons_of_mem _ hy))

/-- `max_element` with `proposed` never raises; the result is in the range, and
when a response carries a proposal, the result carries one that is not below. -/
theorem max_element_proposed_ok (rs : List (Response Version ClientId Value)) :
    ∃ mp, max_element (@proposed Version ClientId Value E _ _) rs = .ok mp ∧
      (∀ m, mp = some m → m ∈ rs) ∧
      ∀ x ∈ rs, ∀ px, x.proposal = some px →
        ∃ m pm, mp = some m ∧ m.proposal = some pm ∧ ¬ pm < px := by
  cases rs with
  | nil =>
    exact ⟨none, rfl, fun m hm => absurd hm (by simp), fun x hx => absurd hx (List.not_mem_nil _)⟩
  | cons y ys =>
    obtain ⟨m, hm, hmem, hall⟩ := @proposed_scan Version ClientId Value E _ _ ys y
    refine ⟨some m, ?_, fun m2 hm2 => ?_, fun x hx px hpx => ?_⟩
    · unfold max_element
      dsimp only
      rw [hm]
    · rw [← Option.some.inj hm2]; exact hmem
    · obtain ⟨pm, hpm, hle⟩ := hall x hx px hpx
      exact ⟨m, pm, rfl, hpm, hle⟩

/-- `max_element` with `valued` does not raise when every response that carries
a value carries a proposal. -/
theorem max_element_valued_ok (rs : List (Response Version ClientId Value))
    (hwf : ∀ r ∈ rs, r.value.isSome = true → r.proposal.isSome = true) :
    ∃ mv, max_element (@valued Version ClientId Value E _ _) rs = .ok mv := by
  cases rs with
  | nil => exact ⟨none, rfl⟩
  | cons y ys =>
    obtain ⟨m, hm⟩ := @valued_scan_ok Version ClientId Value E _ _ ys y hwf
    refine ⟨some m, ?_⟩
    unfold max_element
    dsimp only
    rw [hm]

/-- The block "send proposal" once the fan-out is complete, no response is
confirmed, the headcount passes and the two searches have ended: the iteration
`continue`s when `retry` says so and goes on to "send acceptation" otherwise. -/
theorem prepare_of_passed (now : Nat) (c : Client Version ClientId Value E)
    (q : Quorum ClientId) (proposal : Proposal Version ClientId) (l : Loop Version Value)
    (mv mp : Option (Response Version ClientId Value))
    (hraised : (fan_out_proposal now q proposal c._peers).raised = none)
    (hconf : find_if confirmed (fan_out_proposal now q proposal c._peers).responses = none)
    (hhead : (_check_headcount q (fan_out_proposal now q proposal c._peers).reached
      (fan_out_proposal now q proposal c._peers).weak_error false :
        Except (Exn Version ClientId E) Unit) = .ok ())
    (hv : max_element (@valued Version ClientId Value E _ _)
      (fan_out_proposal now q proposal c._peers).responses = .ok mv)
    (hp : max_element (@proposed Version ClientId Value E _ _)
      (fan_out_proposal now q proposal c._peers).responses = .ok mp) :
    prepare now c q proposal l
      = (match retry proposal mp { l with replace := adopt mv l.replace } with
          | some l2 => .done .again l2 (fan_out_proposal now q proposal c._peers).events
          | none =>
            .proceed { l with replace := adopt mv l.replace }
              (fan_out_proposal now q proposal c._peers).unavailables
              (fan_out_proposal now q proposal c._peers).events) := by
  unfold prepare
  dsimp only
  rw [hraised]
  dsimp only
  rw [hconf]
  dsimp only
  rw [hhead]
  dsimp only
  rw [hv]
  dsimp only
  rw [hp]
  try rfl

/-- The decision of `retry` in terms of the highest proposal seen `S`: with `S`
above the proposal its version and round are adopted, with `S` equal to the
proposal the round becomes `S.round + 1`, and with `S` below it, or with no
proposal seen, there is no retry. -/
theorem retry_of_highest (proposal : Proposal Version ClientId)
    (rs : List (Response Version ClientId Value)) (mp : Option (Response Version ClientId Value))
    (l : Loop Version Value)
    (hp : max_element (@proposed Version ClientId Value E _ _) rs = .ok mp) :
    (∀ S, (∃ r ∈ rs, r.proposal = some S) →
      (∀ r ∈ rs, ∀ p, r.proposal = some p → ¬ S < p) →
      (proposal < S → retry proposal mp l = some { l with version := S.version, _round := S.round }) ∧
      (S = proposal → retry proposal mp l = some { l with _round := S.round + 1 }) ∧
      (S < proposal → retry proposal mp l = none)) ∧
    ((∀ r ∈ rs, r.proposal = none) → retry proposal mp l = none) := by
  obtain ⟨mp2, hmp2, hmem, hall⟩ := @max_element_proposed_ok Version ClientId Value E _ _ rs
  rw [hp] at hmp2
  simp only [Except.ok.injEq] at hmp2
  subst hmp2
  constructor
  · intro S hS hmax
    obtain ⟨r, hr, hrS⟩ := hS
    obtain ⟨m, pm, hm, hpm, hle⟩ := hall r hr S hrS
    have hpmS : pm = S := Proposal.eq_of_not_lt hle (hmax m (hmem m hm) pm hpm)
    subst hpmS
    have hbind : mp.bind Response.proposal = some pm := by
      rw [hm]
      exact hpm
    unfold retry
    rw [hbind]
    dsimp only
    refine ⟨fun hlt => ?_, fun heq => ?_, fun hgt => ?_⟩
    · have hne : ¬ proposal = pm := fun h => Proposal.not_lt_self pm (h ▸ hlt)
      rw [if_neg hne, if_pos hlt]
    · rw [if_pos heq.symm]
    · have hne : ¬ proposal = pm := fun h => Proposal.not_lt_self pm (h ▸ hgt)
      rw [if_neg hne, if_neg (Proposal.asymm hgt)]
  · intro hnone
    unfold retry
    cases hmp : mp with
    | none => rfl
    | some m =>
      have hb : (some m : Option (Response Version ClientId Value)).bind Response.proposal
          = none := hnone m (hmem m hmp)
      rw [hb]

/-- An iteration that ends in the block "send proposal" records what the block
yields. -/
theorem iteration_of_done (rnd : Nat → Nat) (now : Nat) (c : Client Version ClientId Value E)
    (q : Quorum ClientId) (value : Value) (l l2 : Loop Version Value)
    (flow : Flow Version ClientId Value E) (ev : List (Event Version ClientId Value E))
    (h : prepare now c q { version := l.version, round := l._round + 1, client := c._id }
      { l with _round := l._round + 1 } = .done flow l2 ev) :
    iteration rnd now c q value l
      = { flow := flow, loop := l2,
          proposal := { version := l.version, round := l._round + 1, client := c._id },
          events := ev } := by
  unfold iteration
  dsimp only
  rw [h]

/-- C11: phase-1 escalation.  In an iteration whose phase-1 fan-out is complete,
where no response is confirmed and the headcount passes (responses that carry
a value carrying a proposal, as the data model says), let `S` be the highest
proposal seen among the responses.  If `S` is above the current proposal, no
`accept` is sent, `_round` becomes `S.round`, `version` becomes `S.version` and
the next iteration proposes `Proposal(S.version, S.round + 1, id)`, which is
above `S`.  If `S` equals the current proposal, no `accept` is sent, `_round`
becomes `S.round + 1` and the next iteration proposes
`Proposal(version, S.round + 2, id)`.  If `S` is below the current proposal, or
if no response carries a proposal, the iteration goes on to phase 2.  A peer
that has seen `Proposal(1,4,5)` makes client `7` set `_round` to `4` and then
propose `Proposal(1,5,7)`. -/
theorem phase1_escalation (rnd : Nat → Nat) (now : Nat) (c : Client Version ClientId Value E)
    (q : Quorum ClientId) (value : Value) (l : Loop Version Value)
    (hraised : (fan_out_proposal now q
      { version := l.version, round := l._round + 1, client := c._id } c._peers).raised = none)
    (hconf : ∀ r ∈ (fan_out_proposal now q
      { version := l.version, round := l._round + 1, client := c._id } c._peers).responses,
      confirmed r = false)
    (hhead : (_check_headcount q
      (fan_out_proposal now q
        { version := l.version, round := l._round + 1, client := c._id } c._peers).reached
      (fan_out_proposal now q
        { version := l.version, round := l._round + 1, client := c._id } c._peers).weak_error
      false : Except (Exn Version ClientId E) Unit) = .ok ())
    (hwf : ∀ r ∈ (fan_out_proposal now q
      { version := l.version, round := l._round + 1, client := c._id } c._peers).responses,
      r.value.isSome = true → r.proposal.isSome = true) :
    (∀ S : Proposal Version ClientId,
      (∃ r ∈ (fan_out_proposal now q
        { version := l.version, round := l._round + 1, client := c._id } c._peers).responses,
        r.proposal = some S) →
      (∀ r ∈ (fan_out_proposal now q
        { version := l.version, round := l._round + 1, client := c._id } c._peers).responses,
        ∀ p, r.proposal = some p → ¬ S < p) →
      (({ version := l.version, round := l._round + 1, client := c._id } :
          Proposal Version ClientId) < S →
        (iteration rnd now c q value l).flow = .again ∧
        (∀ j q2 p2 v2 rep,
          Event.accept j q2 p2 v2 rep ∉ (iteration rnd now c q value l).events) ∧
        (iteration rnd now c q value l).loop._round = S.round ∧
        (iteration rnd now c q value l).loop.version = S.version ∧
        (∀ rnd2 now2,
          (iteration rnd2 now2 c q value (iteration rnd now c q value l).loop).proposal
            = { version := S.version, round := S.round + 1, client := c._id }) ∧
        S < { version := S.version, round := S.round + 1, client := c._id }) ∧
      (S = { version := l.version, round := l._round + 1, client := c._id } →
        (iteration rnd now c q value l).flow = .again ∧
        (∀ j q2 p2 v2 rep,
          Event.accept j q2 p2 v2 rep ∉ (iteration rnd now c q value l).events) ∧
        (iteration rnd now c q value l).loop._round = S.round + 1 ∧
        (∀ rnd2 now2,
          (iteration rnd2 now2 c q value (iteration rnd now c q value l).loop).proposal
            = { version := l.version, round := S.round + 2, client := c._id })) ∧
      (S < { version := l.version, round := l._round + 1, client := c._id } →
        ∃ l2 u ev,
          prepare now c q { version := l.version, round := l._round + 1, client := c._id }
            { l with _round := l._round + 1 } = .proceed l2 u ev)) ∧
    ((∀ r ∈ (fan_out_proposal now q
        { version := l.version, round := l._round + 1, client := c._id } c._peers).responses,
        r.proposal = none) →
      ∃ l2 u ev,
        prepare now c q { version := l.version, round := l._round + 1, client := c._id }
          { l with _round := l._round + 1 } = .proceed l2 u ev) ∧
    (choose (fun _ => 1) 2 0
        (Example.client [Example.fresh 1, Example.fresh 2,
          Example.seen 3 { version := 1, round := 4, client := 5 }
            { version := 1, round := 4, client := 5 } 0]) 1 "X").trace.map
        (fun it => (it.proposal, it.loop._round))
      = [({ version := 1, round := 1, client := 7 }, 4),
         ({ version := 1, round := 5, client := 7 }, 5)] := by
  obtain ⟨mv, hv⟩ := @max_element_valued_ok Version ClientId Value E _ _ _ hwf
  obtain ⟨mp, hp, -, -⟩ := @max_element_proposed_ok Version ClientId Value E _ _
    (fan_out_proposal now q
      { version := l.version, round := l._round + 1, client := c._id } c._peers).responses
  have hprep := prepare_of_passed now c q
    { version := l.version, round := l._round + 1, client := c._id }
    { l with _round := l._round + 1 } mv mp hraised (find_if_none _ _ hconf) hhead hv hp
  obtain ⟨hS, hnone⟩ := retry_of_highest
    ({ version := l.version, round := l._round + 1, client := c._id } :
      Proposal Version ClientId) _ mp
    { version := l.version, backoff := l.backoff, replace := adopt mv l.replace,
      _round := l._round + 1 } hp
  have hnoaccept : ∀ (flow : Flow Version ClientId Value E) (l2 : Loop Version Value),
      prepare now c q { version := l.version, round := l._round + 1, client := c._id }
        { l with _round := l._round + 1 } = .done flow l2
          (fan_out_proposal now q
            { version := l.version, round := l._round + 1, client := c._id } c._peers).events →
      (iteration rnd now c q value l).flow = flow ∧
      (iteration rnd now c q value l).loop = l2 ∧
      ∀ j q2 p2 v2 rep, Event.accept j q2 p2 v2 rep ∉ (iteration rnd now c q value l).events := by
    intro flow l2 h
    rw [iteration_of_done rnd now c q value l l2 flow _ h]
    refine ⟨rfl, rfl, fun j q2 p2 v2 rep hmem => ?_⟩
    obtain ⟨j2, rep2, h2⟩ := fan_out_proposal_events now q _ c._peers _ hmem
    exact absurd h2 (by simp)
  refine ⟨fun S hex hmax => ⟨fun hlt => ?_, fun heq => ?_, fun hgt => ?_⟩, fun hn => ?_,
    by decide⟩
  · rw [(hS S hex hmax).1 hlt] at hprep
    obtain ⟨h1, h2, h3⟩ := hnoaccept _ _ hprep
    refine ⟨h1, h3, by rw [h2], by rw [h2], fun rnd2 now2 => ?_, Proposal.lt_next_round S c._id⟩
    rw [(iteration_next rnd2 now2 c q value _).1, h2]
  · rw [(hS S hex hmax).2.1 heq] at hprep
    obtain ⟨h1, h2, h3⟩ := hnoaccept _ _ hprep
    refine ⟨h1, h3, by rw [h2], fun rnd2 now2 => ?_⟩
    rw [(iteration_next rnd2 now2 c q value _).1, h2]
    dsimp only
    rw [show S.round + 1 + 1 = S.round + 2 by ring]
  · rw [(hS S hex hmax).2.2 hgt] at hprep
    exact ⟨_, _, _, hprep⟩
  · rw [hnone hn] at hprep
    exact ⟨_, _, _, hprep⟩

/-- Witness of `phase1_escalation`: client `7` proposes `(1, 1, 7)` to two fresh
peers and to a peer that has seen `(1, 4, 5)`. -/
theorem phase1_escalation_witness :
    (iteration (fun _ => 1) 0
      (Example.client [Example.fresh 1, Example.fresh 2,
        Example.seen 3 { version := 1, round := 4, client := 5 }
          { version := 1, round := 4, client := 5 } 0])
      (quorum [Example.fresh 1, Example.fresh 2,
        Example.seen 3 { version := 1, round := 4, client := 5 }
          { version := 1, round := 4, client := 5 } 0]) "X"
      { version := 1, backoff := 1, replace := none, _round := 0 }).loop._round = 4 :=
  (((phase1_escalation (fun _ => 1) 0
      (Example.client [Example.fresh 1, Example.fresh 2,
        Example.seen 3 { version := 1, round := 4, client := 5 }
          { version := 1, round := 4, client := 5 } 0])
      (quorum [Example.fresh 1, Example.fresh 2,
        Example.seen 3 { version := 1, round := 4, client := 5 }
          { version := 1, round := 4, client := 5 } 0]) "X"
      { version := 1, backoff := 1, replace := none, _round := 0 }
      (by decide) (by decide) (by decide) (by decide)).1
    { version := 1, round := 4, client := 5 } (by decide) (by decide)).1 (by decide)).2.2.1

end Escalation

/-! ## Phase-2 conflict -/

section Conflict

variable {Version ClientId Value E : Type} [LinearOrder Version] [LinearOrder ClientId]

/-- In "send acceptation", `reached` grows by the number of `accept` calls that
return a minimum which is not above the proposal. -/
theorem send_acceptation_reached (now : Nat) (q : Quorum ClientId)
    (proposal : Proposal Version ClientId) (v : Value)
    (peers : List (Peer Version ClientId Value E)) :
    ∀ (i : Nat) (s : Acceptation Version ClientId Value E),
      (send_acceptation now q proposal v peers i s).reached
          + ((s.events.filter (Event.accepted proposal)).length : Int)
        = s.reached
          + (((send_acceptation now q proposal v peers i s).events.filter
              (Event.accepted proposal)).length : Int) := by
  induction peers with
  | nil => intro i s; rfl
  | cons peer rest ih =>
    intro i s
    unfold send_acceptation
    by_cases hu : i ∈ s.unavailables
    · rw [if_pos hu]; exact ih _ _
    · rw [if_neg hu]
      cases hrep : peer.accept now q proposal v with
      | ok minimum =>
        dsimp only
        by_cases hc : proposal < minimum
        · rw [if_pos hc]
          dsimp only
          rw [List.filter_append]
          simp [Event.accepted, hc]
        · rw [if_neg hc]
          have h := ih (i + 1)
            { s with reached := s.reached + 1,
                     events := s.events ++ [Event.accept i q proposal v (.ok minimum)] }
          dsimp only at h
          rw [List.filter_append] at h
          simp only [List.filter_cons, List.filter_nil, Event.accepted, hc, decide_False,
            Bool.not_false, if_true, List.length_append, List.length_singleton,
            Nat.cast_add, Nat.cast_one] at h
          omega
      | error ex =>
        have hstep : ∀ (s2 : Acceptation Version ClientId Value E),
            s2.reached = s.reached →
            s2.events = s.events ++ [Event.accept i q proposal v (.error ex)] →
            (send_acceptation now q proposal v rest (i + 1) s2).reached
                + ((s.events.filter (Event.accepted proposal)).length : Int)
              = s.reached
                + (((send_acceptation now q proposal v rest (i + 1) s2).events.filter
                    (Event.accepted proposal)).length : Int) := by
          intro s2 h1 h2
          have h := ih (i + 1) s2
          rw [h2, List.filter_append] at h
          simp only [List.filter_cons, List.filter_nil, Event.accepted, Bool.false_eq_true,
            if_false, List.length_append, List.length_nil, Nat.cast_add, Nat.cast_zero,
            add_zero] at h
          rw [h1] at h
          exact h
        cases ex <;> dsimp only <;>
          first
          | exact hstep _ rfl rfl
          | (rw [List.filter_append]
             simp [Event.accepted])

/-- An `accept` call recorded by "send acceptation" that returns a minimum above
the proposal marks the conflict: `version` and `_round` are those of that
minimum, and no exception escapes. -/
theorem send_acceptation_conflict_event (now : Nat) (q : Quorum ClientId)
    (proposal : Proposal Version ClientId) (v : Value)
    (peers : List (Peer Version ClientId Value E)) :
    ∀ (i : Nat) (s : Acceptation Version ClientId Value E),
      s.raised = none →
      (∀ j q2 p2 v2 M, Event.accept j q2 p2 v2 (.ok M) ∈ s.events → ¬ proposal < M) →
      ∀ j q2 p2 v2 M,
        Event.accept j q2 p2 v2 (.ok M) ∈ (send_acceptation now q proposal v peers i s).events →
        proposal < M →
        (send_acceptation now q proposal v peers i s).conflicted = true ∧
        (send_acceptation now q proposal v peers i s).version = M.version ∧
        (send_acceptation now q proposal v peers i s)._round = M.round ∧
        (send_acceptation now q proposal v peers i s).raised = none := by
  induction peers with
  | nil =>
    intro i s _ hno j q2 p2 v2 M hmem hlt
    exact absurd hlt (hno j q2 p2 v2 M hmem)
  | cons peer rest ih =>
    intro i s hr hno j q2 p2 v2 M hmem hlt
    unfold send_acceptation at hmem ⊢
    by_cases hu : i ∈ s.unavailables
    · rw [if_pos hu] at hmem ⊢
      exact ih _ _ hr hno j q2 p2 v2 M hmem hlt
    · rw [if_neg hu] at hmem ⊢
      cases hrep : peer.accept now q proposal v with
      | ok minimum =>
        rw [hrep] at hmem
        dsimp only at hmem ⊢
        by_cases hc : proposal < minimum
        · rw [if_pos hc] at hmem ⊢
          dsimp only at hmem ⊢
          rw [List.mem_append, List.mem_singleton] at hmem
          rcases hmem with h | h
          · exact absurd hlt (hno j q2 p2 v2 M h)
          · simp only [Event.accept.injEq, Except.ok.injEq] at h
            rw [h.2.2.2.2]
            exact ⟨rfl, rfl, rfl, hr⟩
        · rw [if_neg hc] at hmem ⊢
          refine ih _ _ ?_ ?_ j q2 p2 v2 M hmem hlt
          · exact hr
          intro j3 q3 p3 v3 M3 h3
          dsimp only at h3
          rw [List.mem_append, List.mem_singleton] at h3
          rcases h3 with h3 | h3
          · exact hno j3 q3 p3 v3 M3 h3
          · simp only [Event.accept.injEq, Except.ok.injEq] at h3
            rw [h3.2.2.2.2]
            exact hc
      | error ex =>
        rw [hrep] at hmem
        have hno2 : ∀ j3 q3 p3 v3 M3,
            Event.accept j3 q3 p3 v3 (.ok M3)
              ∈ s.events ++ [Event.accept i q proposal v (.error ex)] → ¬ proposal < M3 := by
          intro j3 q3 p3 v3 M3 h3
          rw [List.mem_append, List.mem_singleton] at h3
          rcases h3 with h3 | h3
          · exact hno j3 q3 p3 v3 M3 h3
          · simp at h3
        cases ex <;> dsimp only at hmem ⊢ <;>
          first
          | (refine ih _ _ ?_ ?_ j q2 p2 v2 M hmem hlt
             · exact hr
             · exact hno2)
          | exact absurd hlt (hno2 j q2 p2 v2 M hmem)

/-- The blocks "send acceptation" and "send confirmation" when the fan-out of the
first ends on a conflict: the iteration `continue`s with the version and the
round adopted and `backoff` doubled, and suspends when backoff is enabled. -/
theorem accept_confirm_of_conflict (rnd : Nat → Nat) (now : Nat)
    (c : Client Version ClientId Value E) (q : Quorum ClientId) (value : Value)
    (proposal : Proposal Version ClientId) (l : Loop Version Value) (unavailables : List Nat)
    (events : List (Event Version ClientId Value E))
    (hr : (send_acceptation now q proposal (replace_or l.replace value) c._peers 0
      { reached := 0, conflicted := false, weak_error := none, unavailables := unavailables,
        version := l.version, _round := l._round, events := events, raised := none }).raised
      = none)
    (hc : (send_acceptation now q proposal (replace_or l.replace value) c._peers 0
      { reached := 0, conflicted := false, weak_error := none, unavailables := unavailables,
        version := l.version, _round := l._round, events := events, raised := none }).conflicted
      = true) :
    accept_confirm rnd now c q value proposal l unavailables events
      = { flow := .again,
          loop :=
            { version := (send_acceptation now q proposal (replace_or l.replace value) c._peers 0
                { reached := 0, conflicted := false, weak_error := none,
                  unavailables := unavailables, version := l.version, _round := l._round,
                  events := events, raised := none }).version,
              backoff := min (l.backoff * 2) 64,
              replace := l.replace,
              _round := (send_acceptation now q proposal (replace_or l.replace value) c._peers 0
                { reached := 0, conflicted := false, weak_error := none,
                  unavailables := unavailables, version := l.version, _round := l._round,
                  events := events, raised := none })._round },
          proposal := proposal,
          events :=
            if c._conflict_backoff then
              (send_acceptation now q proposal (replace_or l.replace value) c._peers 0
                { reached := 0, conflicted := false, weak_error := none,
                  unavailables := unavailables, version := l.version, _round := l._round,
                  events := events, raised := none }).events
                ++ [Event.sleep (100 * (rnd now : Int) * l.backoff)]
            else
              (send_acceptation now q proposal (replace_or l.replace value) c._peers 0
                { reached := 0, conflicted := false, weak_error := none,
                  unavailables := unavailables, version := l.version, _round := l._round,
                  events := events, raised := none }).events } := by
  unfold accept_confirm
  dsimp only
  rw [hr]
  dsimp only
  rw [if_pos hc]

/-- An `accept` call recorded by an iteration is recorded by the fan-out "send
acceptation". -/
theorem accept_confirm_accept_event (rnd : Nat → Nat) (now : Nat)
    (c : Client Version ClientId Value E) (q : Quorum ClientId) (value : Value)
    (proposal : Proposal Version ClientId) (l : Loop Version Value) (unavailables : List Nat)
    (events : List (Event Version ClientId Value E))
    (j : Nat) (q2 : Quorum ClientId) (p2 : Proposal Version ClientId) (v2 : Value)
    (rep : Reply Version ClientId E (Proposal Version ClientId))
    (h : Event.accept j q2 p2 v2 rep
      ∈ (accept_confirm rnd now c q value proposal l unavailables events).events) :
    Event.accept j q2 p2 v2 rep
      ∈ (send_acceptation now q proposal (replace_or l.replace value) c._peers 0
          { reached := 0, conflicted := false, weak_error := none, unavailables := unavailables,
            version := l.version, _round := l._round, events := events, raised := none }).events := by
  unfold accept_confirm at h
  dsimp only at h
  generalize send_acceptation now q proposal (replace_or l.replace value) c._peers 0
      { reached := 0, conflicted := false, weak_error := none, unavailables := unavailables,
        version := l.version, _round := l._round, events := events, raised := none } = a
    at h ⊢
  cases hr : a.raised with
  | some ex => rw [hr] at h; exact h
  | none =>
    rw [hr] at h; dsimp only at h
    by_cases hc : a.conflicted = true
    · rw [if_pos hc] at h
      dsimp only at h
      by_cases hb : c._conflict_backoff = true
      · rw [if_pos hb, List.mem_append, List.mem_singleton] at h
        rcases h with h | h
        · exact h
        · exact absurd h (by simp)
      · rw [if_neg hb] at h; exact h
    · rw [if_neg hc] at h
      cases hh : (_check_headcount q a.reached a.weak_error false :
          Except (Exn Version ClientId E) Unit) with
      | error ex => rw [hh] at h; exact h
      | ok u1 =>
        rw [hh] at h; dsimp only at h
        rw [confirm_return_events] at h
        rcases send_confirmation_events now q proposal c._peers 0 _ _ h with h2 | h2
        · exact h2
        · obtain ⟨j2, rep2, h3⟩ := h2
          exact absurd h3 (by simp)

/-- No call of the fan-out "send proposal" counts as an accepted `accept`. -/
theorem fan_out_proposal_not_accepted (now : Nat) (q : Quorum ClientId)
    (proposal p2 : Proposal Version ClientId) (peers : List (Peer Version ClientId Value E)) :
    (fan_out_proposal now q proposal peers).events.filter (Event.accepted p2) = [] := by
  rw [List.filter_eq_nil_iff]
  intro e he
  obtain ⟨j, rep, h⟩ := fan_out_proposal_events now q proposal peers e he
  rw [h]
  simp [Event.accepted]

/-- C12: phase-2 conflict.  In an iteration that reaches phase 2, if a peer's
`accept` returns a minimum `M` with `proposal < M`, then the fan-out is marked
conflicted, `reached` counts only the `accept` calls whose minimum is not above
the proposal (so not that peer), the iteration `continue`s whatever `reached` is
(the headcount rule is not applied), no `confirm` is sent in this iteration,
`version` and `_round` become `M.version` and `M.round`, and the next iteration
proposes `Proposal(M.version, M.round + 1, id)`, which is above `M` for every
`M`, whether or not `M.client` is the proposer's id.  With the minimum
`(1, 2, 5)` returned to client `7` for `(1, 1, 7)`, the next proposal is
`(1, 3, 7)`. -/
theorem phase2_conflict (rnd : Nat → Nat) (now : Nat) (c : Client Version ClientId Value E)
    (q : Quorum ClientId) (value : Value) (l l2 : Loop Version Value) (u : List Nat)
    (ev : List (Event Version ClientId Value E)) (j : Nat) (q2 : Quorum ClientId)
    (p2 : Proposal Version ClientId) (v2 : Value) (M : Proposal Version ClientId)
    (hprep : prepare now c q { version := l.version, round := l._round + 1, client := c._id }
      { l with _round := l._round + 1 } = .proceed l2 u ev)
    (hev : Event.accept j q2 p2 v2 (.ok M) ∈ (iteration rnd now c q value l).events)
    (hlt : ({ version := l.version, round := l._round + 1, client := c._id } :
      Proposal Version ClientId) < M) :
    (send_acceptation now q { version := l.version, round := l._round + 1, client := c._id }
      (replace_or l2.replace value) c._peers 0
      { reached := 0, conflicted := false, weak_error := none, unavailables := u,
        version := l2.version, _round := l2._round, events := ev, raised := none }).conflicted
      = true ∧
    (send_acceptation now q { version := l.version, round := l._round + 1, client := c._id }
      (replace_or l2.replace value) c._peers 0
      { reached := 0, conflicted := false, weak_error := none, unavailables := u,
        version := l2.version, _round := l2._round, events := ev, raised := none }).reached
      = (((send_acceptation now q
            { version := l.version, round := l._round + 1, client := c._id }
            (replace_or l2.replace value) c._peers 0
            { reached := 0, conflicted := false, weak_error := none, unavailables := u,
              version := l2.version, _round := l2._round, events := ev,
              raised := none }).events.filter
          (Event.accepted { version := l.version, round := l._round + 1, client := c._id })).length
          : Int) ∧
    Event.accepted { version := l.version, round := l._round + 1, client := c._id }
      (Event.accept j q2 p2 v2 (.ok M) : Event Version ClientId Value E) = false ∧
    (iteration rnd now c q value l).flow = .again ∧
    (∀ j3 q3 p3 rep, Event.confirm j3 q3 p3 rep ∉ (iteration rnd now c q value l).events) ∧
    (iteration rnd now c q value l).loop.version = M.version ∧
    (iteration rnd now c q value l).loop._round = M.round ∧
    (∀ rnd2 now2,
      (iteration rnd2 now2 c q value (iteration rnd now c q value l).loop).proposal
        = { version := M.version, round := M.round + 1, client := c._id }) ∧
    M < { version := M.version, round := M.round + 1, client := c._id } ∧
    (choose (fun _ => 1) 2 0
        (Example.client [Example.fresh 1,
          Example.contended 2 { version := 1, round := 2, client := 5 }, Example.fresh 3])
        1 "X").trace.map (fun it => (it.proposal, it.flow))
      = [({ version := 1, round := 1, client := 7 }, .again),
         ({ version := 1, round := 3, client := 7 },
          .returned { _proposal := { version := 1, round := 3, client := 7 },
                      _conflicted := false, _value := none })] := by
  obtain ⟨mv, mp, -, -, -, -, -, hevp, -, -, -⟩ := prepare_proceed now c q _ _ l2 u ev hprep
  subst hevp
  rw [iteration_of_proceed rnd now c q value l l2 u _ hprep] at hev
  have hin := accept_confirm_accept_event rnd now c q value _ l2 u _ j q2 p2 v2 _ hev
  have hno : ∀ j3 q3 p3 v3 M3,
      Event.accept j3 q3 p3 v3 (.ok M3)
        ∈ (fan_out_proposal now q
            { version := l.version, round := l._round + 1, client := c._id } c._peers).events →
      ¬ ({ version := l.version, round := l._round + 1, client := c._id } :
        Proposal Version ClientId) < M3 := by
    intro j3 q3 p3 v3 M3 h3
    obtain ⟨j4, rep4, h4⟩ := fan_out_proposal_events now q _ c._peers _ h3
    exact absurd h4 (by simp)
  obtain ⟨hc, hver, hrnd, hr⟩ := send_acceptation_conflict_event now q
    { version := l.version, round := l._round + 1, client := c._id }
    (replace_or l2.replace value) c._peers 0
    { reached := 0, conflicted := false, weak_error := none, unavailables := u,
      version := l2.version, _round := l2._round, events := (fan_out_proposal now q
        { version := l.version, round := l._round + 1, client := c._id } c._peers).events, raised := none }
    rfl hno j q2 p2 v2 M hin hlt
  have hreach := send_acceptation_reached now q
    { version := l.version, round := l._round + 1, client := c._id }
    (replace_or l2.replace value) c._peers 0
    { reached := 0, conflicted := false, weak_error := none, unavailables := u,
      version := l2.version, _round := l2._round, events := (fan_out_proposal now q
        { version := l.version, round := l._round + 1, client := c._id } c._peers).events, raised := none }
  have hit := accept_confirm_of_conflict rnd now c q value
    { version := l.version, round := l._round + 1, client := c._id } l2 u _ hr hc
  rw [iteration_of_proceed rnd now c q value l l2 u _ hprep, hit]
  refine ⟨hc, ?_, ?_, rfl, ?_, hver, hrnd, fun rnd2 now2 => ?_, Proposal.lt_next_round M c._id,
    by decide⟩
  · dsimp only at hreach
    rw [fan_out_proposal_not_accepted] at hreach
    simp only [List.length_nil, Nat.cast_zero, add_zero, zero_add] at hreach
    exact hreach
  · simp [Event.accepted, hlt]
  · intro j3 q3 p3 rep hmem
    dsimp only at hmem
    have hmem2 : Event.confirm j3 q3 p3 rep
        ∈ (send_acceptation now q
            { version := l.version, round := l._round + 1, client := c._id }
            (replace_or l2.replace value) c._peers 0
            { reached := 0, conflicted := false, weak_error := none, unavailables := u,
              version := l2.version, _round := l2._round, events := (fan_out_proposal now q
        { version := l.version, round := l._round + 1, client := c._id } c._peers).events,
              raised := none }).events := by
      by_cases hb : c._conflict_backoff = true
      · rw [if_pos hb, List.mem_append, List.mem_singleton] at hmem
        rcases hmem with h | h
        · exact h
        · exact absurd h (by simp)
      · rw [if_neg hb] at hmem; exact hmem
    rcases send_acceptation_events now q _ _ c._peers 0 _ _ hmem2 with h | h
    · dsimp only at h
      obtain ⟨j4, rep4, h4⟩ := fan_out_proposal_events now q _ c._peers _ h
      exact absurd h4 (by simp)
    · obtain ⟨j4, rep4, h4⟩ := h
      exact absurd h4 (by simp)
  · rw [(iteration_next rnd2 now2 c q value _).1]
    dsimp only
    rw [hver, hrnd]

/-- Witness of `phase2_conflict`: client `7` proposes `(1, 1, 7)`; the first peer
accepts, the second answers `accept` with the minimum `(1, 2, 5)`. -/
theorem phase2_conflict_witness :
    (iteration (fun _ => 1) 0
      (Example.client [Example.fresh 1,
        Example.contended 2 { version := 1, round := 2, client := 5 }, Example.fresh 3])
      (quorum [Example.fresh 1,
        Example.contended 2 { version := 1, round := 2, client := 5 }, Example.fresh 3]) "X"
      { version := 1, backoff := 1, replace := none, _round := 0 }).flow = .again :=
  (phase2_conflict (fun _ => 1) 0
    (Example.client [Example.fresh 1,
      Example.contended 2 { version := 1, round := 2, client := 5 }, Example.fresh 3])
    (quorum [Example.fresh 1,
      Example.contended 2 { version := 1, round := 2, client := 5 }, Example.fresh 3]) "X"
    { version := 1, backoff := 1, replace := none, _round := 0 }
    { version := 1, backoff := 1, replace := none, _round := 0 + 1 } []
    _ 1
    (quorum [Example.fresh 1,
      Example.contended 2 { version := 1, round := 2, client := 5 }, Example.fresh 3])
    { version := 1, round := 0 + 1, client := 7 } "X" { version := 1, round := 2, client := 5 }
    (by rfl) (by decide) (by decide)).2.2.2.1

end Conflict

/-! ## Backoff -/

section Backoff

variable {Version ClientId Value E : Type} [LinearOrder Version] [LinearOrder ClientId]

/-- A list of calls holds a conflicting `accept` exactly when `Event.conflict`
finds one. -/
theorem any_conflict_iff (proposal : Proposal Version ClientId)
    (L : List (Event Version ClientId Value E)) :
    L.any (Event.conflict proposal) = true ↔
      ∃ j q2 p2 v2 M, Event.accept j q2 p2 v2 (.ok M) ∈ L ∧ proposal < M := by
  rw [List.any_eq_true]
  constructor
  · rintro ⟨e, he, hc⟩
    cases e with
    | accept j q2 p2 v2 rep =>
      cases rep with
      | ok M => exact ⟨j, q2, p2, v2, M, he, by simpa [Event.conflict] using hc⟩
      | error ex => exact absurd hc (by simp [Event.conflict])
    | propose _ _ _ _ => exact absurd hc (by simp [Event.conflict])
    | confirm _ _ _ _ => exact absurd hc (by simp [Event.conflict])
    | get _ _ _ => exact absurd hc (by simp [Event.conflict])
    | sleep _ => exact absurd hc (by simp [Event.conflict])
  · rintro ⟨j, q2, p2, v2, M, he, hlt⟩
    exact ⟨_, he, by simp [Event.conflict, hlt]⟩

/-- A list none of whose calls conflicts. -/
theorem any_conflict_false (proposal : Proposal Version ClientId)
    (L : List (Event Version ClientId Value E))
    (h : ∀ j q2 p2 v2 M, Event.accept j q2 p2 v2 (.ok M) ∈ L → ¬ proposal < M) :
    L.any (Event.conflict proposal) = false := by
  cases hb : L.any (Event.conflict proposal) with
  | false => rfl
  | true =>
    obtain ⟨j, q2, p2, v2, M, he, hlt⟩ := (any_conflict_iff proposal L).1 hb
    exact absurd hlt (h j q2 p2 v2 M he)

/-- A list of remote calls holds no suspension. -/
theorem delay_nil (L : List (Event Version ClientId Value E))
    (h : ∀ e ∈ L, ∀ d, e ≠ Event.sleep d) : L.filterMap Event.delay = [] := by
  rw [List.filterMap_eq_nil_iff]
  intro e he
  cases e with
  | sleep d => exact absurd rfl (h _ he d)
  | propose _ _ _ _ => rfl
  | accept _ _ _ _ _ => rfl
  | confirm _ _ _ _ => rfl
  | get _ _ _ => rfl

/-- A conflict in "send acceptation" is recorded: some `accept` call returned a
minimum above the proposal. -/
theorem send_acceptation_conflicted_event (now : Nat) (q : Quorum ClientId)
    (proposal : Proposal Version ClientId) (v : Value)
    (peers : List (Peer Version ClientId Value E)) :
    ∀ (i : Nat) (s : Acceptation Version ClientId Value E), s.conflicted = false →
      (send_acceptation now q proposal v peers i s).conflicted = true →
      ∃ j M, Event.accept j q proposal v (.ok M)
          ∈ (send_acceptation now q proposal v peers i s).events ∧ proposal < M := by
  induction peers with
  | nil =>
    intro i s hs h
    unfold send_acceptation at h
    rw [hs] at h
    exact absurd h (by simp)
  | cons peer rest ih =>
    intro i s hs h
    unfold send_acceptation at h ⊢
    by_cases hu : i ∈ s.unavailables
    · rw [if_pos hu] at h ⊢
      exact ih _ _ hs h
    · rw [if_neg hu] at h ⊢
      cases hr : peer.accept now q proposal v with
      | ok minimum =>
        rw [hr] at h
        dsimp only at h ⊢
        by_cases hc : proposal < minimum
        · rw [if_pos hc]
          exact ⟨i, minimum, by simp, hc⟩
        · rw [if_neg hc] at h ⊢
          exact ih _ _ hs h
      | error ex =>
        rw [hr] at h
        cases ex <;> dsimp only at h ⊢ <;>
          first
          | exact ih _ _ hs h
          | (rw [hs] at h; exact absurd h (by simp))

/-- The loop variable `backoff` is not touched by the block "send proposal". -/
theorem prepare_done_backoff (now : Nat) (c : Client Version ClientId Value E)
    (q : Quorum ClientId) (proposal : Proposal Version ClientId) (l l2 : Loop Version Value)
    (flow : Flow Version ClientId Value E) (ev : List (Event Version ClientId Value E))
    (h : prepare now c q proposal l = .done flow l2 ev) :
    l2.backoff = l.backoff := by
  by_cases hflow : flow = .again
  · subst hflow
    obtain ⟨-, -, h3⟩ := prepare_done now c q proposal l l2 _ ev h
    obtain ⟨mv, -, -, hb⟩ := h3 rfl
    exact hb
  · unfold prepare at h
    dsimp only at h
    generalize fan_out_proposal now q proposal c._peers = p at h
    cases hr : p.raised with
    | some e =>
      rw [hr] at h
      simp only [Prepared.done.injEq] at h
      rw [← h.2.1]
    | none =>
      rw [hr] at h; dsimp only at h
      cases hf : find_if confirmed p.responses with
      | some r =>
        rw [hf] at h; dsimp only at h
        split at h
        · simp only [Prepared.done.injEq] at h
          rw [← h.2.1]
        · simp only [Prepared.done.injEq] at h
          rw [← h.2.1]
      | none =>
        rw [hf] at h; dsimp only at h
        cases hh : (_check_headcount q p.reached p.weak_error false :
            Except (Exn Version ClientId E) Unit) with
        | error e =>
          rw [hh] at h
          simp only [Prepared.done.injEq] at h
          rw [← h.2.1]
        | ok u1 =>
          rw [hh] at h; dsimp only at h
          cases hv : max_element (@valued Version ClientId Value E _ _) p.responses with
          | error e =>
            rw [hv] at h
            simp only [Prepared.done.injEq] at h
            rw [← h.2.1]
          | ok mv =>
            rw [hv] at h; dsimp only at h
            cases hp : max_element (@proposed Version ClientId Value E _ _) p.responses with
            | error e =>
              rw [hp] at h
              simp only [Prepared.done.injEq] at h
              rw [← h.2.1]
            | ok mp =>
              rw [hp] at h; dsimp only at h
              cases hy : retry proposal mp { l with replace := adopt mv l.replace } with
              | some l3 =>
                rw [hy] at h
                simp only [Prepared.done.injEq] at h
                exact absurd h.1.symm hflow
              | none => rw [hy] at h; exact absurd h (by simp)

/-- The blocks "send acceptation" and "send confirmation" and the backoff: on a
conflict `backoff` is doubled up to `64` and the proposer suspends for
`100 * r * backoff` when backoff is enabled; otherwise `backoff` is kept and the
proposer does not suspend. -/
theorem accept_confirm_backoff (rnd : Nat → Nat) (now : Nat)
    (c : Client Version ClientId Value E) (q : Quorum ClientId) (value : Value)
    (proposal : Proposal Version ClientId) (l : Loop Version Value) (unavailables : List Nat)
    (events : List (Event Version ClientId Value E))
    (hev : ∀ e ∈ events, ∃ j rep, e = Event.propose j q proposal rep) :
    ((accept_confirm rnd now c q value proposal l unavailables events).events.any
        (Event.conflict proposal) = true →
      (accept_confirm rnd now c q value proposal l unavailables events).loop.backoff
        = min (l.backoff * 2) 64 ∧
      (accept_confirm rnd now c q value proposal l unavailables events).events.filterMap
          Event.delay
        = if c._conflict_backoff then [100 * (rnd now : Int) * l.backoff] else []) ∧
    ((accept_confirm rnd now c q value proposal l unavailables events).events.any
        (Event.conflict proposal) = false →
      (accept_confirm rnd now c q value proposal l unavailables events).loop.backoff
        = l.backoff ∧
      (accept_confirm rnd now c q value proposal l unavailables events).events.filterMap
          Event.delay = []) := by
  have hno : ∀ j q2 p2 v2 M,
      Event.accept j q2 p2 v2 (.ok M) ∈ events → ¬ proposal < M := by
    intro j q2 p2 v2 M h
    obtain ⟨j4, rep4, h4⟩ := hev _ h
    exact absurd h4 (by simp)
  have hA1 := send_acceptation_conflicted_event now q proposal (replace_or l.replace value)
      c._peers 0
      { reached := 0, conflicted := false, weak_error := none, unavailables := unavailables,
        version := l.version, _round := l._round, events := events, raised := none } rfl
  have hA2 := send_acceptation_conflict_event now q proposal (replace_or l.replace value)
      c._peers 0
      { reached := 0, conflicted := false, weak_error := none, unavailables := unavailables,
        version := l.version, _round := l._round, events := events, raised := none } rfl hno
  have hA3 := send_acceptation_events now q proposal (replace_or l.replace value)
      c._peers 0
      { reached := 0, conflicted := false, weak_error := none, unavailables := unavailables,
        version := l.version, _round := l._round, events := events, raised := none }
  unfold accept_confirm confirm_return
  dsimp only at hA3 ⊢
  generalize send_acceptation now q proposal (replace_or l.replace value) c._peers 0
      { reached := 0, conflicted := false, weak_error := none, unavailables := unavailables,
        version := l.version, _round := l._round, events := events, raised := none } = a
    at hA1 hA2 hA3 ⊢
  have hK := send_confirmation_events now q proposal c._peers 0
      { reached := 0, weak_error := none, unavailables := a.unavailables, events := a.events,
        raised := none }
  dsimp only at hK
  generalize send_confirmation now q proposal c._peers 0
      { reached := 0, weak_error := none, unavailables := a.unavailables, events := a.events,
        raised := none } = k at hK ⊢
  have hAdel : a.events.filterMap Event.delay = [] := by
    apply delay_nil
    intro e he d hd
    rcases hA3 e he with h | ⟨j, rep, h⟩
    · obtain ⟨j4, rep4, h4⟩ := hev _ h
      rw [hd] at h4; exact absurd h4 (by simp)
    · rw [hd] at h; exact absurd h (by simp)
  have hKdel : k.events.filterMap Event.delay = [] := by
    apply delay_nil
    intro e he d hd
    rcases hK e he with h | ⟨j, rep, h⟩
    · rcases hA3 e h with h | ⟨j, rep, h⟩
      · obtain ⟨j4, rep4, h4⟩ := hev _ h
        rw [hd] at h4; exact absurd h4 (by simp)
      · rw [hd] at h; exact absurd h (by simp)
    · rw [hd] at h; exact absurd h (by simp)
  have hAany : ¬ (a.conflicted = true ∧ a.raised = none) →
      a.events.any (Event.conflict proposal) = false := by
    intro hn
    apply any_conflict_false
    intro j q2 p2 v2 M he hlt
    obtain ⟨h1, -, -, h2⟩ := hA2 j q2 p2 v2 M he hlt
    exact hn ⟨h1, h2⟩
  have hKany : ¬ (a.conflicted = true ∧ a.raised = none) →
      k.events.any (Event.conflict proposal) = false := by
    intro hn
    apply any_conflict_false
    intro j q2 p2 v2 M he hlt
    rcases hK _ he with h | ⟨j3, rep3, h⟩
    · obtain ⟨h1, -, -, h2⟩ := hA2 j q2 p2 v2 M h hlt
      exact hn ⟨h1, h2⟩
    · exact absurd h (by simp)
  cases hr : a.raised with
  | some ex =>
    dsimp only
    have hn : ¬ (a.conflicted = true ∧ a.raised = none) := by
      rw [hr]; simp
    rw [hAany hn]
    exact ⟨fun h => absurd h (by simp), fun _ => ⟨rfl, hAdel⟩⟩
  | none =>
    dsimp only
    by_cases hc : a.conflicted = true
    · rw [if_pos hc]
      dsimp only
      obtain ⟨j, M, hmem, hlt⟩ := hA1 hc
      have hany : a.events.any (Event.conflict proposal) = true :=
        (any_conflict_iff proposal a.events).2 ⟨_, _, _, _, _, hmem, hlt⟩
      by_cases hb : c._conflict_backoff = true
      · rw [if_pos hb, if_pos hb]
        refine ⟨fun _ => ⟨rfl, ?_⟩, fun h => ?_⟩
        · rw [List.filterMap_append, hAdel]
          rfl
        · rw [List.any_append, hany] at h
          exact absurd h (by simp)
      · rw [if_neg hb, if_neg hb]
        refine ⟨fun _ => ⟨rfl, hAdel⟩, fun h => ?_⟩
        rw [hany] at h
        exact absurd h (by simp)
    · rw [if_neg hc]
      have hn : ¬ (a.conflicted = true ∧ a.raised = none) := fun h => hc h.1
      repeat' split
      all_goals dsimp only
      all_goals first
        | (rw [hAany hn]; exact ⟨fun h => absurd h (by simp), fun _ => ⟨rfl, hAdel⟩⟩)
        | (rw [hKany hn]; exact ⟨fun h => absurd h (by simp), fun _ => ⟨rfl, hKdel⟩⟩)

/-- One iteration and the backoff: on a phase-2 conflict `backoff` is doubled up
to `64` and the proposer suspends once, for `100 * r * backoff`, when backoff is
enabled; otherwise `backoff` is kept and the proposer does not suspend. -/
theorem iteration_backoff (rnd : Nat → Nat) (now : Nat) (c : Client Version ClientId Value E)
    (q : Quorum ClientId) (value : Value) (l : Loop Version Value) :
    ((iteration rnd now c q value l).conflicted = true →
      (iteration rnd now c q value l).loop.backoff = min (l.backoff * 2) 64 ∧
      (iteration rnd now c q value l).events.filterMap Event.delay
        = if c._conflict_backoff then [100 * (rnd now : Int) * l.backoff] else []) ∧
    ((iteration rnd now c q value l).conflicted = false →
      (iteration rnd now c q value l).loop.backoff = l.backoff ∧
      (iteration rnd now c q value l).events.filterMap Event.delay = []) := by
  unfold Iteration.conflicted
  rw [(iteration_next rnd now c q value l).1]
  cases hprep : prepare now c q { version := l.version, round := l._round + 1, client := c._id }
      { l with _round := l._round + 1 } with
  | done flow l2 ev =>
    rw [iteration_of_done rnd now c q value l l2 flow ev hprep]
    dsimp only
    have hb := prepare_done_backoff now c q _ _ l2 flow ev hprep
    obtain ⟨hev, -, -⟩ := prepare_done now c q _ _ l2 flow ev hprep
    have hany : ev.any (Event.conflict
        { version := l.version, round := l._round + 1, client := c._id }) = false := by
      apply any_conflict_false
      intro j q2 p2 v2 M he
      rw [hev] at he
      obtain ⟨j4, rep4, h4⟩ := fan_out_proposal_events now q _ c._peers _ he
      exact absurd h4 (by simp)
    have hdel : ev.filterMap Event.delay = [] := by
      apply delay_nil
      intro e he d hd
      rw [hev] at he
      obtain ⟨j4, rep4, h4⟩ := fan_out_proposal_events now q _ c._peers _ he
      rw [hd] at h4; exact absurd h4 (by simp)
    rw [hany]
    exact ⟨fun h => absurd h (by simp), fun _ => ⟨hb, hdel⟩⟩
  | proceed l2 u ev =>
    rw [iteration_of_proceed rnd now c q value l l2 u ev hprep]
    obtain ⟨mv, mp, -, -, -, hl2, -, hevp, -, -, -⟩ := prepare_proceed now c q _ _ l2 u ev hprep
    have hb : l2.backoff = l.backoff := by rw [hl2]
    have h := accept_confirm_backoff rnd now c q value
      { version := l.version, round := l._round + 1, client := c._id } l2 u ev
      (by
        intro e he
        rw [hevp] at he
        exact fan_out_proposal_events now q _ c._peers _ he)
    rw [hb] at h
    exact h

/-- The loop of `choose` and the backoff.  When `backoff` is `min (2 ^ j) 64` on
entry, it is `min (2 ^ (j + k)) 64` after an iteration, `k` being the number of
iterations that met a conflict so far; an iteration that meets a conflict
suspends once, when backoff is enabled, for `100 * r` times the value before
doubling, and no other iteration suspends. -/
theorem choose_loop_backoff (rnd : Nat → Nat) (c : Client Version ClientId Value E)
    (q : Quorum ClientId) (value : Value) (fuel : Nat) :
    ∀ (now : Nat) (l : Loop Version Value) (j : Nat), l.backoff = min ((2 : Int) ^ j) 64 →
      ∀ (pre : List (Iteration Version ClientId Value E)) (it : Iteration Version ClientId Value E)
        (post : List (Iteration Version ClientId Value E)),
        (choose_loop rnd c q value fuel now l).trace = pre ++ it :: post →
        it.loop.backoff
          = min ((2 : Int) ^ (j + (pre ++ [it]).countP Iteration.conflicted)) 64 ∧
        (it.conflicted = true →
          it.events.filterMap Event.delay
            = if c._conflict_backoff then
                [100 * (rnd (now + pre.length) : Int)
                  * min ((2 : Int) ^ (j + pre.countP Iteration.conflicted)) 64]
              else []) ∧
        (it.conflicted = false → it.events.filterMap Event.delay = []) := by
  induction fuel with
  | zero =>
    intro now l j hl pre it post htr
    unfold choose_loop at htr
    exact absurd htr (by simp)
  | succ fuel ih =>
    intro now l j hl pre it post htr
    have hstep : ∀ k : Nat, min (min ((2 : Int) ^ k) 64 * 2) 64 = min ((2 : Int) ^ (k + 1)) 64 := by
      intro k
      have hp : (0 : Int) < 2 ^ k := by positivity
      rw [pow_succ]
      omega
    have hI := iteration_backoff rnd now c q value l
    have hhead : ∀ it0 : Iteration Version ClientId Value E,
        it0 = iteration rnd now c q value l →
        it0.loop.backoff
          = min ((2 : Int) ^ (j + ([] ++ [it0]).countP Iteration.conflicted)) 64 ∧
        (it0.conflicted = true →
          it0.events.filterMap Event.delay
            = if c._conflict_backoff then
                [100 * (rnd (now + ([] : List (Iteration Version ClientId Value E)).length) : Int)
                  * min ((2 : Int) ^ (j + ([] : List (Iteration Version ClientId Value E)).countP
                      Iteration.conflicted)) 64]
              else []) ∧
        (it0.conflicted = false → it0.events.filterMap Event.delay = []) := by
      intro it0 h0
      subst h0
      cases hcf : (iteration rnd now c q value l).conflicted with
      | true =>
        obtain ⟨hb, hd⟩ := hI.1 hcf
        refine ⟨?_, fun _ => ?_, fun h => absurd h (by simp)⟩
        · rw [hb, hl, hstep]
          simp [List.countP_cons, hcf]
        · rw [hd, hl]
          simp
      | false =>
        obtain ⟨hb, hd⟩ := hI.2 hcf
        refine ⟨?_, fun h => absurd h (by simp), fun _ => hd⟩
        rw [hb, hl]
        simp [List.countP_cons, hcf]
    unfold choose_loop at htr
    dsimp only at htr
    cases hflow : (iteration rnd now c q value l).flow with
    | again =>
      rw [hflow] at htr
      dsimp only at htr
      cases pre with
      | nil =>
        simp only [List.nil_append, List.cons.injEq] at htr
        exact hhead it htr.1.symm
      | cons it0 pre2 =>
        simp only [List.cons_append, List.cons.injEq] at htr
        obtain ⟨h0, htr2⟩ := htr
        have hh := hhead it0 h0.symm
        have hl2 : (iteration rnd now c q value l).loop.backoff
            = min ((2 : Int) ^ (j + (if it0.conflicted then 1 else 0))) 64 := by
          rw [h0, hh.1]
          cases hc0 : it0.conflicted <;> simp [List.countP_cons, hc0]
        obtain ⟨r1, r2, r3⟩ := ih (now + 1) _ _ hl2 pre2 it post htr2
        refine ⟨?_, fun hc => ?_, r3⟩
        · rw [r1]
          congr 2
          rw [List.cons_append, List.countP_cons]
          cases hc0 : it0.conflicted <;> simp [hc0]
          omega
        · rw [r2 hc]
          have e1 : now + 1 + pre2.length = now + (it0 :: pre2).length := by
            simp only [List.length_cons]; omega
          have e2 : j + (if it0.conflicted = true then 1 else 0)
                + List.countP Iteration.conflicted pre2
              = j + List.countP Iteration.conflicted (it0 :: pre2) := by
            rw [List.countP_cons]
            cases hc0 : it0.conflicted <;> simp [hc0]
            omega
          rw [e1, e2]
    | returned ch =>
      rw [hflow] at htr
      dsimp only at htr
      cases pre with
      | nil =>
        simp only [List.nil_append, List.cons.injEq] at htr
        exact hhead it htr.1.symm
      | cons it0 pre2 =>
        simp only [List.cons_append, List.cons.injEq] at htr
        exact absurd htr.2 (by simp)
    | raised ex =>
      rw [hflow] at htr
      dsimp only at htr
      cases pre with
      | nil =>
        simp only [List.nil_append, List.cons.injEq] at htr
        exact hhead it htr.1.symm
      | cons it0 pre2 =>
        simp only [List.cons_append, List.cons.injEq] at htr
        exact absurd htr.2 (by simp)

/-- C13: backoff bounds.  In a call of `choose`, take any iteration `it`, with
the iterations `pre` before it, and count as a conflict an iteration one of
whose `accept` calls returned a minimum above its proposal.  The multiplier
`backoff` after `it` is `min (2 ^ k) 64`, `k` being the number of conflicts up
to and including `it` (so it is `1` as long as there is none).  When `it`
meets a conflict, the delay is `100 * r * m` milliseconds, `m` being the
multiplier before doubling, `min (2 ^ k0) 64` for the `k0` conflicts of `pre`,
and `r` the random draw; the proposer suspends exactly once, for that delay,
when conflict backoff is enabled, and not at all when it is disabled; an
iteration without conflict never suspends.  When the draw lies in `[1, 8]`, the
delay lies between `100 * m` and `800 * m` and does not exceed `51200`. -/
theorem backoff_bounds (rnd : Nat → Nat) (fuel now : Nat) (c : Client Version ClientId Value E)
    (version : Version) (value : Value)
    (pre : List (Iteration Version ClientId Value E)) (it : Iteration Version ClientId Value E)
    (post : List (Iteration Version ClientId Value E))
    (hrnd : ∀ t, 1 ≤ rnd t ∧ rnd t ≤ 8)
    (htr : (choose rnd fuel now c version value).trace = pre ++ it :: post) :
    it.loop.backoff = min ((2 : Int) ^ (pre ++ [it]).countP Iteration.conflicted) 64 ∧
    (it.conflicted = true →
      it.events.filterMap Event.delay
        = if c._conflict_backoff then
            [100 * (rnd (now + pre.length) : Int)
              * min ((2 : Int) ^ pre.countP Iteration.conflicted) 64]
          else []) ∧
    (it.conflicted = false → it.events.filterMap Event.delay = []) ∧
    100 * min ((2 : Int) ^ pre.countP Iteration.conflicted) 64
      ≤ 100 * (rnd (now + pre.length) : Int)
          * min ((2 : Int) ^ pre.countP Iteration.conflicted) 64 ∧
    100 * (rnd (now + pre.length) : Int) * min ((2 : Int) ^ pre.countP Iteration.conflicted) 64
      ≤ 800 * min ((2 : Int) ^ pre.countP Iteration.conflicted) 64 ∧
    100 * (rnd (now + pre.length) : Int) * min ((2 : Int) ^ pre.countP Iteration.conflicted) 64
      ≤ 51200 := by
  unfold choose at htr
  have h0 : (1 : Int) = min ((2 : Int) ^ 0) 64 := by decide
  obtain ⟨h1, h2, h3⟩ := choose_loop_backoff rnd c (quorum c._peers) value fuel now
    { version := version, backoff := 1, replace := none, _round := c._round } 0 h0
    pre it post htr
  simp only [Nat.zero_add] at h1 h2
  refine ⟨h1, h2, h3, ?_, ?_, ?_⟩
  all_goals
    obtain ⟨r1, r8⟩ := hrnd (now + pre.length)
    have hp : (0 : Int) < 2 ^ pre.countP Iteration.conflicted := by positivity
    generalize (2 : Int) ^ pre.countP Iteration.conflicted = x at hp ⊢
    have hm0 : 0 < min x 64 := by omega
    have hm64 : min x 64 ≤ 64 := by omega
    generalize min x 64 = m at hm0 hm64 ⊢
    have r1z : (1 : Int) ≤ (rnd (now + pre.length) : Int) := by exact_mod_cast r1
    have r8z : (rnd (now + pre.length) : Int) ≤ 8 := by exact_mod_cast r8
    generalize (rnd (now + pre.length) : Int) = r at r1z r8z ⊢
    nlinarith

/-- Witness of `backoff_bounds`: against a peer whose minimum is above the first
proposal, with the draw `3`, the first iteration leaves `backoff` at `2` and
suspends for `300`; the second iteration meets no conflict and does not
suspend. -/
theorem backoff_bounds_witness :
    (iteration (fun _ => 3) 0
      (Example.client [Example.fresh 1,
        Example.contended 2 { version := 1, round := 2, client := 5 }, Example.fresh 3])
      (quorum [Example.fresh 1,
        Example.contended 2 { version := 1, round := 2, client := 5 }, Example.fresh 3]) "X"
      { version := 1, backoff := 1, replace := none, _round := 0 }).loop.backoff = 2 ∧
    (iteration (fun _ => 3) 0
      (Example.client [Example.fresh 1,
        Example.contended 2 { version := 1, round := 2, client := 5 }, Example.fresh 3])
      (quorum [Example.fresh 1,
        Example.contended 2 { version := 1, round := 2, client := 5 }, Example.fresh 3]) "X"
      { version := 1, backoff := 1, replace := none, _round := 0 }).events.filterMap
        Event.delay = [300] :=
  have hr : ∀ t : Nat, 1 ≤ (fun _ : Nat => 3) t ∧ (fun _ : Nat => 3) t ≤ 8 :=
    fun _ => ⟨by simp, by simp⟩
  have h := backoff_bounds (fun _ => 3) 2 0
    (Example.client [Example.fresh 1,
      Example.contended 2 { version := 1, round := 2, client := 5 }, Example.fresh 3])
    1 "X" []
    (iteration (fun _ => 3) 0
      (Example.client [Example.fresh 1,
        Example.contended 2 { version := 1, round := 2, client := 5 }, Example.fresh 3])
      (quorum [Example.fresh 1,
        Example.contended 2 { version := 1, round := 2, client := 5 }, Example.fresh 3]) "X"
      { version := 1, backoff := 1, replace := none, _round := 0 })
    [iteration (fun _ => 3) 1
      (Example.client [Example.fresh 1,
        Example.contended 2 { version := 1, round := 2, client := 5 }, Example.fresh 3])
      (quorum [Example.fresh 1,
        Example.contended 2 { version := 1, round := 2, client := 5 }, Example.fresh 3]) "X"
      { version := 1, backoff := 2, replace := none, _round := 2 }]
    hr (by decide)
  ⟨h.1.trans (by decide), (h.2.1 (by decide)).trans (by decide)⟩

end Backoff

/-! ## Weak errors -/

section WeakErrors

variable {Version ClientId Value E : Type} [LinearOrder Version] [LinearOrder ClientId]

/-- The first result of a scan of a list extended by one element. -/
theorem findSome_snoc {α β : Type} (f : α → Option β) (L : List α) (a : α) :
    (L ++ [a]).findSome? f = (L.findSome? f).or (f a) := by
  induction L with
  | nil => simp [List.findSome?]; cases f a <;> rfl
  | cons x xs ih =>
    rw [List.cons_append, List.findSome?_cons, List.findSome?_cons]
    cases f x with
    | some b => rfl
    | none => exact ih

/-- The capture `if (!weak_error) weak_error = e`. -/
theorem capture_weak {β : Type} (w : Option β) (e : β) :
    (if w.isSome then w else some e) = w.or (some e) := by
  cases w <;> rfl

/-- In "send proposal", `weak_error` is the first weak error among the `propose`
calls recorded. -/
theorem send_proposal_weak (now : Nat) (q : Quorum ClientId)
    (proposal : Proposal Version ClientId) (peers : List (Peer Version ClientId Value E)) :
    ∀ (i : Nat) (s : Prepare Version ClientId Value E),
      s.weak_error = s.events.findSome? Event.weak_propose →
      (send_proposal now q proposal peers i s).weak_error
        = (send_proposal now q proposal peers i s).events.findSome? Event.weak_propose := by
  induction peers with
  | nil => intro i s hs; exact hs
  | cons peer rest ih =>
    intro i s hs
    unfold send_proposal
    dsimp only
    cases hr : peer.propose now q proposal with
    | ok response =>
      dsimp only
      apply ih
      dsimp only
      rw [findSome_snoc, ← hs]
      cases s.weak_error <;> rfl
    | error ex =>
      cases ex <;> dsimp only <;>
        first
        | (apply ih; dsimp only; rw [findSome_snoc, ← hs, capture_weak]; rfl)
        | (apply ih; dsimp only; rw [findSome_snoc, ← hs]; cases s.weak_error <;> rfl)
        | (rw [findSome_snoc, ← hs]; cases s.weak_error <;> rfl)

/-- In "send acceptation", `weak_error` is the first weak error among the
`accept` calls recorded. -/
theorem send_acceptation_weak (now : Nat) (q : Quorum ClientId)
    (proposal : Proposal Version ClientId) (v : Value)
    (peers : List (Peer Version ClientId Value E)) :
    ∀ (i : Nat) (s : Acceptation Version ClientId Value E),
      s.weak_error = s.events.findSome? Event.weak_accept →
      (send_acceptation now q proposal v peers i s).weak_error
        = (send_acceptation now q proposal v peers i s).events.findSome? Event.weak_accept := by
  induction peers with
  | nil => intro i s hs; exact hs
  | cons peer rest ih =>
    intro i s hs
    unfold send_acceptation
    by_cases hu : i ∈ s.unavailables
    · rw [if_pos hu]
      exact ih _ _ hs
    · rw [if_neg hu]
      dsimp only
      cases hr : peer.accept now q proposal v with
      | ok minimum =>
        dsimp only
        by_cases hc : proposal < minimum
        · rw [if_pos hc]
          dsimp only
          rw [findSome_snoc, ← hs]
          cases s.weak_error <;> rfl
        · rw [if_neg hc]
          apply ih
          dsimp only
          rw [findSome_snoc, ← hs]
          cases s.weak_error <;> rfl
      | error ex =>
        cases ex <;> dsimp only <;>
          first
          | (apply ih; dsimp only; rw [findSome_snoc, ← hs, capture_weak]; rfl)
          | (apply ih; dsimp only; rw [findSome_snoc, ← hs]; cases s.weak_error <;> rfl)
          | (rw [findSome_snoc, ← hs]; cases s.weak_error <;> rfl)

/-- In "send confirmation", `weak_error` is the first weak error among the
`confirm` calls recorded. -/
theorem send_confirmation_weak (now : Nat) (q : Quorum ClientId)
    (proposal : Proposal Version ClientId) (peers : List (Peer Version ClientId Value E)) :
    ∀ (i : Nat) (s : Confirmation Version ClientId Value E),
      s.weak_error = s.events.findSome? Event.weak_confirm →
      (send_confirmation now q proposal peers i s).weak_error
        = (send_confirmation now q proposal peers i s).events.findSome? Event.weak_confirm := by
  induction peers with
  | nil => intro i s hs; exact hs
  | cons peer rest ih =>
    intro i s hs
    unfold send_confirmation
    by_cases hu : i ∈ s.unavailables
    · rw [if_pos hu]
      exact ih _ _ hs
    · rw [if_neg hu]
      dsimp only
      cases hr : peer.confirm now q proposal with
      | ok u1 =>
        dsimp only
        apply ih
        dsimp only
        rw [findSome_snoc, ← hs]
        cases s.weak_error <;> rfl
      | error ex =>
        cases ex <;> dsimp only <;>
          first
          | (apply ih; dsimp only; rw [findSome_snoc, ← hs, capture_weak]; rfl)
          | (apply ih; dsimp only; rw [findSome_snoc, ← hs]; cases s.weak_error <;> rfl)
          | (rw [findSome_snoc, ← hs]; cases s.weak_error <;> rfl)

/-- A scan that finds nothing. -/
theorem findSome_none {α β : Type} (f : α → Option β) (L : List α)
    (h : ∀ a ∈ L, f a = none) : L.findSome? f = none := by
  induction L with
  | nil => rfl
  | cons x xs ih =>
    rw [List.findSome?_cons, h x (List.mem_cons_self _ _)]
    exact ih (fun a ha => h a (List.mem_cons_of_mem _ ha))

/-- A failed headcount raises the weak error given, or else `TooFewPeers`. -/
theorem check_headcount_failed (q : Quorum ClientId) (reached : Int) (weak_error : Option E)
    (h : reached ≤ ((q.card / 2 : Nat) : Int)) :
    (_check_headcount q reached weak_error false : Except (Exn Version ClientId E) Unit)
      = .error (match weak_error with
                | some w => Exn.Foreign w
                | none => Exn.TooFewPeers reached q.card) := by
  rw [check_headcount_eq]
  have ht : threshold q.card false = q.card / 2 := by simp [threshold]
  rw [ht, if_pos h]

/-- The block "send proposal" when its headcount fails. -/
theorem prepare_headcount_failed (now : Nat) (c : Client Version ClientId Value E)
    (q : Quorum ClientId) (proposal : Proposal Version ClientId) (l : Loop Version Value)
    (hr : (fan_out_proposal now q proposal c._peers).raised = none)
    (hf : find_if confirmed (fan_out_proposal now q proposal c._peers).responses = none)
    (hh : (fan_out_proposal now q proposal c._peers).reached ≤ ((q.card / 2 : Nat) : Int)) :
    prepare now c q proposal l
      = .done (.raised (match (fan_out_proposal now q proposal c._peers).events.findSome?
                  Event.weak_propose with
                | some w => Exn.Foreign w
                | none => Exn.TooFewPeers (fan_out_proposal now q proposal c._peers).reached
                    q.card)) l
          (fan_out_proposal now q proposal c._peers).events := by
  have hw : (fan_out_proposal now q proposal c._peers).weak_error
      = (fan_out_proposal now q proposal c._peers).events.findSome? Event.weak_propose :=
    send_proposal_weak now q proposal c._peers 0 _ rfl
  have hc := @check_headcount_failed Version ClientId E _ _ q
    (fan_out_proposal now q proposal c._peers).reached
    (fan_out_proposal now q proposal c._peers).weak_error hh
  rw [hw] at hc
  unfold prepare
  dsimp only
  rw [hr]
  dsimp only
  rw [hf]
  dsimp only
  rw [hw, hc]

/-- The block "send acceptation" when its headcount fails. -/
theorem accept_confirm_headcount_failed (rnd : Nat → Nat) (now : Nat)
    (c : Client Version ClientId Value E) (q : Quorum ClientId) (value : Value)
    (proposal : Proposal Version ClientId) (l : Loop Version Value) (unavailables : List Nat)
    (events : List (Event Version ClientId Value E))
    (a : Acceptation Version ClientId Value E)
    (ha : a = send_acceptation now q proposal (replace_or l.replace value) c._peers 0
      { reached := 0, conflicted := false, weak_error := none, unavailables := unavailables,
        version := l.version, _round := l._round, events := events, raised := none })
    (hev : ∀ e ∈ events, ∃ j rep, e = Event.propose j q proposal rep)
    (hr : a.raised = none) (hc : a.conflicted = false)
    (hh : a.reached ≤ ((q.card / 2 : Nat) : Int)) :
    (accept_confirm rnd now c q value proposal l unavailables events).flow
        = .raised (match a.events.findSome? Event.weak_accept with
                   | some w => Exn.Foreign w
                   | none => Exn.TooFewPeers a.reached q.card) ∧
    (accept_confirm rnd now c q value proposal l unavailables events).events = a.events := by
  have hw : a.weak_error = a.events.findSome? Event.weak_accept := by
    rw [ha]
    apply send_acceptation_weak
    dsimp only
    symm
    apply findSome_none
    intro e he
    obtain ⟨j, rep, h⟩ := hev e he
    rw [h]; rfl
  have hk := @check_headcount_failed Version ClientId E _ _ q a.reached a.weak_error hh
  rw [hw] at hk
  unfold accept_confirm
  dsimp only
  rw [← ha, hr]
  dsimp only
  rw [hc]
  simp only [Bool.false_eq_true, if_false]
  rw [hw, hk]
  exact ⟨rfl, rfl⟩

/-- The block "send confirmation" when its headcount fails. -/
theorem confirm_return_headcount_failed (now : Nat) (c : Client Version ClientId Value E)
    (q : Quorum ClientId) (proposal : Proposal Version ClientId) (l : Loop Version Value)
    (unavailables : List Nat) (events : List (Event Version ClientId Value E))
    (k : Confirmation Version ClientId Value E)
    (hk : k = send_confirmation now q proposal c._peers 0
      { reached := 0, weak_error := none, unavailables := unavailables, events := events,
        raised := none })
    (hev : ∀ e ∈ events, Event.weak_confirm e = none)
    (hr : k.raised = none) (hh : k.reached ≤ ((q.card / 2 : Nat) : Int)) :
    (confirm_return now c q proposal l unavailables events).flow
        = .raised (match k.events.findSome? Event.weak_confirm with
                   | some w => Exn.Foreign w
                   | none => Exn.TooFewPeers k.reached q.card) ∧
    (confirm_return now c q proposal l unavailables events).events = k.events := by
  have hw : k.weak_error = k.events.findSome? Event.weak_confirm := by
    rw [hk]
    apply send_confirmation_weak
    dsimp only
    symm
    exact findSome_none _ _ hev
  have hc := @check_headcount_failed Version ClientId E _ _ q k.reached k.weak_error hh
  rw [hw] at hc
  unfold confirm_return
  dsimp only
  rw [← hk, hr]
  dsimp only
  rw [hw, hc]
  exact ⟨rfl, rfl⟩

/-- C14, counterexample: five peers, the first of which raises `WeakError(boom)`
in phase 1; phase 1 reaches four peers and passes.  In phase 2 the second and
third peers are `Unavailable`, so two peers are reached and the headcount
fails: `choose` raises `TooFewPeers(2, 5)`, not `boom`. -/
theorem weak_error_not_kept_across_phases :
    (choose (fun _ => 1) 3 0
        (Example.client [Example.weak 1 "boom", Example.promising 2 .Unavailable,
          Example.promising 3 .Unavailable, Example.fresh 4, Example.fresh 5])
        1 "X").flow = .raised (.TooFewPeers 2 5) ∧
    (choose (fun _ => 1) 3 0
        (Example.client [Example.weak 1 "boom", Example.promising 2 .Unavailable,
          Example.promising 3 .Unavailable, Example.fresh 4, Example.fresh 5])
        1 "X").trace.map (fun it => it.events.filterMap Event.weak_propose)
      = [["boom"]] := by
  decide

/-- C14, amended: weak errors are remembered within a phase only.  In an
iteration of `choose`, when the headcount of a phase fails (no foreign
exception escaped the fan-out of that phase; in phase 1 no response is
confirmed; in phase 2 there is no conflict), the iteration raises the first
weak error raised by a peer in the calls of that same phase, and
`TooFewPeers(reached, |Q|)` when no peer raised a weak error in that phase,
whatever the earlier phases captured; the call of `choose` ends with that
exception. -/
theorem weak_error_per_phase (rnd : Nat → Nat) (now fuel : Nat)
    (c : Client Version ClientId Value E) (q : Quorum ClientId) (value : Value)
    (l : Loop Version Value) :
    ((fan_out_proposal now q
        { version := l.version, round := l._round + 1, client := c._id } c._peers).raised = none →
      find_if confirmed (fan_out_proposal now q
        { version := l.version, round := l._round + 1, client := c._id } c._peers).responses
        = none →
      (fan_out_proposal now q
        { version := l.version, round := l._round + 1, client := c._id } c._peers).reached
        ≤ ((q.card / 2 : Nat) : Int) →
      (iteration rnd now c q value l).flow
        = .raised (match (iteration rnd now c q value l).events.findSome? Event.weak_propose with
                   | some w => Exn.Foreign w
                   | none => Exn.TooFewPeers (fan_out_proposal now q
                      { version := l.version, round := l._round + 1, client := c._id }
                      c._peers).reached q.card)) ∧
    (∀ (l2 : Loop Version Value) (u : List Nat) (ev : List (Event Version ClientId Value E))
        (a : Acceptation Version ClientId Value E),
      prepare now c q { version := l.version, round := l._round + 1, client := c._id }
        { l with _round := l._round + 1 } = .proceed l2 u ev →
      a = send_acceptation now q { version := l.version, round := l._round + 1, client := c._id }
        (replace_or l2.replace value) c._peers 0
        { reached := 0, conflicted := false, weak_error := none, unavailables := u,
          version := l2.version, _round := l2._round, events := ev, raised := none } →
      a.raised = none → a.conflicted = false →
      (a.reached ≤ ((q.card / 2 : Nat) : Int) →
        (iteration rnd now c q value l).flow
          = .raised (match (iteration rnd now c q value l).events.findSome?
                      Event.weak_accept with
                     | some w => Exn.Foreign w
                     | none => Exn.TooFewPeers a.reached q.card)) ∧
      (∀ k : Confirmation Version ClientId Value E,
        ¬ a.reached ≤ ((q.card / 2 : Nat) : Int) →
        k = send_confirmation now q
          { version := l.version, round := l._round + 1, client := c._id } c._peers 0
          { reached := 0, weak_error := none, unavailables := a.unavailables,
            events := a.events, raised := none } →
        k.raised = none → k.reached ≤ ((q.card / 2 : Nat) : Int) →
        (iteration rnd now c q value l).flow
          = .raised (match (iteration rnd now c q value l).events.findSome?
                      Event.weak_confirm with
                     | some w => Exn.Foreign w
                     | none => Exn.TooFewPeers k.reached q.card))) ∧
    (∀ x, (iteration rnd now c q value l).flow = .raised x →
      (choose_loop rnd c q value (fuel + 1) now l).flow = .raised x) := by
  refine ⟨fun hr hf hh => ?_, fun l2 u ev a hprep ha hr hc => ⟨fun hh => ?_, fun k hpass hk hkr hh => ?_⟩,
    fun x hx => ?_⟩
  · have hp := prepare_headcount_failed now c q
      { version := l.version, round := l._round + 1, client := c._id }
      { l with _round := l._round + 1 } hr hf hh
    rw [iteration_of_done rnd now c q value l _ _ _ hp]
  · obtain ⟨mv, mp, -, -, -, -, -, hevp, -, -, -⟩ := prepare_proceed now c q _ _ l2 u ev hprep
    have hev : ∀ e ∈ ev, ∃ j rep, e = Event.propose j q
        { version := l.version, round := l._round + 1, client := c._id } rep := by
      intro e he
      rw [hevp] at he
      exact fan_out_proposal_events now q _ c._peers _ he
    obtain ⟨h1, h2⟩ := accept_confirm_headcount_failed rnd now c q value _ l2 u ev a ha hev hr hc hh
    rw [iteration_of_proceed rnd now c q value l l2 u ev hprep, h2, h1]
  · obtain ⟨mv, mp, -, -, -, -, -, hevp, -, -, -⟩ := prepare_proceed now c q _ _ l2 u ev hprep
    have hev : ∀ e ∈ a.events, Event.weak_confirm e = none := by
      intro e he
      rw [ha] at he
      rcases send_acceptation_events now q _ _ c._peers 0 _ e he with h | ⟨j, rep, h⟩
      · dsimp only at h
        rw [hevp] at h
        obtain ⟨j, rep, h2⟩ := fan_out_proposal_events now q _ c._peers _ h
        rw [h2]; rfl
      · rw [h]; rfl
    have hpass2 : (_check_headcount q a.reached a.weak_error false :
        Except (Exn Version ClientId E) Unit) = .ok () := by
      rw [check_headcount_ok_iff]
      have ht : threshold q.card false = q.card / 2 := by simp [threshold]
      rw [ht]
      omega
    obtain ⟨h1, h2⟩ := confirm_return_headcount_failed now c q
      { version := l.version, round := l._round + 1, client := c._id }
      { l2 with version := a.version, _round := a._round } a.unavailables a.events k hk hev hkr hh
    have hac : accept_confirm rnd now c q value
        { version := l.version, round := l._round + 1, client := c._id } l2 u ev
        = confirm_return now c q
            { version := l.version, round := l._round + 1, client := c._id }
            { l2 with version := a.version, _round := a._round } a.unavailables a.events := by
      unfold accept_confirm
      dsimp only
      rw [← ha, hr]
      dsimp only
      rw [hc]
      simp only [Bool.false_eq_true, if_false]
      rw [hpass2]
    rw [iteration_of_proceed rnd now c q value l l2 u ev hprep, hac, h2, h1]
  · unfold choose_loop
    dsimp only
    rw [hx]

/-- Witness of `weak_error_per_phase`: the first peer raises `WeakError(boom)` in
phase 1, the second raises `WeakError(late)` in phase 2 and the third is
`Unavailable` there; the headcount of phase 2 fails and `late` is raised. -/
theorem weak_error_per_phase_witness :
    (iteration (fun _ => 1) 0
      (Example.client [Example.weak 1 "boom", Example.promising 2 (.WeakError "late"),
        Example.promising 3 .Unavailable, Example.fresh 4, Example.fresh 5])
      (quorum [Example.weak 1 "boom", Example.promising 2 (.WeakError "late"),
        Example.promising 3 .Unavailable, Example.fresh 4, Example.fresh 5]) "X"
      { version := 1, backoff := 1, replace := none, _round := 0 }).flow
      = .raised (.Foreign "late") :=
  (((weak_error_per_phase (fun _ => 1) 0 0
    (Example.client [Example.weak 1 "boom", Example.promising 2 (.WeakError "late"),
      Example.promising 3 .Unavailable, Example.fresh 4, Example.fresh 5])
    (quorum [Example.weak 1 "boom", Example.promising 2 (.WeakError "late"),
      Example.promising 3 .Unavailable, Example.fresh 4, Example.fresh 5]) "X"
    { version := 1, backoff := 1, replace := none, _round := 0 }).2.1
    { version := 1, backoff := 1, replace := none, _round := 0 + 1 } _ _ _
    (by rfl) rfl (by decide) (by decide)).1 (by decide)).trans (by decide)

end WeakErrors

/-! ## Proposal uniqueness -/

section Uniqueness

variable {Version ClientId Value E : Type} [LinearOrder Version] [LinearOrder ClientId]

/-- Every iteration of the loop of `choose` is the body run at some clock on
some loop variables; its proposal carries the id of the proposer. -/
theorem choose_loop_trace (rnd : Nat → Nat) (c : Client Version ClientId Value E)
    (q : Quorum ClientId) (value : Value) (fuel : Nat) :
    ∀ (now : Nat) (l : Loop Version Value) (it : Iteration Version ClientId Value E),
      it ∈ (choose_loop rnd c q value fuel now l).trace →
      ∃ t l2, it = iteration rnd t c q value l2 ∧ now ≤ t := by
  induction fuel with
  | zero =>
    intro now l it h
    exact absurd h (by simp [choose_loop])
  | succ fuel ih =>
    intro now l it h
    unfold choose_loop at h
    dsimp only at h
    cases hflow : (iteration rnd now c q value l).flow with
    | again =>
      rw [hflow] at h
      dsimp only at h
      rcases List.mem_cons.1 h with h | h
      · exact ⟨now, l, h, le_refl _⟩
      · obtain ⟨t, l2, h1, h2⟩ := ih _ _ _ h
        exact ⟨t, l2, h1, by omega⟩
    | returned ch =>
      rw [hflow] at h
      dsimp only at h
      exact ⟨now, l, List.mem_singleton.1 h, le_refl _⟩
    | raised ex =>
      rw [hflow] at h
      dsimp only at h
      exact ⟨now, l, List.mem_singleton.1 h, le_refl _⟩

/-- Every proposal sent by the loop of `choose` carries the id of the proposer. -/
theorem choose_loop_client (rnd : Nat → Nat) (c : Client Version ClientId Value E)
    (q : Quorum ClientId) (value : Value) (fuel now : Nat) (l : Loop Version Value)
    (it : Iteration Version ClientId Value E)
    (h : it ∈ (choose_loop rnd c q value fuel now l).trace) :
    it.proposal.client = c._id := by
  obtain ⟨t, l2, h1, -⟩ := choose_loop_trace rnd c q value fuel now l it h
  rw [h1, (iteration_next rnd t c q value l2).1]

/-- Two proposals of one client, one below the other, differ in version or in
round. -/
theorem Proposal.pair_ne_of_lt (a b : Proposal Version ClientId) (hc : a.client = b.client)
    (h : a < b) : (a.version, a.round) ≠ (b.version, b.round) := by
  intro he
  simp only [Prod.mk.injEq] at he
  have h2 : Proposal.lt a b := h
  unfold Proposal.lt at h2
  rw [he.1, he.2, hc] at h2
  rcases h2 with h2 | ⟨-, h2 | ⟨-, h2⟩⟩
  · exact absurd h2 (lt_irrefl _)
  · exact absurd h2 (lt_irrefl _)
  · exact absurd h2 (lt_irrefl _)

/-- The proposals of a sequence of calls in which each call ends and is given a
version not below the version of the last proposal sent before it: they are
strictly increasing, starting above the last proposal sent before the
sequence, and they carry the id of the proposer. -/
theorem choose_all_chain (rnd : Nat → Nat) (fuel : Nat) :
    ∀ (calls : List (Version × Value)) (now : Nat) (c : Client Version ClientId Value E)
      (prev : Option (Proposal Version ClientId)),
      (∀ p ∈ prev, p.round = c._round ∧ p.client = c._id) →
      ascending rnd fuel now c (prev.map (fun p => p.version)) calls = true →
      List.Chain' (fun a b => a < b)
        (prev.toList ++ (choose_all rnd fuel now c calls).map (fun it => it.proposal)) ∧
      ∀ it ∈ choose_all rnd fuel now c calls, it.proposal.client = c._id := by
  intro calls
  induction calls with
  | nil =>
    intro now c prev _ _
    refine ⟨?_, fun it h => absurd h (by simp [choose_all])⟩
    cases prev <;> simp [choose_all]
  | cons call rest ih =>
    intro now c prev hprev hasc
    unfold ascending at hasc
    simp only [Bool.and_eq_true] at hasc
    obtain ⟨⟨hfloor, hflow⟩, hrest⟩ := hasc
    have hflow2 : (choose rnd fuel now c call.1 call.2).flow ≠ .again := by
      intro h
      rw [h] at hflow
      exact absurd hflow (by simp)
    obtain ⟨last, h1, h2, h3, h4⟩ := choose_loop_final rnd c (quorum c._peers) call.2 fuel now
      { version := call.1, backoff := 1, replace := none, _round := c._round } hflow2
    have h1b : (choose rnd fuel now c call.1 call.2).trace.getLast? = some last := h1
    have h2b : (choose rnd fuel now c call.1 call.2).client._round = last.proposal.round := h2
    have h3b : (choose rnd fuel now c call.1 call.2).client._id = c._id := h3
    rw [h1b] at hrest
    obtain ⟨ihc, ihid⟩ := ih (choose rnd fuel now c call.1 call.2).now
      (choose rnd fuel now c call.1 call.2).client (some last.proposal)
      (by
        intro p hp
        rw [Option.mem_def, Option.some.injEq] at hp
        rw [← hp, h2b, h3b]
        exact ⟨rfl, h4⟩)
      hrest
    obtain ⟨hch, hhead⟩ := choose_loop_chain rnd c (quorum c._peers) call.2 fuel now
      { version := call.1, backoff := 1, replace := none, _round := c._round }
    have hch2 : List.Chain' (fun a b : Proposal Version ClientId => a < b)
        ((choose rnd fuel now c call.1 call.2).trace.map (fun it => it.proposal)) := hch
    have hhead2 : ∀ p ∈ ((choose rnd fuel now c call.1 call.2).trace.map
        (fun it => it.proposal)).head?,
        p = { version := call.1, round := c._round + 1, client := c._id } := hhead
    have hne : (choose rnd fuel now c call.1 call.2).trace ≠ [] := by
      intro h
      rw [h] at h1b
      exact absurd h1b (by simp)
    have hall : List.Chain' (fun a b : Proposal Version ClientId => a < b)
        ((choose_all rnd fuel now c (call :: rest)).map (fun it => it.proposal)) := by
      unfold choose_all
      rw [List.map_append]
      refine List.Chain'.append hch2 ?_ ?_
      · exact (List.chain'_cons'.1 ihc).2
      · intro x hx y hy
        rw [List.getLast?_map, h1b] at hx
        simp only [Option.map_some', Option.mem_def, Option.some.injEq] at hx
        rw [← hx]
        exact (List.chain'_cons'.1 ihc).1 y hy
    refine ⟨?_, ?_⟩
    · cases prev with
      | none => exact hall
      | some p =>
        rw [Option.toList_some, List.singleton_append, List.chain'_cons']
        refine ⟨?_, hall⟩
        intro y hy
        unfold choose_all at hy
        rw [List.map_append, List.head?_append_of_ne_nil _ (by simpa using hne)] at hy
        rw [hhead2 y hy]
        obtain ⟨hr, hc⟩ := hprev p rfl
        have hv : p.version ≤ call.1 := by simpa using hfloor
        show Proposal.lt _ _
        unfold Proposal.lt
        dsimp only
        rcases lt_or_eq_of_le hv with hlt | heq
        · exact Or.inl hlt
        · exact Or.inr ⟨heq, Or.inl (by omega)⟩
    · intro it hit
      unfold choose_all at hit
      rcases List.mem_append.1 hit with h | h
      · exact choose_loop_client rnd c (quorum c._peers) call.2 fuel now _ it h
      · rw [ihid it h, h3b]

/-- Strictly increasing proposals of one client have pairwise distinct
`(version, round)` pairs. -/
theorem nodup_of_chain (id : ClientId) (L : List (Proposal Version ClientId))
    (hc : List.Chain' (fun a b => a < b) L) (hid : ∀ p ∈ L, p.client = id) :
    (L.map (fun p => (p.version, p.round))).Nodup := by
  have hp := (@List.chain'_iff_pairwise _ (fun a b : Proposal Version ClientId => a < b)
    ⟨fun _ _ _ => Proposal.lt_chain⟩ _).1 hc
  unfold List.Nodup
  rw [List.pairwise_map]
  refine List.Pairwise.imp_of_mem ?_ hp
  intro a b ha hb hlt
  exact Proposal.pair_ne_of_lt a b (by rw [hid a ha, hid b hb]) hlt

/-- C16, counterexample: client `7` calls `choose(1, "X")` and then
`choose(1, "Y")` on three peers that have seen `(2, 1, 5)`.  The first call
sends `(1, 1, 7)`, adopts version `2` and round `1`, sends `(2, 2, 7)` while
the first two peers are `Unavailable`, and fails with `TooFewPeers(1, 3)`.  The
second call sends `(1, 3, 7)` to the first two peers, which have not seen
`(2, 2, 7)`, adopts version `2` and round `1` again, and sends `(2, 2, 7)` a
second time. -/
theorem proposal_sent_twice :
    (choose_all (fun _ => 1) 3 0
        (Example.client [Example.absent 1 { version := 2, round := 1, client := 5 } 1,
          Example.absent 2 { version := 2, round := 1, client := 5 } 1,
          Example.absent 3 { version := 2, round := 1, client := 5 } 2])
        [(1, "X"), (1, "Y")]).map (fun it => (it.proposal.version, it.proposal.round))
      = [(1, 1), (2, 2), (1, 3), (2, 2)] ∧
    ¬ ((choose_all (fun _ => 1) 3 0
        (Example.client [Example.absent 1 { version := 2, round := 1, client := 5 } 1,
          Example.absent 2 { version := 2, round := 1, client := 5 } 1,
          Example.absent 3 { version := 2, round := 1, client := 5 } 2])
        [(1, "X"), (1, "Y")]).map (fun it => (it.proposal.version, it.proposal.round))).Nodup ∧
    (choose_all (fun _ => 1) 3 0
        (Example.client [Example.absent 1 { version := 2, round := 1, client := 5 } 1,
          Example.absent 2 { version := 2, round := 1, client := 5 } 1,
          Example.absent 3 { version := 2, round := 1, client := 5 } 2])
        [(1, "X"), (1, "Y")]).map (fun it => it.flow)
      = [.again, .raised (.TooFewPeers 1 3), .again,
         .returned (Choice.ofProposal { version := 2, round := 2, client := 7 })] := by
  decide

/-- C16, amended: within one call of `choose` the `(version, round)` pairs of
the proposals sent in the prepare phases are pairwise distinct.  Across a
sequence of calls on one proposer they are pairwise distinct when every call
ends and every call after the first is given a version that is not below the
version of the last proposal sent by the call before it. -/
theorem proposals_distinct (rnd : Nat → Nat) (fuel now : Nat)
    (c : Client Version ClientId Value E) :
    (∀ (version : Version) (value : Value),
      ((choose rnd fuel now c version value).trace.map
        (fun it => (it.proposal.version, it.proposal.round))).Nodup) ∧
    (∀ calls : List (Version × Value), ascending rnd fuel now c none calls = true →
      ((choose_all rnd fuel now c calls).map
        (fun it => (it.proposal.version, it.proposal.round))).Nodup) := by
  constructor
  · intro version value
    have hch := (choose_loop_chain rnd c (quorum c._peers) value fuel now
      { version := version, backoff := 1, replace := none, _round := c._round }).1
    have h := nodup_of_chain c._id _ hch (by
      intro p hp
      obtain ⟨it, hit, rfl⟩ := List.mem_map.1 hp
      exact choose_loop_client rnd c (quorum c._peers) value fuel now _ it hit)
    rw [List.map_map] at h
    exact h
  · intro calls hasc
    obtain ⟨hch, hid⟩ := choose_all_chain rnd fuel calls now c none
      (fun p hp => absurd hp (by simp)) hasc
    have h := nodup_of_chain c._id _ hch (by
      intro p hp
      rw [Option.toList_none, List.nil_append] at hp
      obtain ⟨it, hit, rfl⟩ := List.mem_map.1 hp
      exact hid it hit)
    rw [Option.toList_none, List.nil_append, List.map_map] at h
    exact h

/-- Witness of `proposals_distinct`: on the peers of the counterexample, the
calls `choose(1, "X")` and then `choose(2, "Y")`, the second with the version of
the last proposal sent by the first. -/
theorem proposals_distinct_witness :
    ((choose_all (fun _ => 1) 3 0
        (Example.client [Example.absent 1 { version := 2, round := 1, client := 5 } 1,
          Example.absent 2 { version := 2, round := 1, client := 5 } 1,
          Example.absent 3 { version := 2, round := 1, client := 5 } 2])
        [(1, "X"), (2, "Y")]).map (fun it => (it.proposal.version, it.proposal.round))).Nodup :=
  (proposals_distinct (fun _ => 1) 3 0
    (Example.client [Example.absent 1 { version := 2, round := 1, client := 5 } 1,
      Example.absent 2 { version := 2, round := 1, client := 5 } 1,
      Example.absent 3 { version := 2, round := 1, client := 5 } 2])).2
    [(1, "X"), (2, "Y")] (by decide)

end Uniqueness

/-! ## Legacy wrong quorum -/

section Legacy

variable {Version ClientId Value E : Type} [LinearOrder Version] [LinearOrder ClientId]

/-- The fan-out "get quorum" when some peer raises a `WrongQuorum` without
proposal and the peers raise nothing but `Unavailable`, `WeakError` and
`WrongQuorum`: that `WrongQuorum` escapes the fan-out. -/
theorem get_quorum_legacy (now : Nat) (q : Quorum ClientId)
    (peers : List (Peer Version ClientId Value E)) :
    ∀ (i : Nat) (s : Reading Version ClientId Value E),
      (∀ w, s.wrong_quorum = some w → w.proposal ≠ none) →
      (∀ peer ∈ peers, ∀ x, peer.get now q = .error x →
        x = .Unavailable ∨ (∃ e, x = .WeakError e) ∨ ∃ w, x = .WrongQuorum w) →
      (∃ peer ∈ peers, peer.get now q = .error (.WrongQuorum { proposal := none })) →
      (get_quorum now q peers i s).raised = some (.WrongQuorum { proposal := none }) := by
  induction peers with
  | nil =>
    intro i s _ _ hex
    obtain ⟨peer, hp, -⟩ := hex
    exact absurd hp (by simp)
  | cons peer rest ih =>
    intro i s hw hcontract hex
    have hrest : ∀ peer2 ∈ rest, ∀ x, peer2.get now q = .error x →
        x = .Unavailable ∨ (∃ e, x = .WeakError e) ∨ ∃ w, x = .WrongQuorum w :=
      fun peer2 h2 => hcontract peer2 (List.mem_cons_of_mem _ h2)
    have hnext : peer.get now q ≠ .error (.WrongQuorum { proposal := none }) →
        ∃ peer2 ∈ rest, peer2.get now q = .error (.WrongQuorum { proposal := none }) := by
      intro hne
      obtain ⟨peer2, h2, hget⟩ := hex
      rcases List.mem_cons.1 h2 with h | h
      · rw [h] at hget; exact absurd hget hne
      · exact ⟨peer2, h, hget⟩
    unfold get_quorum
    dsimp only
    cases hr : peer.get now q with
    | ok accepted =>
      dsimp only
      exact ih _ _ hw hrest (hnext (by rw [hr]; simp))
    | error ex =>
      rcases hcontract peer (List.mem_cons_self _ _) ex hr with h | ⟨e, h⟩ | ⟨w, h⟩
      · subst h
        dsimp only
        exact ih _ _ hw hrest (hnext (by rw [hr]; simp))
      · subst h
        dsimp only
        exact ih _ _ hw hrest (hnext (by rw [hr]; simp))
      · subst h
        dsimp only
        cases hwp : w.proposal with
        | none =>
          dsimp only
          have : w = { proposal := none } := by
            cases w; simp only at hwp; rw [hwp]
          rw [this]
        | some ep =>
          have hne : peer.get now q ≠ .error (.WrongQuorum { proposal := none }) := by
            rw [hr]
            intro h
            simp only [Except.error.injEq, Exn.WrongQuorum.injEq] at h
            rw [h] at hwp
            exact absurd hwp (by simp)
          dsimp only
          cases hsw : s.wrong_quorum with
          | none =>
            dsimp only
            refine ih _ _ ?_ hrest (hnext hne)
            intro w2 h2
            simp only [Option.some.injEq] at h2
            rw [← h2, hwp]
            simp
          | some w0 =>
            dsimp only
            cases hw0 : w0.proposal with
            | none => exact absurd hw0 (hw w0 hsw)
            | some wp =>
              dsimp only
              refine ih _ _ ?_ hrest (hnext hne)
              intro w2 h2
              dsimp only at h2
              by_cases hlt : wp < ep
              · rw [if_pos hlt, Option.some.injEq] at h2
                rw [← h2, hwp]
                simp
              · rw [if_neg hlt, Option.some.injEq] at h2
                rw [← h2, hw0]
                simp

/-- C17: legacy wrong quorum.  When the peers raise on `get` nothing but
`Unavailable`, `WeakError` and `WrongQuorum`, and some peer raises a
`WrongQuorum` that carries no proposal, `state()` raises that `WrongQuorum`,
whatever the other peers answer and however many peers are reached. -/
theorem legacy_wrong_quorum (now : Nat) (c : Client Version ClientId Value E)
    (hcontract : ∀ peer ∈ c._peers, ∀ x, peer.get now (quorum c._peers) = .error x →
      x = .Unavailable ∨ (∃ e, x = .WeakError e) ∨ ∃ w, x = .WrongQuorum w)
    (hex : ∃ peer ∈ c._peers,
      peer.get now (quorum c._peers) = .error (.WrongQuorum { proposal := none })) :
    (state now c).result = .error (.WrongQuorum { proposal := none }) := by
  have h := get_quorum_legacy now (quorum c._peers) c._peers 0
    { reached := 0, res := none, wrong_quorum := none, weak_error := none, events := [],
      raised := none }
    (fun w hw => absurd hw (by simp)) hcontract hex
  unfold state state_result fan_out_get
  dsimp only
  rw [h]

/-- Witness of `legacy_wrong_quorum`: two peers hold an accepted value, one
raises a `WrongQuorum` with the proposal `(9, 9, 9)`, one raises a `WrongQuorum`
without proposal, one is `Unavailable`. -/
theorem legacy_wrong_quorum_witness :
    (state 0 (Example.client
      [Example.accepted 1 { version := 1, round := 1, client := 5 } "X",
       Example.wrong 2 { version := 9, round := 9, client := 9 },
       Example.accepted 3 { version := 3, round := 1, client := 5 } "Y",
       Example.legacy 4, Example.down 5])).result
      = .error (.WrongQuorum { proposal := none }) :=
  legacy_wrong_quorum 0
    (Example.client
      [Example.accepted 1 { version := 1, round := 1, client := 5 } "X",
       Example.wrong 2 { version := 9, round := 9, client := 9 },
       Example.accepted 3 { version := 3, round := 1, client := 5 } "Y",
       Example.legacy 4, Example.down 5])
    (by
      intro peer hp x hx
      simp only [Example.client, List.mem_cons, List.mem_singleton, List.not_mem_nil,
        or_false] at hp
      rcases hp with rfl | rfl | rfl | rfl | rfl
      · exact absurd hx (by simp [Example.accepted])
      · exact Or.inr (Or.inr ⟨_, (Except.error.inj hx).symm⟩)
      · exact absurd hx (by simp [Example.accepted])
      · exact Or.inr (Or.inr ⟨_, (Except.error.inj hx).symm⟩)
      · exact Or.inl (Except.error.inj hx).symm)
    ⟨Example.legacy 4, by simp [Example.client], rfl⟩

end Legacy

/-! ## Confirmed short-circuit -/

section ShortCircuit

variable {Version ClientId Value E : Type} [LinearOrder Version] [LinearOrder ClientId]

/-- `find_if` finds an element when one satisfies the predicate. -/
theorem find_if_of_exists {α : Type} (pred : α → Bool) (xs : List α)
    (h : ∃ x ∈ xs, pred x = true) : ∃ r, find_if pred xs = some r := by
  induction xs with
  | nil =>
    obtain ⟨x, hx, -⟩ := h
    exact absurd hx (by simp)
  | cons y ys ih =>
    unfold find_if
    by_cases hp : pred y = true
    · rw [if_pos hp]
      exact ⟨y, rfl⟩
    · rw [if_neg hp]
      obtain ⟨x, hx, hpx⟩ := h
      rcases List.mem_cons.1 hx with hx | hx
      · rw [hx] at hpx; exact absurd hpx hp
      · exact ih ⟨x, hx, hpx⟩

/-- C18: confirmed short-circuit.  In an iteration of `choose` whose phase-1
fan-out completes, when some response carries an accepted value and is flagged
confirmed, and the responses satisfy the invariant of `Response` (confirmed
implies value and proposal present), the iteration returns, and so does the
call, a `Choice` made of the proposal and the value of the first such
response; the dereference of its proposal does not fail.  The headcount is not
applied (nothing is assumed on the number of peers reached), and the only
calls of the iteration are the `propose` calls. -/
theorem confirmed_short_circuit (rnd : Nat → Nat) (now fuel : Nat)
    (c : Client Version ClientId Value E) (q : Quorum ClientId) (value : Value)
    (l : Loop Version Value)
    (hraised : (fan_out_proposal now q
      { version := l.version, round := l._round + 1, client := c._id } c._peers).raised = none)
    (hconf : ∃ r ∈ (fan_out_proposal now q
      { version := l.version, round := l._round + 1, client := c._id } c._peers).responses,
      r.value.isSome = true ∧ r.confirmed = true)
    (hinv : ∀ r ∈ (fan_out_proposal now q
      { version := l.version, round := l._round + 1, client := c._id } c._peers).responses,
      r.confirmed = true → r.value.isSome = true ∧ r.proposal.isSome = true) :
    ∃ r rp rv,
      find_if confirmed (fan_out_proposal now q
        { version := l.version, round := l._round + 1, client := c._id } c._peers).responses
        = some r ∧
      r.value.isSome = true ∧ r.confirmed = true ∧
      r.proposal = some rp ∧ r.value = some rv ∧
      (iteration rnd now c q value l).flow = .returned (Choice.ofProposalValue rp rv) ∧
      (∀ e ∈ (iteration rnd now c q value l).events,
        ∃ j rep, e = Event.propose j q
          { version := l.version, round := l._round + 1, client := c._id } rep) ∧
      (choose_loop rnd c q value (fuel + 1) now l).flow
        = .returned (Choice.ofProposalValue rp rv) := by
  obtain ⟨r, hfind⟩ := find_if_of_exists confirmed _ (by
    obtain ⟨r, hr, hv, hc⟩ := hconf
    exact ⟨r, hr, by unfold confirmed; rw [hv, hc]; rfl⟩)
  obtain ⟨hmem, hcr⟩ := find_if_some confirmed _ r hfind
  unfold confirmed at hcr
  rw [Bool.and_eq_true] at hcr
  obtain ⟨-, hp⟩ := hinv r hmem hcr.2
  obtain ⟨rp, hrp⟩ := Option.isSome_iff_exists.1 hp
  obtain ⟨rv, hrv⟩ := Option.isSome_iff_exists.1 hcr.1
  have hprep : prepare now c q { version := l.version, round := l._round + 1, client := c._id }
      { l with _round := l._round + 1 }
      = .done (.returned (Choice.ofProposalValue rp rv)) { l with _round := l._round + 1 }
          (fan_out_proposal now q
            { version := l.version, round := l._round + 1, client := c._id } c._peers).events := by
    unfold prepare
    dsimp only
    rw [hraised]
    dsimp only
    rw [hfind]
    dsimp only
    rw [hrp, hrv]
  have hit := iteration_of_done rnd now c q value l _ _ _ hprep
  have hflow : (iteration rnd now c q value l).flow
      = .returned (Choice.ofProposalValue rp rv) := by rw [hit]
  refine ⟨r, rp, rv, hfind, hcr.1, hcr.2, hrp, hrv, hflow, ?_, ?_⟩
  · intro e he
    rw [hit] at he
    exact fan_out_proposal_events now q _ c._peers e he
  · unfold choose_loop
    dsimp only
    rw [hflow]

/-- Witness of `confirmed_short_circuit`: four of five peers are `Unavailable`
and the fifth reports `"Y"` at `(1, 1, 5)` as confirmed; one peer is reached,
which is not a majority, and the iteration returns. -/
theorem confirmed_short_circuit_witness :
    ∃ rp rv,
      (iteration (fun _ => 1) 0
        (Example.client [Example.down 1, Example.down 2, Example.down 3, Example.down 4,
          Example.decided 5 { version := 1, round := 1, client := 5 } "Y"])
        (quorum [Example.down 1, Example.down 2, Example.down 3, Example.down 4,
          Example.decided 5 { version := 1, round := 1, client := 5 } "Y"]) "X"
        { version := 1, backoff := 1, replace := none, _round := 0 }).flow
        = .returned (Choice.ofProposalValue rp rv) :=
  match confirmed_short_circuit (fun _ => 1) 0 0
    (Example.client [Example.down 1, Example.down 2, Example.down 3, Example.down 4,
      Example.decided 5 { version := 1, round := 1, client := 5 } "Y"])
    (quorum [Example.down 1, Example.down 2, Example.down 3, Example.down 4,
      Example.decided 5 { version := 1, round := 1, client := 5 } "Y"]) "X"
    { version := 1, backoff := 1, replace := none, _round := 0 }
    (by decide)
    ⟨{ proposal := some { version := 1, round := 1, client := 5 }, value := some "Y",
       confirmed := true }, by decide, by decide, by decide⟩
    (by decide) with
  | ⟨_, rp, rv, h⟩ => ⟨rp, rv, h.2.2.2.2.2.1⟩

end ShortCircuit

/-! ## Unavailable peers -/

section Exclusion

variable {Version ClientId Value E : Type} [LinearOrder Version] [LinearOrder ClientId]

/-- The fan-out "send proposal" keeps the peers already excluded. -/
theorem send_proposal_unavailables_mono (now : Nat) (q : Quorum ClientId)
    (proposal : Proposal Version ClientId) (peers : List (Peer Version ClientId Value E)) :
    ∀ (i : Nat) (s : Prepare Version ClientId Value E) (j : Nat),
      j ∈ s.unavailables → j ∈ (send_proposal now q proposal peers i s).unavailables := by
  induction peers with
  | nil => intro i s j h; exact h
  | cons peer rest ih =>
    intro i s j h
    unfold send_proposal
    dsimp only
    cases hr : peer.propose now q proposal with
    | ok response => exact ih _ _ j h
    | error ex =>
      cases ex <;> dsimp only <;>
        first
        | exact h
        | (apply ih; dsimp only; exact List.mem_append_left _ h)

/-- In "send proposal", a peer whose `propose` raises `Unavailable` or
`WeakError` is excluded. -/
theorem send_proposal_excludes (now : Nat) (q : Quorum ClientId)
    (proposal : Proposal Version ClientId) (peers : List (Peer Version ClientId Value E)) :
    ∀ (i : Nat) (s : Prepare Version ClientId Value E) (j : Nat) (q2 : Quorum ClientId)
      (p2 : Proposal Version ClientId) (x : Exn Version ClientId E),
      Event.propose j q2 p2 (.error x) ∈ (send_proposal now q proposal peers i s).events →
      x.caught = true →
      Event.propose j q2 p2 (.error x) ∈ s.events ∨
        j ∈ (send_proposal now q proposal peers i s).unavailables := by
  induction peers with
  | nil => intro i s j q2 p2 x h _; exact Or.inl h
  | cons peer rest ih =>
    intro i s j q2 p2 x h hx
    unfold send_proposal at h ⊢
    dsimp only at h ⊢
    cases hr : peer.propose now q proposal with
    | ok response =>
      rw [hr] at h
      dsimp only at h ⊢
      rcases ih _ _ j q2 p2 x h hx with h2 | h2
      · dsimp only at h2
        rw [List.mem_append, List.mem_singleton] at h2
        rcases h2 with h2 | h2
        · exact Or.inl h2
        · exact absurd h2 (by simp)
      · exact Or.inr h2
    | error ex =>
      rw [hr] at h
      cases ex with
      | Unavailable =>
        dsimp only at h ⊢
        rcases ih _ _ j q2 p2 x h hx with h2 | h2
        · dsimp only at h2
          rw [List.mem_append, List.mem_singleton] at h2
          rcases h2 with h2 | h2
          · exact Or.inl h2
          · simp only [Event.propose.injEq] at h2
            right
            apply send_proposal_unavailables_mono
            dsimp only
            rw [h2.1]
            simp
        · exact Or.inr h2
      | WeakError e =>
        dsimp only at h ⊢
        rcases ih _ _ j q2 p2 x h hx with h2 | h2
        · dsimp only at h2
          rw [List.mem_append, List.mem_singleton] at h2
          rcases h2 with h2 | h2
          · exact Or.inl h2
          · simp only [Event.propose.injEq] at h2
            right
            apply send_proposal_unavailables_mono
            dsimp only
            rw [h2.1]
            simp
        · exact Or.inr h2
      | WrongQuorum w =>
        dsimp only at h ⊢
        rw [List.mem_append, List.mem_singleton] at h
        rcases h with h | h
        · exact Or.inl h
        · simp only [Event.propose.injEq, Except.error.injEq] at h
          rw [h.2.2.2] at hx
          exact absurd hx (by simp [Exn.caught])
      | TooFewPeers a b =>
        dsimp only at h ⊢
        rw [List.mem_append, List.mem_singleton] at h
        rcases h with h | h
        · exact Or.inl h
        · simp only [Event.propose.injEq, Except.error.injEq] at h
          rw [h.2.2.2] at hx
          exact absurd hx (by simp [Exn.caught])
      | Foreign e =>
        dsimp only at h ⊢
        rw [List.mem_append, List.mem_singleton] at h
        rcases h with h | h
        · exact Or.inl h
        · simp only [Event.propose.injEq, Except.error.injEq] at h
          rw [h.2.2.2] at hx
          exact absurd hx (by simp [Exn.caught])
      | AssertError =>
        dsimp only at h ⊢
        rw [List.mem_append, List.mem_singleton] at h
        rcases h with h | h
        · exact Or.inl h
        · simp only [Event.propose.injEq, Except.error.injEq] at h
          rw [h.2.2.2] at hx
          exact absurd hx (by simp [Exn.caught])

/-- When no exception other than `Unavailable` and `WeakError` is raised, "send
proposal" calls every peer. -/
theorem send_proposal_contacts (now : Nat) (q : Quorum ClientId)
    (proposal : Proposal Version ClientId) (peers : List (Peer Version ClientId Value E)) :
    ∀ (i : Nat) (s : Prepare Version ClientId Value E),
      (∀ j q2 p2 x, Event.propose j q2 p2 (.error x)
          ∈ (send_proposal now q proposal peers i s).events → x.caught = true) →
      ∀ k, k < peers.length →
        ∃ rep, Event.propose (i + k) q proposal rep
          ∈ (send_proposal now q proposal peers i s).events := by
  induction peers with
  | nil => intro i s _ k hk; exact absurd hk (by simp)
  | cons peer rest ih =>
    intro i s hall k hk
    have hhere : ∀ s2 : Prepare Version ClientId Value E,
        Event.propose i q proposal (peer.propose now q proposal) ∈ s2.events →
        (∀ j q2 p2 x, Event.propose j q2 p2 (.error x)
          ∈ (send_proposal now q proposal rest (i + 1) s2).events → x.caught = true) →
        ∃ rep, Event.propose (i + k) q proposal rep
          ∈ (send_proposal now q proposal rest (i + 1) s2).events := by
      intro s2 hmem hall2
      cases k with
      | zero => exact ⟨_, send_proposal_events_mono now q proposal rest _ _ _ hmem⟩
      | succ k2 =>
        obtain ⟨rep, hrep⟩ := ih (i + 1) s2 hall2 k2 (by simpa using hk)
        refine ⟨rep, ?_⟩
        have e : i + (k2 + 1) = i + 1 + k2 := by omega
        rw [e]
        exact hrep
    unfold send_proposal at hall ⊢
    dsimp only at hall ⊢
    cases hr : peer.propose now q proposal with
    | ok response =>
      rw [hr] at hall hhere
      dsimp only at hall ⊢
      exact hhere _ (by simp) hall
    | error ex =>
      rw [hr] at hall hhere
      cases ex with
      | Unavailable =>
        dsimp only at hall ⊢
        exact hhere _ (by simp) hall
      | WeakError e =>
        dsimp only at hall ⊢
        exact hhere _ (by simp) hall
      | WrongQuorum w =>
        dsimp only at hall
        exact absurd (hall i q proposal (.WrongQuorum w) (by simp)) (by simp [Exn.caught])
      | TooFewPeers a b =>
        dsimp only at hall
        exact absurd (hall i q proposal (.TooFewPeers a b) (by simp)) (by simp [Exn.caught])
      | Foreign e =>
        dsimp only at hall
        exact absurd (hall i q proposal (.Foreign e) (by simp)) (by simp [Exn.caught])
      | AssertError =>
        dsimp only at hall
        exact absurd (hall i q proposal .AssertError (by simp)) (by simp [Exn.caught])

/-- The fan-out "send acceptation" keeps the peers already excluded. -/
theorem send_acceptation_unavailables_mono (now : Nat) (q : Quorum ClientId)
    (proposal : Proposal Version ClientId) (v : Value)
    (peers : List (Peer Version ClientId Value E)) :
    ∀ (i : Nat) (s : Acceptation Version ClientId Value E) (j : Nat),
      j ∈ s.unavailables → j ∈ (send_acceptation now q proposal v peers i s).unavailables := by
  induction peers with
  | nil => intro i s j h; exact h
  | cons peer rest ih =>
    intro i s j h
    unfold send_acceptation
    by_cases hu : i ∈ s.unavailables
    · rw [if_pos hu]
      exact ih _ _ j h
    · rw [if_neg hu]
      dsimp only
      cases hr : peer.accept now q proposal v with
      | ok minimum =>
        dsimp only
        by_cases hc : proposal < minimum
        · rw [if_pos hc]; exact h
        · rw [if_neg hc]; exact ih _ _ j h
      | error ex =>
        cases ex <;> dsimp only <;>
          first
          | exact h
          | (apply ih; dsimp only; exact List.mem_append_left _ h)

/-- The fan-out "send acceptation" calls no peer that is excluded on entry. -/
theorem send_acceptation_skips (now : Nat) (q : Quorum ClientId)
    (proposal : Proposal Version ClientId) (v : Value)
    (peers : List (Peer Version ClientId Value E)) :
    ∀ (i : Nat) (s : Acceptation Version ClientId Value E) (j : Nat) (q2 : Quorum ClientId)
      (p2 : Proposal Version ClientId) (v2 : Value)
      (rep : Reply Version ClientId E (Proposal Version ClientId)),
      Event.accept j q2 p2 v2 rep ∈ (send_acceptation now q proposal v peers i s).events →
      Event.accept j q2 p2 v2 rep ∈ s.events ∨ j ∉ s.unavailables := by
  induction peers with
  | nil => intro i s j q2 p2 v2 rep h; exact Or.inl h
  | cons peer rest ih =>
    intro i s j q2 p2 v2 rep h
    unfold send_acceptation at h
    by_cases hu : i ∈ s.unavailables
    · rw [if_pos hu] at h
      exact ih _ _ j q2 p2 v2 rep h
    · rw [if_neg hu] at h
      dsimp only at h
      have hstep : ∀ (evs : List (Event Version ClientId Value E)) (un : List Nat),
          evs = s.events ++ [Event.accept i q proposal v (peer.accept now q proposal v)] →
          (∀ j2, j2 ∈ s.unavailables → j2 ∈ un) →
          (Event.accept j q2 p2 v2 rep ∈ evs ∨ j ∉ un) →
          Event.accept j q2 p2 v2 rep ∈ s.events ∨ j ∉ s.unavailables := by
        intro evs un he hsub h2
        rcases h2 with h2 | h2
        · rw [he, List.mem_append, List.mem_singleton] at h2
          rcases h2 with h2 | h2
          · exact Or.inl h2
          · simp only [Event.accept.injEq] at h2
            rw [h2.1]
            exact Or.inr hu
        · exact Or.inr (fun hj => h2 (hsub j hj))
      cases hr : peer.accept now q proposal v with
      | ok minimum =>
        rw [hr] at h hstep
        dsimp only at h
        by_cases hc : proposal < minimum
        · rw [if_pos hc] at h
          exact hstep _ s.unavailables rfl (fun _ hj => hj) (Or.inl h)
        · rw [if_neg hc] at h
          exact hstep _ s.unavailables rfl (fun _ hj => hj) (ih _ _ j q2 p2 v2 rep h)
      | error ex =>
        rw [hr] at h hstep
        cases ex <;> dsimp only at h <;>
          first
          | exact hstep _ (s.unavailables ++ [i]) rfl (fun _ hj => List.mem_append_left _ hj) (ih _ _ j q2 p2 v2 rep h)
          | exact hstep _ s.unavailables rfl (fun _ hj => hj) (Or.inl h)

/-- In "send acceptation", a peer whose `accept` raises `Unavailable` or
`WeakError` is excluded. -/
theorem send_acceptation_excludes (now : Nat) (q : Quorum ClientId)
    (proposal : Proposal Version ClientId) (v : Value)
    (peers : List (Peer Version ClientId Value E)) :
    ∀ (i : Nat) (s : Acceptation Version ClientId Value E) (j : Nat) (q2 : Quorum ClientId)
      (p2 : Proposal Version ClientId) (v2 : Value) (x : Exn Version ClientId E),
      Event.accept j q2 p2 v2 (.error x) ∈ (send_acceptation now q proposal v peers i s).events →
      x.caught = true →
      Event.accept j q2 p2 v2 (.error x) ∈ s.events ∨
        j ∈ (send_acceptation now q proposal v peers i s).unavailables := by
  induction peers with
  | nil => intro i s j q2 p2 v2 x h _; exact Or.inl h
  | cons peer rest ih =>
    intro i s j q2 p2 v2 x h hx
    unfold send_acceptation at h ⊢
    by_cases hu : i ∈ s.unavailables
    · rw [if_pos hu] at h ⊢
      exact ih _ _ j q2 p2 v2 x h hx
    · rw [if_neg hu] at h ⊢
      dsimp only at h ⊢
      cases hr : peer.accept now q proposal v with
      | ok minimum =>
        rw [hr] at h
        dsimp only at h ⊢
        by_cases hc : proposal < minimum
        · rw [if_pos hc] at h ⊢
          dsimp only at h ⊢
          rw [List.mem_append, List.mem_singleton] at h
          rcases h with h | h
          · exact Or.inl h
          · exact absurd h (by simp)
        · rw [if_neg hc] at h ⊢
          rcases ih _ _ j q2 p2 v2 x h hx with h2 | h2
          · dsimp only at h2
            rw [List.mem_append, List.mem_singleton] at h2
            rcases h2 with h2 | h2
            · exact Or.inl h2
            · exact absurd h2 (by simp)
          · exact Or.inr h2
      | error ex =>
        rw [hr] at h
        cases ex with
        | Unavailable =>
          dsimp only at h ⊢
          rcases ih _ _ j q2 p2 v2 x h hx with h2 | h2
          · dsimp only at h2
            rw [List.mem_append, List.mem_singleton] at h2
            rcases h2 with h2 | h2
            · exact Or.inl h2
            · simp only [Event.accept.injEq] at h2
              right
              apply send_acceptation_unavailables_mono
              dsimp only
              rw [h2.1]
              simp
          · exact Or.inr h2
        | WeakError e =>
          dsimp only at h ⊢
          rcases ih _ _ j q2 p2 v2 x h hx with h2 | h2
          · dsimp only at h2
            rw [List.mem_append, List.mem_singleton] at h2
            rcases h2 with h2 | h2
            · exact Or.inl h2
            · simp only [Event.accept.injEq] at h2
              right
              apply send_acceptation_unavailables_mono
              dsimp only
              rw [h2.1]
              simp
          · exact Or.inr h2
        | WrongQuorum w =>
          dsimp only at h ⊢
          rw [List.mem_append, List.mem_singleton] at h
          rcases h with h | h
          · exact Or.inl h
          · simp only [Event.accept.injEq, Except.error.injEq] at h
            rw [h.2.2.2.2] at hx
            exact absurd hx (by simp [Exn.caught])
        | TooFewPeers a b =>
          dsimp only at h ⊢
          rw [List.mem_append, List.mem_singleton] at h
          rcases h with h | h
          · exact Or.inl h
          · simp only [Event.accept.injEq, Except.error.injEq] at h
            rw [h.2.2.2.2] at hx
            exact absurd hx (by simp [Exn.caught])
        | Foreign e =>
          dsimp only at h ⊢
          rw [List.mem_append, List.mem_singleton] at h
          rcases h with h | h
          · exact Or.inl h
          · simp only [Event.accept.injEq, Except.error.injEq] at h
            rw [h.2.2.2.2] at hx
            exact absurd hx (by simp [Exn.caught])
        | AssertError =>
          dsimp only at h ⊢
          rw [List.mem_append, List.mem_singleton] at h
          rcases h with h | h
          · exact Or.inl h
          · simp only [Event.accept.injEq, Except.error.injEq] at h
            rw [h.2.2.2.2] at hx
            exact absurd hx (by simp [Exn.caught])

/-- The fan-out "send confirmation" calls no peer that is excluded on entry. -/
theorem send_confirmation_skips (now : Nat) (q : Quorum ClientId)
    (proposal : Proposal Version ClientId) (peers : List (Peer Version ClientId Value E)) :
    ∀ (i : Nat) (s : Confirmation Version ClientId Value E) (j : Nat) (q2 : Quorum ClientId)
      (p2 : Proposal Version ClientId) (rep : Reply Version ClientId E Unit),
      Event.confirm j q2 p2 rep ∈ (send_confirmation now q proposal peers i s).events →
      Event.confirm j q2 p2 rep ∈ s.events ∨ j ∉ s.unavailables := by
  induction peers with
  | nil => intro i s j q2 p2 rep h; exact Or.inl h
  | cons peer rest ih =>
    intro i s j q2 p2 rep h
    unfold send_confirmation at h
    by_cases hu : i ∈ s.unavailables
    · rw [if_pos hu] at h
      exact ih _ _ j q2 p2 rep h
    · rw [if_neg hu] at h
      dsimp only at h
      have hstep : ∀ (evs : List (Event Version ClientId Value E)) (un : List Nat),
          evs = s.events ++ [Event.confirm i q proposal (peer.confirm now q proposal)] →
          (∀ j2, j2 ∈ s.unavailables → j2 ∈ un) →
          (Event.confirm j q2 p2 rep ∈ evs ∨ j ∉ un) →
          Event.confirm j q2 p2 rep ∈ s.events ∨ j ∉ s.unavailables := by
        intro evs un he hsub h2
        rcases h2 with h2 | h2
        · rw [he, List.mem_append, List.mem_singleton] at h2
          rcases h2 with h2 | h2
          · exact Or.inl h2
          · simp only [Event.confirm.injEq] at h2
            rw [h2.1]
            exact Or.inr hu
        · exact Or.inr (fun hj => h2 (hsub j hj))
      cases hr : peer.confirm now q proposal with
      | ok u1 =>
        rw [hr] at h hstep
        dsimp only at h
        exact hstep _ s.unavailables rfl (fun _ hj => hj) (ih _ _ j q2 p2 rep h)
      | error ex =>
        rw [hr] at h hstep
        cases ex <;> dsimp only at h <;>
          first
          | exact hstep _ (s.unavailables ++ [i]) rfl (fun _ hj => List.mem_append_left _ hj) (ih _ _ j q2 p2 rep h)
          | exact hstep _ s.unavailables rfl (fun _ hj => hj) (Or.inl h)

/-- A `confirm` call recorded by an iteration is recorded by the fan-out "send
confirmation", run on what "send acceptation" leaves. -/
theorem accept_confirm_confirm_event (rnd : Nat → Nat) (now : Nat)
    (c : Client Version ClientId Value E) (q : Quorum ClientId) (value : Value)
    (proposal : Proposal Version ClientId) (l : Loop Version Value) (unavailables : List Nat)
    (events : List (Event Version ClientId Value E))
    (a : Acceptation Version ClientId Value E)
    (ha : a = send_acceptation now q proposal (replace_or l.replace value) c._peers 0
      { reached := 0, conflicted := false, weak_error := none, unavailables := unavailables,
        version := l.version, _round := l._round, events := events, raised := none })
    (j : Nat) (q2 : Quorum ClientId) (p2 : Proposal Version ClientId)
    (rep : Reply Version ClientId E Unit)
    (h : Event.confirm j q2 p2 rep
      ∈ (accept_confirm rnd now c q value proposal l unavailables events).events) :
    Event.confirm j q2 p2 rep
      ∈ (send_confirmation now q proposal c._peers 0
          { reached := 0, weak_error := none, unavailables := a.unavailables,
            events := a.events, raised := none }).events := by
  unfold accept_confirm at h
  dsimp only at h
  rw [← ha] at h
  have hmono : Event.confirm j q2 p2 rep ∈ a.events →
      Event.confirm j q2 p2 rep
        ∈ (send_confirmation now q proposal c._peers 0
            { reached := 0, weak_error := none, unavailables := a.unavailables,
              events := a.events, raised := none }).events :=
    fun h2 => send_confirmation_events_mono now q proposal c._peers 0 _ _ h2
  cases hr : a.raised with
  | some ex => rw [hr] at h; exact hmono h
  | none =>
    rw [hr] at h; dsimp only at h
    by_cases hc : a.conflicted = true
    · rw [if_pos hc] at h
      dsimp only at h
      by_cases hb : c._conflict_backoff = true
      · rw [if_pos hb, List.mem_append, List.mem_singleton] at h
        rcases h with h | h
        · exact hmono h
        · exact absurd h (by simp)
      · rw [if_neg hb] at h; exact hmono h
    · rw [if_neg hc] at h
      cases hh : (_check_headcount q a.reached a.weak_error false :
          Except (Exn Version ClientId E) Unit) with
      | error ex => rw [hh] at h; exact hmono h
      | ok u1 =>
        rw [hh] at h; dsimp only at h
        rw [confirm_return_events] at h
        exact h

/-- One iteration and the excluded peers: a peer whose `propose` raised
`Unavailable` or `WeakError` is sent neither `accept` nor `confirm`; a peer
whose `accept` raised one of them is not sent `confirm`; and, when no other
exception is raised by a `propose`, every peer is sent `propose`. -/
theorem iteration_exclusion (rnd : Nat → Nat) (now : Nat) (c : Client Version ClientId Value E)
    (q : Quorum ClientId) (value : Value) (l : Loop Version Value) :
    (∀ j q2 p2 x, Event.propose j q2 p2 (.error x) ∈ (iteration rnd now c q value l).events →
      x.caught = true →
      (∀ q3 p3 v3 rep, Event.accept j q3 p3 v3 rep ∉ (iteration rnd now c q value l).events) ∧
      (∀ q3 p3 rep, Event.confirm j q3 p3 rep ∉ (iteration rnd now c q value l).events)) ∧
    (∀ j q2 p2 v2 x,
      Event.accept j q2 p2 v2 (.error x) ∈ (iteration rnd now c q value l).events →
      x.caught = true →
      ∀ q3 p3 rep, Event.confirm j q3 p3 rep ∉ (iteration rnd now c q value l).events) ∧
    ((∀ j q2 p2 x, Event.propose j q2 p2 (.error x) ∈ (iteration rnd now c q value l).events →
        x.caught = true) →
      ∀ j, j < c._peers.length →
        ∃ rep, Event.propose j q (iteration rnd now c q value l).proposal rep
          ∈ (iteration rnd now c q value l).events) := by
  rw [(iteration_next rnd now c q value l).1]
  have hcontact : (∀ j q2 p2 x, Event.propose j q2 p2 (.error x)
        ∈ (fan_out_proposal now q
            { version := l.version, round := l._round + 1, client := c._id } c._peers).events →
        x.caught = true) →
      ∀ j, j < c._peers.length →
        ∃ rep, Event.propose j q
            { version := l.version, round := l._round + 1, client := c._id } rep
          ∈ (fan_out_proposal now q
              { version := l.version, round := l._round + 1, client := c._id } c._peers).events := by
    intro hall j hj
    have h := send_proposal_contacts now q
      { version := l.version, round := l._round + 1, client := c._id } c._peers 0 _ hall j hj
    rw [Nat.zero_add] at h
    exact h
  cases hprep : prepare now c q { version := l.version, round := l._round + 1, client := c._id }
      { l with _round := l._round + 1 } with
  | done flow l2 ev =>
    rw [iteration_of_done rnd now c q value l l2 flow ev hprep]
    dsimp only
    obtain ⟨hev, -, -⟩ := prepare_done now c q _ _ l2 flow ev hprep
    subst hev
    refine ⟨fun j q2 p2 x _ _ => ⟨fun q3 p3 v3 rep h => ?_, fun q3 p3 rep h => ?_⟩,
      fun j q2 p2 v2 x h _ => ?_, hcontact⟩
    · obtain ⟨j4, rep4, h4⟩ := fan_out_proposal_events now q _ c._peers _ h
      exact absurd h4 (by simp)
    · obtain ⟨j4, rep4, h4⟩ := fan_out_proposal_events now q _ c._peers _ h
      exact absurd h4 (by simp)
    · obtain ⟨j4, rep4, h4⟩ := fan_out_proposal_events now q _ c._peers _ h
      exact absurd h4 (by simp)
  | proceed l2 u ev =>
    rw [iteration_of_proceed rnd now c q value l l2 u ev hprep]
    obtain ⟨mv, mp, -, -, -, -, hu, hevp, -, -, -⟩ := prepare_proceed now c q _ _ l2 u ev hprep
    subst hevp
    have hprop : ∀ e ∈ (fan_out_proposal now q
        { version := l.version, round := l._round + 1, client := c._id } c._peers).events,
        ∃ j rep, e = Event.propose j q
          { version := l.version, round := l._round + 1, client := c._id } rep :=
      fun e he => fan_out_proposal_events now q _ c._peers e he
    have hA := send_acceptation_events now q
      { version := l.version, round := l._round + 1, client := c._id }
      (replace_or l2.replace value) c._peers 0
      { reached := 0, conflicted := false, weak_error := none, unavailables := u,
        version := l2.version, _round := l2._round,
        events := (fan_out_proposal now q
          { version := l.version, round := l._round + 1, client := c._id } c._peers).events,
        raised := none }
    have hskipA := send_acceptation_skips now q
      { version := l.version, round := l._round + 1, client := c._id }
      (replace_or l2.replace value) c._peers 0
      { reached := 0, conflicted := false, weak_error := none, unavailables := u,
        version := l2.version, _round := l2._round,
        events := (fan_out_proposal now q
          { version := l.version, round := l._round + 1, client := c._id } c._peers).events,
        raised := none }
    have hexA := send_acceptation_excludes now q
      { version := l.version, round := l._round + 1, client := c._id }
      (replace_or l2.replace value) c._peers 0
      { reached := 0, conflicted := false, weak_error := none, unavailables := u,
        version := l2.version, _round := l2._round,
        events := (fan_out_proposal now q
          { version := l.version, round := l._round + 1, client := c._id } c._peers).events,
        raised := none }
    have hmonoA := send_acceptation_unavailables_mono now q
      { version := l.version, round := l._round + 1, client := c._id }
      (replace_or l2.replace value) c._peers 0
      { reached := 0, conflicted := false, weak_error := none, unavailables := u,
        version := l2.version, _round := l2._round,
        events := (fan_out_proposal now q
          { version := l.version, round := l._round + 1, client := c._id } c._peers).events,
        raised := none }
    have hF2 := accept_confirm_accept_event rnd now c q value
      { version := l.version, round := l._round + 1, client := c._id } l2 u
      (fan_out_proposal now q
        { version := l.version, round := l._round + 1, client := c._id } c._peers).events
    have hF3 := accept_confirm_confirm_event rnd now c q value
      { version := l.version, round := l._round + 1, client := c._id } l2 u
      (fan_out_proposal now q
        { version := l.version, round := l._round + 1, client := c._id } c._peers).events _ rfl
    have hF1 := accept_confirm_events rnd now c q value
      { version := l.version, round := l._round + 1, client := c._id } l2 u
      (fan_out_proposal now q
        { version := l.version, round := l._round + 1, client := c._id } c._peers).events
    have hF4 := accept_confirm_events_mono rnd now c q value
      { version := l.version, round := l._round + 1, client := c._id } l2 u
      (fan_out_proposal now q
        { version := l.version, round := l._round + 1, client := c._id } c._peers).events
    generalize accept_confirm rnd now c q value
      { version := l.version, round := l._round + 1, client := c._id } l2 u
      (fan_out_proposal now q
        { version := l.version, round := l._round + 1, client := c._id } c._peers).events = AC
      at hF1 hF2 hF3 hF4 ⊢
    dsimp only at hskipA hexA hmonoA hA
    generalize send_acceptation now q
      { version := l.version, round := l._round + 1, client := c._id }
      (replace_or l2.replace value) c._peers 0
      { reached := 0, conflicted := false, weak_error := none, unavailables := u,
        version := l2.version, _round := l2._round,
        events := (fan_out_proposal now q
          { version := l.version, round := l._round + 1, client := c._id } c._peers).events,
        raised := none } = a at hA hskipA hexA hmonoA hF2 hF3
    have hskipK := send_confirmation_skips now q
      { version := l.version, round := l._round + 1, client := c._id } c._peers 0
      { reached := 0, weak_error := none, unavailables := a.unavailables, events := a.events,
        raised := none }
    dsimp only at hskipK
    generalize send_confirmation now q
      { version := l.version, round := l._round + 1, client := c._id } c._peers 0
      { reached := 0, weak_error := none, unavailables := a.unavailables, events := a.events,
        raised := none } = k at hskipK hF3
    have hnoconfirm : ∀ j3 q3 p3 rep, Event.confirm j3 q3 p3 rep ∉ a.events := by
      intro j3 q3 p3 rep h
      rcases hA _ h with h2 | ⟨j4, rep4, h4⟩
      · obtain ⟨j4, rep4, h4⟩ := hprop _ h2
        exact absurd h4 (by simp)
      · exact absurd h4 (by simp)
    have hpropose : ∀ j q2 p2 x, Event.propose j q2 p2 (.error x) ∈ AC.events →
        Event.propose j q2 p2 (.error x) ∈ (fan_out_proposal now q
          { version := l.version, round := l._round + 1, client := c._id } c._peers).events := by
      intro j q2 p2 x h
      rcases hF1 _ h with h2 | ⟨j4, rep4, h4⟩ | ⟨j4, rep4, h4⟩ | ⟨d, h4⟩
      · exact h2
      · exact absurd h4 (by simp)
      · exact absurd h4 (by simp)
      · exact absurd h4 (by simp)
    have hinu : ∀ j q2 p2 x, Event.propose j q2 p2 (.error x) ∈ AC.events →
        x.caught = true → j ∈ u := by
      intro j q2 p2 x h hx
      rcases send_proposal_excludes now q
        { version := l.version, round := l._round + 1, client := c._id } c._peers 0 _ j q2 p2 x
        (hpropose j q2 p2 x h) hx with h2 | h2
      · exact absurd h2 (by simp)
      · rw [hu]; exact h2
    refine ⟨fun j q2 p2 x h hx => ⟨fun q3 p3 v3 rep h3 => ?_, fun q3 p3 rep h3 => ?_⟩,
      fun j q2 p2 v2 x h hx q3 p3 rep h3 => ?_, fun hall j hj => ?_⟩
    · rcases hskipA j q3 p3 v3 rep (hF2 j q3 p3 v3 rep h3) with h4 | h4
      · obtain ⟨j5, rep5, h5⟩ := hprop _ h4
        exact absurd h5 (by simp)
      · exact h4 (hinu j q2 p2 x h hx)
    · rcases hskipK j q3 p3 rep (hF3 j q3 p3 rep h3) with h4 | h4
      · exact hnoconfirm _ _ _ _ h4
      · exact h4 (hmonoA j (hinu j q2 p2 x h hx))
    · rcases hskipK j q3 p3 rep (hF3 j q3 p3 rep h3) with h4 | h4
      · exact hnoconfirm _ _ _ _ h4
      · rcases hexA j q2 p2 v2 x (hF2 j q2 p2 v2 _ h) hx with h5 | h5
        · obtain ⟨j5, rep5, h6⟩ := hprop _ h5
          exact absurd h6 (by simp)
        · exact h4 h5
    · obtain ⟨rep, hrep⟩ := hcontact (fun j2 q2 p2 x h => hall j2 q2 p2 x (hF4 _ h)) j hj
      exact ⟨rep, hF4 _ hrep⟩

/-- C19: unavailable exclusion.  In every iteration of a call of `choose`, peers
being identified by their position in `_peers`: a peer whose `propose` raised
`Unavailable` or `WeakError` is sent neither `accept` nor `confirm` in that
iteration; a peer whose `accept` raised one of them is not sent `confirm` in
that iteration; and the exclusions do not outlive the iteration: in every
iteration, when no `propose` raises another exception, every peer is sent
`propose` with the proposal of the iteration. -/
theorem unavailable_exclusion (rnd : Nat → Nat) (fuel now : Nat)
    (c : Client Version ClientId Value E) (version : Version) (value : Value)
    (it : Iteration Version ClientId Value E)
    (hit : it ∈ (choose rnd fuel now c version value).trace) :
    (∀ j q2 p2 x, Event.propose j q2 p2 (.error x) ∈ it.events → x.caught = true →
      (∀ q3 p3 v3 rep, Event.accept j q3 p3 v3 rep ∉ it.events) ∧
      (∀ q3 p3 rep, Event.confirm j q3 p3 rep ∉ it.events)) ∧
    (∀ j q2 p2 v2 x, Event.accept j q2 p2 v2 (.error x) ∈ it.events → x.caught = true →
      ∀ q3 p3 rep, Event.confirm j q3 p3 rep ∉ it.events) ∧
    ((∀ j q2 p2 x, Event.propose j q2 p2 (.error x) ∈ it.events → x.caught = true) →
      ∀ j, j < c._peers.length →
        ∃ rep, Event.propose j (quorum c._peers) it.proposal rep ∈ it.events) := by
  obtain ⟨t, l2, h1, -⟩ := choose_loop_trace rnd c (quorum c._peers) value fuel now _ it hit
  subst h1
  exact iteration_exclusion rnd t c (quorum c._peers) value l2

/-- Witness of `unavailable_exclusion`: the first of three peers is
`Unavailable`; the iteration goes through the three phases and does not send
`accept` to the first peer. -/
theorem unavailable_exclusion_witness :
    Event.accept 0 (quorum [Example.down 1, Example.fresh 2, Example.fresh 3])
        { version := 1, round := 1, client := 7 } "X"
        (.ok { version := 1, round := 1, client := 7 }) ∉
      (iteration (fun _ => 1) 0
        (Example.client [Example.down 1, Example.fresh 2, Example.fresh 3])
        (quorum [Example.down 1, Example.fresh 2, Example.fresh 3]) "X"
        { version := 1, backoff := 1, replace := none, _round := 0 }).events :=
  ((unavailable_exclusion (fun _ => 1) 1 0
    (Example.client [Example.down 1, Example.fresh 2, Example.fresh 3]) 1 "X"
    (iteration (fun _ => 1) 0
      (Example.client [Example.down 1, Example.fresh 2, Example.fresh 3])
      (quorum [Example.down 1, Example.fresh 2, Example.fresh 3]) "X"
      { version := 1, backoff := 1, replace := none, _round := 0 })
    (by decide)).1 0
    (quorum [Example.down 1, Example.fresh 2, Example.fresh 3])
    { version := 1, round := 1, client := 7 } .Unavailable (by decide) rfl).1
    (quorum [Example.down 1, Example.fresh 2, Example.fresh 3])
    { version := 1, round := 1, client := 7 } "X"
    (.ok { version := 1, round := 1, client := 7 })

end Exclusion

/-! ## Rounds -/

section Rounds

variable {Version ClientId Value E : Type} [LinearOrder Version] [LinearOrder ClientId]

/-- The round with which `retry` makes the iteration `continue`: the round of
the proposal plus one, or the round of the proposal carried by the response
given. -/
theorem retry_round (proposal : Proposal Version ClientId)
    (mp : Option (Response Version ClientId Value)) (l l2 : Loop Version Value)
    (h : retry proposal mp l = some l2) :
    l2._round = proposal.round + 1 ∨
      ∃ m rp, mp = some m ∧ m.proposal = some rp ∧ l2._round = rp.round := by
  unfold retry at h
  cases mp with
  | none => exact absurd h (by simp)
  | some m =>
    cases hm : m.proposal with
    | none =>
      have hb : (some m).bind Response.proposal = none := hm
      rw [hb] at h
      exact absurd h (by simp)
    | some rp =>
      have hb : (some m).bind Response.proposal = some rp := hm
      rw [hb] at h
      dsimp only at h
      by_cases he : proposal = rp
      · rw [if_pos he, Option.some.injEq] at h
        left
        rw [← h, he]
      · rw [if_neg he] at h
        by_cases hlt : proposal < rp
        · rw [if_pos hlt, Option.some.injEq] at h
          right
          exact ⟨m, rp, rfl, hm, by rw [← h]⟩
        · rw [if_neg hlt] at h
          exact absurd h (by simp)

/-- What holds when the block "send proposal" makes the iteration `continue`:
`retry` said so on the greatest response for `proposed`. -/
theorem prepare_again_highest (now : Nat) (c : Client Version ClientId Value E)
    (q : Quorum ClientId) (proposal : Proposal Version ClientId) (l l2 : Loop Version Value)
    (ev : List (Event Version ClientId Value E))
    (h : prepare now c q proposal l = .done .again l2 ev) :
    ∃ (mv mp : Option (Response Version ClientId Value)),
      max_element (@proposed Version ClientId Value E _ _)
        (fan_out_proposal now q proposal c._peers).responses = .ok mp ∧
      retry proposal mp { l with replace := adopt mv l.replace } = some l2 := by
  unfold prepare at h
  dsimp only at h
  cases hr : (fan_out_proposal now q proposal c._peers).raised with
  | some e => rw [hr] at h; exact absurd h (by simp)
  | none =>
    rw [hr] at h; dsimp only at h
    cases hf : find_if confirmed (fan_out_proposal now q proposal c._peers).responses with
    | some r =>
      rw [hf] at h; dsimp only at h
      split at h <;> exact absurd h (by simp)
    | none =>
      rw [hf] at h; dsimp only at h
      cases hh : (_check_headcount q (fan_out_proposal now q proposal c._peers).reached
          (fan_out_proposal now q proposal c._peers).weak_error false :
          Except (Exn Version ClientId E) Unit) with
      | error e => rw [hh] at h; exact absurd h (by simp)
      | ok u1 =>
        rw [hh] at h; dsimp only at h
        cases hv : max_element (@valued Version ClientId Value E _ _)
            (fan_out_proposal now q proposal c._peers).responses with
        | error e => rw [hv] at h; exact absurd h (by simp)
        | ok mv =>
          rw [hv] at h; dsimp only at h
          cases hp : max_element (@proposed Version ClientId Value E _ _)
              (fan_out_proposal now q proposal c._peers).responses with
          | error e => rw [hp] at h; exact absurd h (by simp)
          | ok mp =>
            rw [hp] at h; dsimp only at h
            cases hy : retry proposal mp { l with replace := adopt mv l.replace } with
            | some l3 =>
              rw [hy] at h
              simp only [Prepared.done.injEq, true_and] at h
              exact ⟨mv, mp, rfl, by rw [hy, h.1]⟩
            | none => rw [hy] at h; exact absurd h (by simp)

/-- After the blocks "send acceptation" and "send confirmation", `_round` is what
the fan-out "send acceptation" leaves. -/
theorem accept_confirm_loop_round (rnd : Nat → Nat) (now : Nat)
    (c : Client Version ClientId Value E) (q : Quorum ClientId) (value : Value)
    (proposal : Proposal Version ClientId) (l : Loop Version Value) (unavailables : List Nat)
    (events : List (Event Version ClientId Value E)) :
    (accept_confirm rnd now c q value proposal l unavailables events).loop._round
      = (send_acceptation now q proposal (replace_or l.replace value) c._peers 0
          { reached := 0, conflicted := false, weak_error := none, unavailables := unavailables,
            version := l.version, _round := l._round, events := events, raised := none })._round := by
  unfold accept_confirm confirm_return
  dsimp only
  generalize send_acceptation now q proposal (replace_or l.replace value) c._peers 0
      { reached := 0, conflicted := false, weak_error := none, unavailables := unavailables,
        version := l.version, _round := l._round, events := events, raised := none } = a
  repeat' split
  all_goals rfl

/-- One iteration keeps `_round` non-negative when the proposals that the peers
report in it have a round of at least `1`. -/
theorem iteration_round (rnd : Nat → Nat) (now : Nat) (c : Client Version ClientId Value E)
    (q : Quorum ClientId) (value : Value) (l : Loop Version Value) (hl : 0 ≤ l._round)
    (hev : ∀ e ∈ (iteration rnd now c q value l).events, e.round_reported = true) :
    0 ≤ (iteration rnd now c q value l).loop._round := by
  cases hprep : prepare now c q { version := l.version, round := l._round + 1, client := c._id }
      { l with _round := l._round + 1 } with
  | done flow l2 ev =>
    rw [iteration_of_done rnd now c q value l l2 flow ev hprep] at hev ⊢
    dsimp only at hev ⊢
    by_cases hflow : flow = .again
    · subst hflow
      obtain ⟨hevp, -, -⟩ := prepare_done now c q _ _ l2 _ ev hprep
      obtain ⟨mv, mp, hp, hy⟩ := prepare_again_highest now c q _ _ l2 ev hprep
      rcases retry_round _ _ _ _ hy with h | ⟨m, rp, hm, hmp, h⟩
      · rw [h]
        dsimp only
        omega
      · have hmem : m ∈ (fan_out_proposal now q
            { version := l.version, round := l._round + 1, client := c._id } c._peers).responses :=
          max_element_mem _ _ m (by rw [hp, hm])
        obtain ⟨j, hj⟩ := fan_out_proposal_responses now q _ c._peers m hmem
        rw [← hevp] at hj
        have h1 := hev _ hj
        simp only [Event.round_reported, hmp, decide_eq_true_eq] at h1
        rw [h]
        omega
    · obtain ⟨-, h2⟩ := prepare_done_round now c q _ _ l2 flow ev hprep hflow
      rw [h2]
      dsimp only
      omega
  | proceed l2 u ev =>
    rw [iteration_of_proceed rnd now c q value l l2 u ev hprep] at hev ⊢
    rw [accept_confirm_loop_round]
    obtain ⟨mv, mp, -, -, -, hl2, -, hevp, -, -, -⟩ := prepare_proceed now c q _ _ l2 u ev hprep
    have hround : l2._round = l._round + 1 := by rw [hl2]
    have hno : ∀ j q2 p2 v2 M, Event.accept j q2 p2 v2 (.ok M) ∈ ev →
        ¬ ({ version := l.version, round := l._round + 1, client := c._id } :
          Proposal Version ClientId) < M := by
      intro j q2 p2 v2 M h
      rw [hevp] at h
      obtain ⟨j4, rep4, h4⟩ := fan_out_proposal_events now q _ c._peers _ h
      exact absurd h4 (by simp)
    have hU := send_acceptation_unconflicted now q
      { version := l.version, round := l._round + 1, client := c._id }
      (replace_or l2.replace value) c._peers 0
      { reached := 0, conflicted := false, weak_error := none, unavailables := u,
        version := l2.version, _round := l2._round, events := ev, raised := none } rfl rfl
    by_cases hc : (send_acceptation now q
        { version := l.version, round := l._round + 1, client := c._id }
        (replace_or l2.replace value) c._peers 0
        { reached := 0, conflicted := false, weak_error := none, unavailables := u,
          version := l2.version, _round := l2._round, events := ev, raised := none }).conflicted
        = true
    · have hr := hU.2 hc
      obtain ⟨j, M, hmem, hlt⟩ := send_acceptation_conflicted_event now q
        { version := l.version, round := l._round + 1, client := c._id }
        (replace_or l2.replace value) c._peers 0
        { reached := 0, conflicted := false, weak_error := none, unavailables := u,
          version := l2.version, _round := l2._round, events := ev, raised := none } rfl hc
      obtain ⟨-, -, hrnd, -⟩ := send_acceptation_conflict_event now q
        { version := l.version, round := l._round + 1, client := c._id }
        (replace_or l2.replace value) c._peers 0
        { reached := 0, conflicted := false, weak_error := none, unavailables := u,
          version := l2.version, _round := l2._round, events := ev, raised := none }
        rfl hno j _ _ _ M hmem hlt
      rw [accept_confirm_of_conflict rnd now c q value _ l2 u ev hr hc] at hev
      dsimp only at hev
      have h1 : (Event.accept j q
          { version := l.version, round := l._round + 1, client := c._id }
          (replace_or l2.replace value) (.ok M) :
            Event Version ClientId Value E).round_reported = true := by
        apply hev
        by_cases hb : c._conflict_backoff = true
        · rw [if_pos hb]
          exact List.mem_append_left _ hmem
        · rw [if_neg hb]
          exact hmem
      simp only [Event.round_reported, decide_eq_true_eq] at h1
      rw [hrnd]
      omega
    · have h2 := (hU.1 (by simpa using hc)).2
      rw [h2]
      dsimp only
      omega

/-- The loop of `choose` when the proposals that the peers report have a round
of at least `1` and `_round` is not negative on entry: every proposal built
has a round of at least `1`, and `_round` is not negative afterwards. -/
theorem choose_loop_round (rnd : Nat → Nat) (c : Client Version ClientId Value E)
    (q : Quorum ClientId) (value : Value) (fuel : Nat) :
    ∀ (now : Nat) (l : Loop Version Value), 0 ≤ l._round →
      (∀ it ∈ (choose_loop rnd c q value fuel now l).trace, ∀ e ∈ it.events,
        e.round_reported = true) →
      (∀ it ∈ (choose_loop rnd c q value fuel now l).trace, 1 ≤ it.proposal.round) ∧
      0 ≤ (choose_loop rnd c q value fuel now l).client._round ∧
      (choose_loop rnd c q value fuel now l).client._peers = c._peers := by
  induction fuel with
  | zero =>
    intro now l hl _
    unfold choose_loop
    exact ⟨fun it h => absurd h (by simp), hl, rfl⟩
  | succ fuel ih =>
    intro now l hl hev
    have hp : (1 : Int) ≤ (iteration rnd now c q value l).proposal.round := by
      rw [(iteration_next rnd now c q value l).1]
      dsimp only
      omega
    unfold choose_loop at hev ⊢
    dsimp only at hev ⊢
    cases hflow : (iteration rnd now c q value l).flow with
    | again =>
      rw [hflow] at hev
      dsimp only at hev ⊢
      have h0 := iteration_round rnd now c q value l hl
        (hev _ (List.mem_cons_self _ _))
      obtain ⟨i1, i2, i3⟩ := ih (now + 1) _ h0
        (fun it h => hev it (List.mem_cons_of_mem _ h))
      refine ⟨fun it h => ?_, i2, i3⟩
      rcases List.mem_cons.1 h with h | h
      · rw [h]; exact hp
      · exact i1 it h
    | returned ch =>
      rw [hflow] at hev
      dsimp only at hev ⊢
      have h0 := iteration_round rnd now c q value l hl
        (hev _ (List.mem_singleton.2 rfl))
      refine ⟨fun it h => ?_, h0, rfl⟩
      rw [List.mem_singleton.1 h]; exact hp
    | raised ex =>
      rw [hflow] at hev
      dsimp only at hev ⊢
      have h0 := iteration_round rnd now c q value l hl
        (hev _ (List.mem_singleton.2 rfl))
      refine ⟨fun it h => ?_, h0, rfl⟩
      rw [List.mem_singleton.1 h]; exact hp

/-- A sequence of calls of `choose` when the proposals that the peers report have
a round of at least `1` and `_round` is not negative on entry: every proposal
built has a round of at least `1`. -/
theorem choose_all_round (rnd : Nat → Nat) (fuel : Nat) :
    ∀ (calls : List (Version × Value)) (now : Nat) (c : Client Version ClientId Value E),
      0 ≤ c._round →
      (∀ it ∈ choose_all rnd fuel now c calls, ∀ e ∈ it.events, e.round_reported = true) →
      ∀ it ∈ choose_all rnd fuel now c calls, 1 ≤ it.proposal.round := by
  intro calls
  induction calls with
  | nil =>
    intro now c _ _ it h
    exact absurd h (by simp [choose_all])
  | cons call rest ih =>
    intro now c hc hev it hit
    unfold choose_all at hev hit
    obtain ⟨h1, h2, -⟩ := choose_loop_round rnd c (quorum c._peers) call.2 fuel now
      { version := call.1, backoff := 1, replace := none, _round := c._round } hc
      (fun it2 h => hev it2 (List.mem_append_left _ h))
    rcases List.mem_append.1 hit with h | h
    · exact h1 it h
    · exact ih _ _ h2 (fun it2 h3 => hev it2 (List.mem_append_right _ h3)) it h

/-- C20: every proposal that `choose` builds has a round of at least `1`, in any
sequence of calls on a proposer whose `_round` is `0` at the start, as the
constructor leaves it, provided every proposal that a peer reports during these
calls (the highest proposal seen carried by a `Response`, the minimum returned
by `accept`) has a round of at least `1`. -/
theorem round_at_least_one (rnd : Nat → Nat) (fuel now : Nat)
    (c : Client Version ClientId Value E) (calls : List (Version × Value))
    (hc : c._round = 0)
    (hev : ∀ it ∈ choose_all rnd fuel now c calls, ∀ e ∈ it.events, e.round_reported = true) :
    ∀ it ∈ choose_all rnd fuel now c calls, 1 ≤ it.proposal.round :=
  choose_all_round rnd fuel calls now c (by rw [hc]) hev

/-- Witness of `round_at_least_one`: two calls on three peers, one of which has
seen `(1, 4, 5)`; the rounds of the proposals are `1`, `5` and `6`, the last one
being that of the only iteration of the second call. -/
theorem round_at_least_one_witness :
    1 ≤ (iteration (fun _ => 1) 2
      { _id := 7,
        _peers := [Example.fresh 1,
          Example.seen 2 { version := 1, round := 4, client := 5 }
            { version := 1, round := 4, client := 5 } 0,
          Example.fresh 3],
        _conflict_backoff := true, _round := 5 }
      (quorum [Example.fresh 1,
        Example.seen 2 { version := 1, round := 4, client := 5 }
          { version := 1, round := 4, client := 5 } 0,
        Example.fresh 3]) "Y"
      { version := 1, backoff := 1, replace := none, _round := 5 }).proposal.round :=
  round_at_least_one (fun _ => 1) 3 0
    (Example.client [Example.fresh 1,
      Example.seen 2 { version := 1, round := 4, client := 5 }
        { version := 1, round := 4, client := 5 } 0,
      Example.fresh 3])
    [(1, "X"), (1, "Y")] rfl (by decide) _ (by decide)

end Rounds

/-! ## The headcount of `state` -/

section ReadHeadcount

variable {Version ClientId Value E : Type} [LinearOrder Version] [LinearOrder ClientId]

/-- The fan-out "get quorum" when the peers raise nothing but `Unavailable`,
`WeakError` and `WrongQuorum` with a proposal: no exception escapes. -/
theorem get_quorum_complete (now : Nat) (q : Quorum ClientId)
    (peers : List (Peer Version ClientId Value E)) :
    ∀ (i : Nat) (s : Reading Version ClientId Value E),
      s.raised = none →
      (∀ w, s.wrong_quorum = some w → w.proposal ≠ none) →
      (∀ peer ∈ peers, ∀ x, peer.get now q = .error x →
        x = .Unavailable ∨ (∃ e, x = .WeakError e) ∨
          ∃ w p, x = .WrongQuorum w ∧ w.proposal = some p) →
      (get_quorum now q peers i s).raised = none := by
  induction peers with
  | nil => intro i s hr _ _; exact hr
  | cons peer rest ih =>
    intro i s hr hw hcontract
    have hrest : ∀ peer2 ∈ rest, ∀ x, peer2.get now q = .error x →
        x = .Unavailable ∨ (∃ e, x = .WeakError e) ∨
          ∃ w p, x = .WrongQuorum w ∧ w.proposal = some p :=
      fun peer2 h2 => hcontract peer2 (List.mem_cons_of_mem _ h2)
    unfold get_quorum
    dsimp only
    cases hg : peer.get now q with
    | ok accepted =>
      dsimp only
      exact ih _ _ hr hw hrest
    | error ex =>
      rcases hcontract peer (List.mem_cons_self _ _) ex hg with h | ⟨e, h⟩ | ⟨w, p, h, hp⟩
      · subst h
        dsimp only
        exact ih _ _ hr hw hrest
      · subst h
        dsimp only
        exact ih _ _ hr hw hrest
      · subst h
        dsimp only
        rw [hp]
        dsimp only
        cases hsw : s.wrong_quorum with
        | none =>
          dsimp only
          refine ih _ _ hr ?_ hrest
          intro w2 h2
          simp only [Option.some.injEq] at h2
          rw [← h2, hp]
          simp
        | some w0 =>
          dsimp only
          cases hw0 : w0.proposal with
          | none => exact absurd hw0 (hw w0 hsw)
          | some wp =>
            dsimp only
            refine ih _ _ hr ?_ hrest
            intro w2 h2
            dsimp only at h2
            by_cases hlt : wp < p
            · rw [if_pos hlt, Option.some.injEq] at h2
              rw [← h2, hp]
              simp
            · rw [if_neg hlt, Option.some.injEq] at h2
              rw [← h2, hw0]
              simp

/-- In a complete fan-out "get quorum", `reached` grows by the number of peers
whose `get` returns or raises a `WrongQuorum` that carries a proposal. -/
theorem get_quorum_reached (now : Nat) (q : Quorum ClientId)
    (peers : List (Peer Version ClientId Value E)) :
    ∀ (i : Nat) (s : Reading Version ClientId Value E),
      (get_quorum now q peers i s).raised = none →
      (get_quorum now q peers i s).reached
        = s.reached + ((peers.countP (fun peer => get_counted (peer.get now q)) : Nat) : Int) := by
  induction peers with
  | nil => intro i s _; simp [get_quorum]
  | cons peer rest ih =>
    intro i s hres
    unfold get_quorum at hres ⊢
    dsimp only at hres ⊢
    rw [List.countP_cons]
    cases hg : peer.get now q with
    | ok accepted =>
      rw [hg] at hres
      dsimp only at hres ⊢
      rw [ih _ _ hres]
      simp only [get_counted, if_true, Nat.cast_add, Nat.cast_one]
      omega
    | error ex =>
      rw [hg] at hres
      cases ex with
      | Unavailable =>
        dsimp only at hres ⊢
        rw [ih _ _ hres]
        simp [get_counted]
      | WeakError e =>
        dsimp only at hres ⊢
        rw [ih _ _ hres]
        simp [get_counted]
      | WrongQuorum w =>
        dsimp only at hres ⊢
        cases hp : w.proposal with
        | none => rw [hp] at hres; exact absurd hres (by simp)
        | some p =>
          rw [hp] at hres
          dsimp only at hres ⊢
          cases hsw : s.wrong_quorum with
          | none =>
            rw [hsw] at hres
            dsimp only at hres ⊢
            rw [ih _ _ hres]
            simp only [get_counted, hp, Option.isSome_some, if_true, Nat.cast_add, Nat.cast_one]
            omega
          | some w0 =>
            rw [hsw] at hres
            dsimp only at hres ⊢
            cases hw0 : w0.proposal with
            | none => rw [hw0] at hres; exact absurd hres (by simp)
            | some wp =>
              rw [hw0] at hres
              dsimp only at hres ⊢
              rw [ih _ _ hres]
              simp only [get_counted, hp, Option.isSome_some, if_true, Nat.cast_add,
                Nat.cast_one]
              omega
      | TooFewPeers a b => exact absurd hres (by simp)
      | Foreign e => exact absurd hres (by simp)
      | AssertError => exact absurd hres (by simp)

/-- In a complete fan-out "get quorum", `weak_error` is the one held on entry or
else the first weak error that a peer raises. -/
theorem get_quorum_weak (now : Nat) (q : Quorum ClientId)
    (peers : List (Peer Version ClientId Value E)) :
    ∀ (i : Nat) (s : Reading Version ClientId Value E),
      (get_quorum now q peers i s).raised = none →
      (get_quorum now q peers i s).weak_error
        = s.weak_error.or (peers.findSome? (fun peer => get_weak (peer.get now q))) := by
  induction peers with
  | nil =>
    intro i s _
    unfold get_quorum
    cases s.weak_error <;> rfl
  | cons peer rest ih =>
    intro i s hres
    unfold get_quorum at hres ⊢
    dsimp only at hres ⊢
    rw [List.findSome?_cons]
    cases hg : peer.get now q with
    | ok accepted =>
      rw [hg] at hres
      dsimp only at hres ⊢
      rw [ih _ _ hres]
      rfl
    | error ex =>
      rw [hg] at hres
      cases ex with
      | Unavailable =>
        dsimp only at hres ⊢
        rw [ih _ _ hres]
        rfl
      | WeakError e =>
        dsimp only at hres ⊢
        rw [ih _ _ hres]
        dsimp only [get_weak]
        cases s.weak_error <;> rfl
      | WrongQuorum w =>
        dsimp only at hres ⊢
        cases hp : w.proposal with
        | none => rw [hp] at hres; exact absurd hres (by simp)
        | some p =>
          rw [hp] at hres
          dsimp only at hres ⊢
          cases hsw : s.wrong_quorum with
          | none =>
            rw [hsw] at hres
            dsimp only at hres ⊢
            rw [ih _ _ hres]
            rfl
          | some w0 =>
            rw [hsw] at hres
            dsimp only at hres ⊢
            cases hw0 : w0.proposal with
            | none => rw [hw0] at hres; exact absurd hres (by simp)
            | some wp =>
              rw [hw0] at hres
              dsimp only at hres ⊢
              rw [ih _ _ hres]
              rfl
      | TooFewPeers a b => exact absurd hres (by simp)
      | Foreign e => exact absurd hres (by simp)
      | AssertError => exact absurd hres (by simp)

/-- C21: the headcount of `state`.  When the peers raise on `get` nothing but
`Unavailable`, `WeakError` and `WrongQuorum` with a proposal, `reached` is the
number of peers whose `get` returns (with or without an accepted value) or
raises `WrongQuorum`; the peers that raise `Unavailable` or `WeakError` are not
counted.  The read headcount comes first: when `reached <= (|Q| - 1) / 2`,
`state` raises the first weak error raised by a peer, or else
`TooFewPeers(reached, |Q|)`, whether or not a `WrongQuorum` was collected; only
otherwise is the decision between the accepted value and the `WrongQuorum`
taken. -/
theorem state_reached (now : Nat) (c : Client Version ClientId Value E)
    (hcontract : ∀ peer ∈ c._peers, ∀ x, peer.get now (quorum c._peers) = .error x →
      x = .Unavailable ∨ (∃ e, x = .WeakError e) ∨
        ∃ w p, x = .WrongQuorum w ∧ w.proposal = some p) :
    (fan_out_get now (quorum c._peers) c._peers).reached
      = ((c._peers.countP (fun peer => get_counted (peer.get now (quorum c._peers))) : Nat)
          : Int) ∧
    (((c._peers.countP (fun peer => get_counted (peer.get now (quorum c._peers))) : Nat) : Int)
        ≤ ((((quorum c._peers).card - 1) / 2 : Nat) : Int) →
      (state now c).result
        = .error (match c._peers.findSome?
                    (fun peer => get_weak (peer.get now (quorum c._peers))) with
                  | some e => Exn.Foreign e
                  | none => Exn.TooFewPeers
                      ((c._peers.countP
                        (fun peer => get_counted (peer.get now (quorum c._peers))) : Nat) : Int)
                      (quorum c._peers).card)) ∧
    (¬ ((c._peers.countP (fun peer => get_counted (peer.get now (quorum c._peers))) : Nat) : Int)
        ≤ ((((quorum c._peers).card - 1) / 2 : Nat) : Int) →
      (state now c).result
        = (match (fan_out_get now (quorum c._peers) c._peers).wrong_quorum,
              (fan_out_get now (quorum c._peers) c._peers).res with
            | some w, none => .error (.WrongQuorum w)
            | some w, some r =>
              if lt_optional r.proposal w.proposal then .error (.WrongQuorum w)
              else .ok { value := some r.value, quorum := quorum c._peers,
                         proposal := some r.proposal }
            | none, some r =>
              .ok { value := some r.value, quorum := quorum c._peers,
                    proposal := some r.proposal }
            | none, none => .ok { value := none, quorum := quorum c._peers, proposal := none })) := by
  have hraised : (fan_out_get now (quorum c._peers) c._peers).raised = none :=
    get_quorum_complete now (quorum c._peers) c._peers 0 _ rfl
      (fun w hw => absurd hw (by simp)) hcontract
  have hreach : (fan_out_get now (quorum c._peers) c._peers).reached
      = ((c._peers.countP (fun peer => get_counted (peer.get now (quorum c._peers))) : Nat)
          : Int) := by
    have h := get_quorum_reached now (quorum c._peers) c._peers 0 _ hraised
    simpa using h
  have hweak : (fan_out_get now (quorum c._peers) c._peers).weak_error
      = c._peers.findSome? (fun peer => get_weak (peer.get now (quorum c._peers))) := by
    have h := get_quorum_weak now (quorum c._peers) c._peers 0 _ hraised
    exact h.trans rfl
  have ht : threshold (quorum c._peers).card true = ((quorum c._peers).card - 1) / 2 := by
    simp [threshold]
  refine ⟨hreach, fun hle => ?_, fun hgt => ?_⟩
  · unfold state state_result
    dsimp only
    rw [hraised]
    dsimp only
    rw [check_headcount_eq, ht, hreach, if_pos hle, hweak]
    try rfl
  · have hpass : (_check_headcount (quorum c._peers)
        (fan_out_get now (quorum c._peers) c._peers).reached
        (fan_out_get now (quorum c._peers) c._peers).weak_error true :
        Except (Exn Version ClientId E) Unit) = .ok () := by
      rw [check_headcount_eq, ht, hreach, if_neg hgt]
    unfold state
    dsimp only
    exact state_result_of_passed _ _ hraised hpass

/-- Witness of `state_reached`: of five peers one raises a `WrongQuorum` with the
proposal `(9, 9, 9)`, one raises `WeakError(boom)` and three are `Unavailable`;
one peer is reached and `state` raises `boom`. -/
theorem state_reached_witness :
    (state 0 (Example.client
      [Example.wrong 1 { version := 9, round := 9, client := 9 }, Example.weak 2 "boom",
       Example.down 3, Example.down 4, Example.down 5])).result
      = .error (.Foreign "boom") :=
  ((state_reached 0
    (Example.client
      [Example.wrong 1 { version := 9, round := 9, client := 9 }, Example.weak 2 "boom",
       Example.down 3, Example.down 4, Example.down 5])
    (by
      intro peer hp x hx
      simp only [Example.client, List.mem_cons, List.mem_singleton, List.not_mem_nil,
        or_false] at hp
      rcases hp with rfl | rfl | rfl | rfl | rfl
      · exact Or.inr (Or.inr ⟨_, _, (Except.error.inj hx).symm, rfl⟩)
      · exact Or.inr (Or.inl ⟨_, (Except.error.inj hx).symm⟩)
      · exact Or.inl (Except.error.inj hx).symm
      · exact Or.inl (Except.error.inj hx).symm
      · exact Or.inl (Except.error.inj hx).symm)).2.1 (by decide)).trans (by decide)

end ReadHeadcount

/-! ## The headcount as a comparison of twice the count with the size -/

section Majority

variable {Version ClientId E : Type}

/-- C22: for a quorum of size `n >= 1` and a count `reached` (non-negative or
not), the write headcount passes iff `2 * reached > n` and the read headcount
passes iff `2 * reached >= n`; the thresholds `(n - 1) / 2` of a read and `n / 2` of a
write, in the division of the source, are equal when `n` is odd and differ by
exactly one when `n` is even. -/
theorem headcount_twice (q : Quorum ClientId) (reached : Int) (weak_error : Option E)
    (hn : 1 ≤ q.card) :
    ((_check_headcount q reached weak_error false : Except (Exn Version ClientId E) Unit)
        = .ok () ↔ 2 * reached > (q.card : Int)) ∧
    ((_check_headcount q reached weak_error true : Except (Exn Version ClientId E) Unit)
        = .ok () ↔ 2 * reached ≥ (q.card : Int)) ∧
    (q.card % 2 = 1 → ((q.card : Int) - 1).tdiv 2 = (q.card : Int).tdiv 2) ∧
    (q.card % 2 = 0 → ((q.card : Int) - 1).tdiv 2 + 1 = (q.card : Int).tdiv 2) := by
  have h1 : ((q.card : Int) - 1).tdiv 2 = (((q.card - 1) / 2 : Nat) : Int) := by
    have h := threshold_eq q.card true
    simpa using h
  have h0 : ((q.card : Int)).tdiv 2 = ((q.card / 2 : Nat) : Int) := by
    have h := threshold_eq q.card false
    simpa using h
  refine ⟨?_, ?_, ?_, ?_⟩
  · rw [check_headcount_ok_iff]
    unfold threshold
    simp only [Bool.false_eq_true, if_false, Nat.sub_zero]
    omega
  · rw [check_headcount_ok_iff]
    unfold threshold
    simp only [if_true]
    omega
  · intro hodd
    rw [h1, h0]
    omega
  · intro heven
    rw [h1, h0]
    omega

/-- Witness of `headcount_twice`: with four peers a read passes with two peers
reached. -/
theorem headcount_twice_witness :
    ((_check_headcount ({1, 2, 3, 4} : Finset Nat) 2 (none : Option String) true :
        Except (Exn Nat Nat String) Unit) = .ok ()
      ↔ 2 * (2 : Int) ≥ (({1, 2, 3, 4} : Finset Nat).card : Int)) :=
  (@headcount_twice Nat Nat String ({1, 2, 3, 4} : Finset Nat) 2 none (by decide)).2.1

end Majority

/-! ## `state` and the proposer -/

section Frame

variable {Version ClientId Value E : Type} [LinearOrder Version] [LinearOrder ClientId]

/-- Successive calls of `state` leave the proposer as it is and advance the clock
by one each. -/
theorem state_repeat_eq (n : Nat) :
    ∀ (now : Nat) (c : Client Version ClientId Value E), state_repeat n now c = (c, now + n) := by
  induction n with
  | zero => intro now c; rfl
  | succ n ih =>
    intro now c
    unfold state_repeat
    rw [ih]
    unfold state
    dsimp only
    rw [Nat.add_assoc, Nat.add_comm 1 n]

/-- C23: `state()` leaves the proposer unchanged.  Whatever the call yields, a
`State` or an exception, `_round`, `_id`, `_peers` and `_conflict_backoff` are
after the call what they were before; the same holds after any number of
calls, so a `choose` made afterwards runs, at any given clock (the clock stands
for the state of the acceptors, not of the proposer), exactly as it would have
on the proposer before these calls: same proposals, same calls, same result. -/
theorem state_frame (now : Nat) (c : Client Version ClientId Value E) :
    (state now c).client._round = c._round ∧
    (state now c).client._id = c._id ∧
    (state now c).client._peers = c._peers ∧
    (state now c).client._conflict_backoff = c._conflict_backoff ∧
    (∀ n, (state_repeat n now c).1 = c) ∧
    (∀ (n : Nat) (rnd : Nat → Nat) (fuel now2 : Nat) (version : Version) (value : Value),
      choose rnd fuel now2 (state_repeat n now c).1 version value
        = choose rnd fuel now2 c version value ∧
      (choose rnd fuel (state_repeat n now c).2 (state_repeat n now c).1 version value).trace.map
          (fun it => it.proposal)
        = (choose rnd fuel (now + n) c version value).trace.map (fun it => it.proposal)) := by
  refine ⟨rfl, rfl, rfl, rfl, fun n => ?_, fun n rnd fuel now2 version value => ⟨?_, ?_⟩⟩
  · rw [state_repeat_eq]
  · rw [state_repeat_eq]
  · rw [state_repeat_eq]

end Frame

/-! ## Independence from the backoff -/

section Independence

variable {Version ClientId Value E : Type} [LinearOrder Version] [LinearOrder ClientId]

/-- The blocks "send acceptation" and "send confirmation" do the same, up to the
suspension, whatever the random draws and the backoff flag. -/
theorem accept_confirm_calls (rnd1 rnd2 : Nat → Nat) (now : Nat)
    (c : Client Version ClientId Value E) (b : Bool) (q : Quorum ClientId) (value : Value)
    (proposal : Proposal Version ClientId) (l : Loop Version Value) (unavailables : List Nat)
    (events : List (Event Version ClientId Value E)) :
    (accept_confirm rnd1 now c q value proposal l unavailables events).calls
      = (accept_confirm rnd2 now { c with _conflict_backoff := b } q value proposal l
          unavailables events).calls := by
  unfold accept_confirm Iteration.calls
  dsimp only
  generalize send_acceptation now q proposal (replace_or l.replace value) c._peers 0
      { reached := 0, conflicted := false, weak_error := none, unavailables := unavailables,
        version := l.version, _round := l._round, events := events, raised := none } = a
  cases hr : a.raised with
  | some ex => rfl
  | none =>
    dsimp only
    by_cases hc : a.conflicted = true
    · rw [if_pos hc, if_pos hc]
      dsimp only
      cases c._conflict_backoff <;> cases b <;>
        simp [List.filter_append, Event.delay]
    · rw [if_neg hc, if_neg hc]
      rfl

/-- One iteration does the same, up to the suspension, whatever the random draws
and the backoff flag. -/
theorem iteration_calls (rnd1 rnd2 : Nat → Nat) (now : Nat)
    (c : Client Version ClientId Value E) (b : Bool) (q : Quorum ClientId) (value : Value)
    (l : Loop Version Value) :
    (iteration rnd1 now c q value l).calls
      = (iteration rnd2 now { c with _conflict_backoff := b } q value l).calls := by
  have hp : prepare now { c with _conflict_backoff := b } q
      { version := l.version, round := l._round + 1, client := c._id }
      { l with _round := l._round + 1 }
      = prepare now c q { version := l.version, round := l._round + 1, client := c._id }
          { l with _round := l._round + 1 } := rfl
  unfold iteration
  dsimp only
  rw [hp]
  cases prepare now c q { version := l.version, round := l._round + 1, client := c._id }
      { l with _round := l._round + 1 } with
  | done flow l2 ev => rfl
  | proceed l2 u ev => exact accept_confirm_calls rnd1 rnd2 now c b q value _ l2 u ev

/-- The loop of `choose` does the same, up to the suspensions, whatever the random
draws and the backoff flag. -/
theorem choose_loop_calls (rnd1 rnd2 : Nat → Nat) (c : Client Version ClientId Value E)
    (b : Bool) (q : Quorum ClientId) (value : Value) (fuel : Nat) :
    ∀ (now : Nat) (l : Loop Version Value),
      (choose_loop rnd1 c q value fuel now l).flow
        = (choose_loop rnd2 { c with _conflict_backoff := b } q value fuel now l).flow ∧
      (choose_loop rnd1 c q value fuel now l).client._round
        = (choose_loop rnd2 { c with _conflict_backoff := b } q value fuel now l).client._round ∧
      (choose_loop rnd1 c q value fuel now l).now
        = (choose_loop rnd2 { c with _conflict_backoff := b } q value fuel now l).now ∧
      (choose_loop rnd1 c q value fuel now l).trace.map Iteration.calls
        = (choose_loop rnd2 { c with _conflict_backoff := b } q value fuel now l).trace.map
            Iteration.calls := by
  induction fuel with
  | zero => intro now l; exact ⟨rfl, rfl, rfl, rfl⟩
  | succ fuel ih =>
    intro now l
    have hit := iteration_calls rnd1 rnd2 now c b q value l
    have hflow : (iteration rnd1 now c q value l).flow
        = (iteration rnd2 now { c with _conflict_backoff := b } q value l).flow :=
      show (iteration rnd1 now c q value l).calls.flow
        = (iteration rnd2 now { c with _conflict_backoff := b } q value l).calls.flow from
        congrArg Iteration.flow hit
    have hloop : (iteration rnd1 now c q value l).loop
        = (iteration rnd2 now { c with _conflict_backoff := b } q value l).loop :=
      show (iteration rnd1 now c q value l).calls.loop
        = (iteration rnd2 now { c with _conflict_backoff := b } q value l).calls.loop from
        congrArg Iteration.loop hit
    unfold choose_loop
    dsimp only
    rw [← hflow, ← hloop]
    cases hf : (iteration rnd1 now c q value l).flow with
    | again =>
      dsimp only
      obtain ⟨i1, i2, i3, i4⟩ := ih (now + 1) (iteration rnd1 now c q value l).loop
      refine ⟨i1, i2, i3, ?_⟩
      rw [List.map_cons, List.map_cons, hit, i4]
    | returned ch =>
      dsimp only
      refine ⟨rfl, rfl, rfl, ?_⟩
      rw [List.map_cons, List.map_cons, hit]
    | raised ex =>
      dsimp only
      refine ⟨rfl, rfl, rfl, ?_⟩
      rw [List.map_cons, List.map_cons, hit]

/-- C24: for fixed peer replies, what `choose` does is independent of the random
draws and of the backoff flag.  Two calls that differ only in the draws and in
`_conflict_backoff` end the same way (the same `Choice` or the same
exception), leave the same `_round`, and go through the same iterations with
the same proposals and the same remote calls, with the same arguments and
replies, in the same order; the only events in which they can differ are the
suspensions. -/
theorem choose_independent_of_backoff (rnd1 rnd2 : Nat → Nat) (fuel now : Nat)
    (c : Client Version ClientId Value E) (b : Bool) (version : Version) (value : Value) :
    (choose rnd1 fuel now c version value).flow
      = (choose rnd2 fuel now { c with _conflict_backoff := b } version value).flow ∧
    (choose rnd1 fuel now c version value).client._round
      = (choose rnd2 fuel now { c with _conflict_backoff := b } version value).client._round ∧
    (choose rnd1 fuel now c version value).trace.map Iteration.calls
      = (choose rnd2 fuel now { c with _conflict_backoff := b } version value).trace.map
          Iteration.calls ∧
    (choose rnd1 fuel now c version value).trace.map (fun it => it.proposal)
      = (choose rnd2 fuel now { c with _conflict_backoff := b } version value).trace.map
          (fun it => it.proposal) ∧
    (∀ it ∈ (choose rnd1 fuel now c version value).trace, ∀ e ∈ it.events,
      e ∉ it.calls.events → ∃ d, e = Event.sleep d) := by
  obtain ⟨h1, h2, -, h4⟩ := choose_loop_calls rnd1 rnd2 c b (quorum c._peers) value fuel now
    { version := version, backoff := 1, replace := none, _round := c._round }
  refine ⟨h1, h2, h4, ?_, ?_⟩
  · have h5 := congrArg (List.map (fun it : Iteration Version ClientId Value E => it.proposal)) h4
    rw [List.map_map, List.map_map] at h5
    exact h5
  · intro it _ e he hne
    cases e with
    | sleep d => exact ⟨d, rfl⟩
    | propose j q2 p2 rep => exact absurd (by simp [Iteration.calls, Event.delay, he]) hne
    | accept j q2 p2 v2 rep => exact absurd (by simp [Iteration.calls, Event.delay, he]) hne
    | confirm j q2 p2 rep => exact absurd (by simp [Iteration.calls, Event.delay, he]) hne
    | get j q2 rep => exact absurd (by simp [Iteration.calls, Event.delay, he]) hne

end Independence

end elle.athena.paxos
